import Mathlib

/-!
# AllocaSSA: pointer provenance, liveness and join tracking over a CFG region

A shallow embedding of `src/compiler/cbs/AllocaSSA.cpp`, `AllocaSSA.hpp` and
`src/compiler/cbs/Region.cpp` of AdaptiveCpp.

* Basic blocks are numbered; block `0` is the entry block of the function.
* An instruction is identified by its position (`InstId`): the block that holds
  it and its index in that block.  This plays the role of the instruction's
  address, so two distinct instructions never share an identity.
* `SmallPtrSet` and `std::set` become `Finset`; `std::map` becomes an
  association list with unique keys; `std::vector` becomes `List`.
* Loops that the source runs "until the worklist is empty" are given a step
  function and a fuel-bounded driver that returns `none` when the fuel runs out.
-/

set_option linter.unusedVariables false

/-! ## IR model -/

/-- Identity of an instruction: parent block and index inside the block. -/
structure InstId where
  block : Nat
  idx : Nat
deriving DecidableEq, Repr

/-- An `llvm::Value` used as operand: an instruction, or anything else
(function argument, constant, global, basic block label). -/
inductive Value where
  | inst (id : InstId)
  | other (n : Nat)
deriving DecidableEq, Repr

/-- A call argument together with `getType()->isPointerTy()` of the argument. -/
structure CallArg where
  val : Value
  isPointerTy : Bool
deriving DecidableEq, Repr

/-- A formal parameter of a statically known callee. -/
structure Param where
  isPointerTy : Bool
  onlyReadsMemory : Bool
deriving DecidableEq, Repr

/-- The instructions the analysis tells apart.  `memTransfer` is an
`llvm::MemTransferInst` (a `CallInst` of type `void`); `other` is every
remaining instruction (phi, select, cast, getelementptr, terminators, ...). -/
inductive Inst where
  | alloca
  | load (ptr : Value) (isPointerTy : Bool)
  | store (val : Value) (ptr : Value)
  | memTransfer (dest : Value) (src : Value)
  | call (callee : Option (List Param)) (onlyReadsMemory : Bool)
      (args : List CallArg) (isPointerTy : Bool)
  | other (operands : List Value) (isPointerTy : Bool)
deriving DecidableEq, Repr

/-- Result type test `inst.getType()->isPointerTy()`.  An alloca always yields a
pointer, a store and a memory transfer are of type `void`. -/
def Inst.isPointerTy : Inst → Bool
  | .alloca => true
  | .load _ p => p
  | .store _ _ => false
  | .memTransfer _ _ => false
  | .call _ _ _ p => p
  | .other _ p => p

/-- The test `dyn_cast<AllocaInst>`. -/
def Inst.isAlloca : Inst → Bool
  | .alloca => true
  | _ => false

/-- The test `isa<LoadInst>`. -/
def Inst.isLoad : Inst → Bool
  | .load _ _ => true
  | _ => false

/-- The test `isa<CallInst>`: calls and memory-transfer intrinsics. -/
def Inst.isCall : Inst → Bool
  | .call _ _ _ _ => true
  | .memTransfer _ _ => true
  | _ => false

/-- A basic block: its instructions in order and the successors of its terminator. -/
structure BasicBlock where
  insts : List Inst
  succs : List Nat
deriving DecidableEq, Repr

/-- An `llvm::Function`: its basic blocks; block `0` is the entry block. -/
structure Func where
  blocks : List BasicBlock
deriving DecidableEq, Repr

/-- The block with number `b` (an empty block when `b` is out of range). -/
def Func.block (f : Func) (b : Nat) : BasicBlock :=
  f.blocks.getD b ⟨[], []⟩

/-- The instruction with identity `i`, if there is one. -/
def Func.instAt (f : Func) (i : InstId) : Option Inst :=
  (f.block i.block).insts.get? i.idx

/-- The successors of block `b`. -/
def Func.succs (f : Func) (b : Nat) : List Nat :=
  (f.block b).succs

/-- The predecessors of block `b` (`llvm::predecessors`): one entry per CFG edge
into `b`, so a predecessor with two edges into `b` is listed twice. -/
def Func.preds (f : Func) (b : Nat) : List Nat :=
  (List.range f.blocks.length).flatMap
    (fun p => ((f.succs p).filter (fun s => s = b)).map (fun _ => p))

/-- Run a loop body over the instructions of block `b`, in order, handing each
instruction its identity (`for (auto &inst : currBlock)`). -/
def forInsts {σ : Type} (b : Nat) (body : InstId → Inst → σ → σ) : Nat → List Inst → σ → σ
  | _, [], s => s
  | k, i :: rest, s => forInsts b body (k + 1) rest (body ⟨b, k⟩ i s)

/-! ## Association lists standing for `std::map` -/

/-- Lookup in a map (`find`). -/
def mapFind {κ ν : Type} [DecidableEq κ] : List (κ × ν) → κ → Option ν
  | [], _ => none
  | (k', v) :: rest, k => if k' = k then some v else mapFind rest k

/-- Assignment `m[k] = v`: overwrite the entry of `k`, or add one. -/
def mapSet {κ ν : Type} [DecidableEq κ] : List (κ × ν) → κ → ν → List (κ × ν)
  | [], k, v => [(k, v)]
  | (k', v') :: rest, k, v =>
    if k' = k then (k, v) :: rest else (k', v') :: mapSet rest k v

/-! ## The provenance lattice (`PtrProvenance`) -/

/-- The enum `ProvType`. -/
inductive ProvType where
  | Tracked
  | External
  | Wildcard
deriving DecidableEq, Repr

/-- The underlying `int32_t` value of a `ProvType`. -/
def ProvType.val : ProvType → Nat
  | .Tracked => 0
  | .External => 1
  | .Wildcard => 2

/-- The call `std::max<ProvType>(a, b)`: `b` if `a < b`, else `a`. -/
def ProvType.max (a b : ProvType) : ProvType :=
  if a.val < b.val then b else a

/-- The struct `PtrProvenance`: a rank and a set of allocas. -/
structure PtrProvenance where
  provType : ProvType
  allocs : Finset InstId

instance : DecidableEq PtrProvenance := fun a b =>
  decidable_of_iff (a.provType = b.provType ∧ a.allocs = b.allocs)
    (by cases a; cases b; simp)

/-- Default constructor `PtrProvenance()`: the bottom element. -/
def PtrProvenance.empty : PtrProvenance := ⟨.Tracked, ∅⟩

/-- Constructor `PtrProvenance(ProvType)`: an empty set at the given rank. -/
def PtrProvenance.ofType (t : ProvType) : PtrProvenance := ⟨t, ∅⟩

/-- Constructor `PtrProvenance(const AllocaInst *)`: `Tracked` with one alloca. -/
def PtrProvenance.ofAlloca (a : InstId) : PtrProvenance := ⟨.Tracked, {a}⟩

/-- The body of the insertion loop of `merge` run over an enumeration of
`Other.allocs`: `changed |= allocs.insert(alloc).second`. -/
def insertAll : List InstId → Bool × Finset InstId → Bool × Finset InstId
  | [], acc => acc
  | a :: rest, (changed, allocs) =>
    insertAll rest (changed || decide (a ∉ allocs), insert a allocs)

/-- The method `PtrProvenance::merge`: returns the flag `changed` and the new
value of the receiver.  The insertion loop over `Other.allocs` adds every
element of `Other.allocs` and raises `changed` when one of them is new. -/
def PtrProvenance.merge (self other : PtrProvenance) : Bool × PtrProvenance :=
  let changed := decide (self.provType ≠ other.provType)
  let provType := ProvType.max self.provType other.provType
  if provType = ProvType.Wildcard then
    (changed, ⟨provType, ∅⟩)
  else
    (changed || decide (¬ other.allocs ⊆ self.allocs), ⟨provType, self.allocs ∪ other.allocs⟩)

/-- The method `PtrProvenance::isBottom`. -/
def PtrProvenance.isBottom (p : PtrProvenance) : Bool :=
  decide (p.provType = ProvType.Tracked ∧ p.allocs = ∅)

/-- The method `PtrProvenance::isTop`. -/
def PtrProvenance.isTop (p : PtrProvenance) : Bool :=
  decide (p.provType = ProvType.Wildcard)

/-- A provenance value is well formed when a `Wildcard` carries no allocas. -/
def PtrProvenance.WellFormed (p : PtrProvenance) : Prop :=
  p.provType = ProvType.Wildcard → p.allocs = ∅

/-- The lattice order: `a ≤ b` iff `b` is `Wildcard`, or the rank of `a` is at
most the rank of `b` and the allocas of `a` are among those of `b`. -/
def PtrProvenance.le (a b : PtrProvenance) : Prop :=
  b.provType = ProvType.Wildcard ∨ (a.provType.val ≤ b.provType.val ∧ a.allocs ⊆ b.allocs)

instance (a b : PtrProvenance) : Decidable (PtrProvenance.le a b) :=
  inferInstanceAs
    (Decidable (b.provType = ProvType.Wildcard ∨
      (a.provType.val ≤ b.provType.val ∧ a.allocs ⊆ b.allocs)))

/-! ## Analysis state -/

/-- A descriptor `Desc`, identified the way the source identifies it (by
address, `otherDef != lastDef`).  A `Join` is embedded in the summary of block
`place`, one per block, so the block identifies it.  An `Effect` is an object of
its own, made by `new Effect(&inst)`: it carries its fields `place` and `inst`
and the address `addr` at which it was allocated, so two `Effect` objects made
for one instruction by two allocations are different descriptors. -/
inductive Desc where
  | Join (place : Nat)
  | Effect (place : Nat) (inst : InstId) (addr : Nat)
deriving DecidableEq, Repr

/-- Expression `new Effect(inst)` returning the address `addr`; the constructor
`Effect::Effect(inst)` sets the place to `inst->getParent()`. -/
def Desc.newEffect (inst : InstId) (addr : Nat) : Desc := .Effect inst.block inst addr

/-- The struct `BlockSummary` of a block: live allocas, the provenance set of
the block's own `Join` (`allocJoin.provSet`) and the live-out definitions. -/
structure BlockSummary where
  liveAllocas : Finset InstId
  allocJoin : PtrProvenance
  lastDef : Finset (InstId × Desc)

instance : DecidableEq BlockSummary := fun a b =>
  decidable_of_iff
    (a.liveAllocas = b.liveAllocas ∧ a.allocJoin = b.allocJoin ∧ a.lastDef = b.lastDef)
    (by cases a; cases b; simp)

/-- Constructor `BlockSummary(Block)`: nothing live, bottom join, no definitions. -/
def BlockSummary.new : BlockSummary := ⟨∅, PtrProvenance.empty, ∅⟩

/-- The member `getJoinSet`. -/
def BlockSummary.getJoinSet (s : BlockSummary) : PtrProvenance := s.allocJoin

/-- The data members of an `AllocaSSA` object. -/
structure AllocaSSA where
  instProvenance : List (InstId × PtrProvenance)
  instEffects : List (InstId × Desc)
  blockSummaries : List (Nat × BlockSummary)

instance : DecidableEq AllocaSSA := fun a b =>
  decidable_of_iff
    (a.instProvenance = b.instProvenance ∧ a.instEffects = b.instEffects ∧
      a.blockSummaries = b.blockSummaries)
    (by cases a; cases b; simp)

/-- A freshly constructed analysis object: all maps empty. -/
def AllocaSSA.new : AllocaSSA := ⟨[], [], []⟩

/-- The static member `emptyProvSingle`. -/
def AllocaSSA.emptyProvSingle : PtrProvenance := PtrProvenance.empty

/-- The static member `externalProvSingle`. -/
def AllocaSSA.externalProvSingle : PtrProvenance := PtrProvenance.ofType .External

/-- The member `getProvenance`. -/
def AllocaSSA.getProvenance (a : AllocaSSA) : Value → PtrProvenance
  | .other _ => AllocaSSA.externalProvSingle
  | .inst i =>
    match mapFind a.instProvenance i with
    | none => AllocaSSA.emptyProvSingle
    | some p => p

/-- The member `getBlockSummary`: `none` stands for `nullptr`. -/
def AllocaSSA.getBlockSummary (a : AllocaSSA) (b : Nat) : Option BlockSummary :=
  mapFind a.blockSummaries b

/-- The member `requestBlockSummary`: the object after the request (a new summary
is added when there was none). -/
def AllocaSSA.requestBlockSummary (a : AllocaSSA) (b : Nat) : AllocaSSA :=
  match mapFind a.blockSummaries b with
  | some _ => a
  | none => { a with blockSummaries := mapSet a.blockSummaries b BlockSummary.new }

/-- The summary of `b`, read through the reference that `requestBlockSummary`
returned (a fresh summary when the block has none). -/
def AllocaSSA.summary (a : AllocaSSA) (b : Nat) : BlockSummary :=
  (mapFind a.blockSummaries b).getD BlockSummary.new

/-- Write through a reference to the summary of `b`. -/
def AllocaSSA.setSummary (a : AllocaSSA) (b : Nat) (s : BlockSummary) : AllocaSSA :=
  { a with blockSummaries := mapSet a.blockSummaries b s }

/-- The member `isLive`. -/
def AllocaSSA.isLive (a : AllocaSSA) (alloca : InstId) (b : Nat) : Bool :=
  match a.getBlockSummary b with
  | none => false
  | some s => decide (alloca ∈ s.liveAllocas)

/-- The member `getJoinNode`: the `Join` of the block (its identity and its
provenance set), or `none` for `nullptr`. -/
def AllocaSSA.getJoinNode (a : AllocaSSA) (b : Nat) : Option (Desc × PtrProvenance) :=
  match a.getBlockSummary b with
  | none => none
  | some s => some (Desc.Join b, s.allocJoin)

/-! ## Pointer provenance pass (`computePointerProvenance`) -/

/-- The local state of the worklist loop of `computePointerProvenance` together
with the provenance map it updates.  The worklist is a stack whose top is the
head of the list. -/
structure ProvState where
  worklist : List Nat
  seenBlocks : Finset Nat
  instProvenance : List (InstId × PtrProvenance)

instance : DecidableEq ProvState := fun a b =>
  decidable_of_iff
    (a.worklist = b.worklist ∧ a.seenBlocks = b.seenBlocks ∧
      a.instProvenance = b.instProvenance)
    (by cases a; cases b; simp)

/-- The operand loop of the generic transformer: join the provenance of every
instruction operand that has a record into `oldProv`. -/
def joinOperands (prov : List (InstId × PtrProvenance)) :
    List Value → Bool × PtrProvenance → Bool × PtrProvenance
  | [], acc => acc
  | .other _ :: rest, acc => joinOperands prov rest acc
  | .inst op :: rest, (instChanged, oldProv) =>
    match mapFind prov op with
    | none => joinOperands prov rest (instChanged, oldProv)
    | some opProv =>
      let r := oldProv.merge opProv
      joinOperands prov rest (instChanged || r.1, r.2)

/-- The body of the instruction scan of `computePointerProvenance`, on the pair
(`changed`, `instProvenance`). -/
def provInst (id : InstId) (inst : Inst) (st : Bool × List (InstId × PtrProvenance)) :
    Bool × List (InstId × PtrProvenance) :=
  if !inst.isPointerTy then st
  else if inst.isAlloca then
    if (mapFind st.2 id).isSome then st
    else (true, mapSet st.2 id (PtrProvenance.ofAlloca id))
  else if inst.isLoad || inst.isCall then
    if (mapFind st.2 id).isSome then st
    else (true, mapSet st.2 id (PtrProvenance.ofType .Wildcard))
  else
    match inst with
    | .other operands _ =>
      -- the access instProvenance[&inst] creates a bottom record when there is none
      let prov := if (mapFind st.2 id).isSome then st.2 else mapSet st.2 id PtrProvenance.empty
      let oldProv := (mapFind prov id).getD PtrProvenance.empty
      let r := joinOperands prov operands (false, oldProv)
      if r.1 then (true, mapSet prov id r.2) else (st.1, prov)
    | _ => st

/-- One iteration of the worklist loop of `computePointerProvenance`. -/
def provStep (f : Func) (st : ProvState) : ProvState :=
  match st.worklist with
  | [] => st
  | currBlock :: rest =>
    let changed := decide (currBlock ∉ st.seenBlocks)
    let seen := insert currBlock st.seenBlocks
    let r := forInsts currBlock provInst 0 (f.block currBlock).insts (changed, st.instProvenance)
    if r.1 then
      ⟨(f.succs currBlock).foldl (fun wl s => s :: wl) rest, seen, r.2⟩
    else
      ⟨rest, seen, r.2⟩

/-- The worklist loop, bounded by `fuel` iterations; `none` when the worklist is
not empty after `fuel` iterations. -/
def provLoop (f : Func) : Nat → ProvState → Option ProvState
  | 0, st => if st.worklist = [] then some st else none
  | fuel + 1, st => if st.worklist = [] then some st else provLoop f fuel (provStep f st)

/-- The state in which `computePointerProvenance` enters its loop. -/
def provInit (entry : Nat) (a : AllocaSSA) : ProvState :=
  ⟨[entry], ∅, a.instProvenance⟩

/-- The member `computePointerProvenance`, started at the region entry. -/
def AllocaSSA.computePointerProvenance (f : Func) (entry : Nat) (fuel : Nat) (a : AllocaSSA) :
    Option AllocaSSA :=
  (provLoop f fuel (provInit entry a)).map
    (fun st => { a with instProvenance := st.instProvenance })

/-! ## Regions (`Region.cpp`) -/

/-- An `llvm::Loop` as far as `LoopRegion` uses it: its header and its blocks. -/
structure Loop where
  header : Nat
  blocks : List Nat
deriving DecidableEq, Repr

/-- The member `Loop::contains`. -/
def Loop.contains (l : Loop) (b : Nat) : Bool := decide (b ∈ l.blocks)

/-- The member `Loop::getExitBlocks`: every successor of a loop block that lies
outside the loop, one entry per edge. -/
def Loop.getExitBlocks (f : Func) (l : Loop) : List Nat :=
  l.blocks.flatMap (fun b => (f.succs b).filter (fun s => !l.contains s))

/-- The implementations of `RegionImpl`.  `FunctionRegion` holds the block set it
was constructed with, `LoopRegion` a loop; `Base` is an implementation that
defines only the pure virtual members (`contains`, `getRegionEntry`) and inherits
`RegionImpl::getEndingBlocks` and `RegionImpl::forEachBlock`. -/
inductive RegionImpl where
  | FunctionRegion (Blocks : List Nat)
  | LoopRegion (loop : Loop)
  | Base (entry : Nat) (blocks : List Nat)
deriving DecidableEq, Repr

/-- The virtual member `contains`. -/
def RegionImpl.contains : RegionImpl → Nat → Bool
  | .FunctionRegion Blocks, b => decide (b ∈ Blocks)
  | .LoopRegion loop, b => loop.contains b
  | .Base _ blocks, b => decide (b ∈ blocks)

/-- The virtual member `getRegionEntry`; the entry block of a function is block `0`. -/
def RegionImpl.getRegionEntry : RegionImpl → Nat
  | .FunctionRegion _ => 0
  | .LoopRegion loop => loop.header
  | .Base entry _ => entry

/-- Insertion into a `SmallPtrSet` kept as a duplicate-free list. -/
def setInsert (s : List Nat) (b : Nat) : List Nat :=
  if b ∈ s then s else s ++ [b]

/-- The local state of the loop of `RegionImpl::getEndingBlocks`. -/
structure EndingState where
  blockStack : List Nat
  visitedBlocks : List Nat
  endingBlocks : List Nat
deriving DecidableEq, Repr

/-- One iteration of the loop of `RegionImpl::getEndingBlocks`. -/
def endingStep (f : Func) (impl : RegionImpl) (st : EndingState) : EndingState :=
  match st.blockStack with
  | [] => st
  | block :: rest =>
    if block ∈ st.visitedBlocks then { st with blockStack := rest }
    else
      (f.succs block).foldl
        (fun acc successor =>
          if impl.contains successor then { acc with blockStack := successor :: acc.blockStack }
          else { acc with endingBlocks := setInsert acc.endingBlocks successor })
        { st with blockStack := rest, visitedBlocks := block :: st.visitedBlocks }

/-- The loop of `RegionImpl::getEndingBlocks`, bounded by `fuel` iterations. -/
def endingLoop (f : Func) (impl : RegionImpl) : Nat → EndingState → Option EndingState
  | 0, st => if st.blockStack = [] then some st else none
  | fuel + 1, st =>
    if st.blockStack = [] then some st else endingLoop f impl fuel (endingStep f impl st)

/-- The number of CFG edges of the function. -/
def Func.edgeCount (f : Func) : Nat :=
  (f.blocks.map (fun b => b.succs.length)).sum

/-- The virtual member `getEndingBlocks` with its in-out parameter.  `none` is a
failed assertion (or a loop that did not finish within its bound).  The default
implementation asserts that the set is empty and runs its loop; every block is
expanded at most once, so the stack sees at most one push per CFG edge and the
bound is `2 * edgeCount + 2` iterations. -/
def RegionImpl.getEndingBlocks (f : Func) (impl : RegionImpl) (endingBlocks : List Nat) :
    Option (List Nat) :=
  match impl with
  | .FunctionRegion Blocks =>
    some ((Blocks.dedup.filter (fun b => (f.succs b).length = 0)).foldl setInsert endingBlocks)
  | .LoopRegion loop =>
    some ((loop.getExitBlocks f).foldl setInsert endingBlocks)
  | .Base entry _ =>
    if endingBlocks = [] then
      (endingLoop f impl (2 * f.edgeCount + 2) ⟨[entry], [], endingBlocks⟩).map
        (fun st => st.endingBlocks)
    else none

/-- The class `Region`: an implementation and the extra blocks added with `add`. -/
structure Region where
  mImpl : RegionImpl
  extraBlocks : List Nat
deriving DecidableEq, Repr

/-- The member `Region::add`. -/
def Region.add (r : Region) (extra : Nat) : Region :=
  { r with extraBlocks := setInsert r.extraBlocks extra }

/-- The member `Region::contains`. -/
def Region.contains (r : Region) (b : Nat) : Bool :=
  if b ∈ r.extraBlocks then true else r.mImpl.contains b

/-- The member `Region::getRegionEntry`. -/
def Region.getRegionEntry (r : Region) : Nat := r.mImpl.getRegionEntry

/-- The member `Region::getEndingBlocks`. -/
def Region.getEndingBlocks (f : Func) (r : Region) (endingBlocks : List Nat) :
    Option (List Nat) :=
  r.mImpl.getEndingBlocks f endingBlocks

/-- Depth-first post-order numbering as done by `llvm::po_iterator`: a block is
emitted after the unvisited successors reached through it, successors taken in
terminator order.  The pair is (visited blocks, post-order so far); `fuel`
bounds the depth of the search. -/
def poVisit (f : Func) : Nat → Nat → List Nat × List Nat → List Nat × List Nat
  | 0, _, acc => acc
  | fuel + 1, b, acc =>
    if b ∈ acc.1 then acc
    else
      let r := (f.succs b).foldl (fun acc' s => poVisit f fuel s acc') (b :: acc.1, acc.2)
      (r.1, r.2 ++ [b])

/-- The blocks of `ReversePostOrderTraversal{&F}` in iteration order. -/
def Func.rpo (f : Func) : List Nat :=
  (poVisit f (f.blocks.length + 1) 0 ([], [])).2.reverse

/-- The member `Region::forBlocksRpo`: the visitor is applied to every block of
the reverse post-order that the region contains; the value the visitor returns
is not looked at. -/
def Region.forBlocksRpo {σ : Type} (f : Func) (r : Region) (userFunc : Nat → σ → Bool × σ)
    (s : σ) : σ :=
  (f.rpo).foldl
    (fun acc b =>
      if r.mImpl.contains b || decide (b ∈ r.extraBlocks) then (userFunc b acc).2 else acc)
    s

/-! ## Liveness pass (`computeLiveness`) -/

/-- The function `GetAccessedPointer` (for stores and loads). -/
def GetAccessedPointer : Inst → Option Value
  | .store _ ptr => some ptr
  | .load ptr _ => some ptr
  | _ => none

/-- The local state of the loop of `computeLiveness` together with the analysis
object.  The stack top is the head of the list. -/
structure LiveState where
  stack : List Nat
  alreadyVisited : Finset Nat
  ssa : AllocaSSA

instance : DecidableEq LiveState := fun a b =>
  decidable_of_iff
    (a.stack = b.stack ∧ a.alreadyVisited = b.alreadyVisited ∧ a.ssa = b.ssa)
    (by cases a; cases b; simp)

/-- The body of the instruction scan of `computeLiveness` on the pair
(`changed`, `summary.liveAllocas`): a load through an instruction pointer makes
every alloca of the pointer's provenance set live. -/
def liveInst (a : AllocaSSA) (id : InstId) (inst : Inst) (st : Bool × Finset InstId) :
    Bool × Finset InstId :=
  match inst with
  | .load (.inst p) _ =>
    let ptrProv := a.getProvenance (.inst p)
    (st.1 || decide (¬ ptrProv.allocs ⊆ st.2), st.2 ∪ ptrProv.allocs)
  | _ => st

/-- The body of the predecessor loop of `computeLiveness` on the pair
(`stack`, analysis object); `live` is `summary.liveAllocas` of the current block. -/
def livePred (currBlock : Nat) (changed : Bool) (live : Finset InstId)
    (st : List Nat × AllocaSSA) (pred : Nat) : List Nat × AllocaSSA :=
  if pred = currBlock then st
  else
    let a1 := st.2.requestBlockSummary pred
    let predSummary := a1.summary pred
    let predChanged := changed || decide (¬ live ⊆ predSummary.liveAllocas)
    let a2 := a1.setSummary pred { predSummary with liveAllocas := predSummary.liveAllocas ∪ live }
    (if predChanged then pred :: st.1 else st.1, a2)

/-- One iteration of the loop of `computeLiveness`. -/
def liveStep (f : Func) (st : LiveState) : LiveState :=
  match st.stack with
  | [] => st
  | currBlock :: rest =>
    let changed := decide (currBlock ∉ st.alreadyVisited)
    let a1 := st.ssa.requestBlockSummary currBlock
    let summary := a1.summary currBlock
    let r := forInsts currBlock (liveInst a1) 0 (f.block currBlock).insts
      (changed, summary.liveAllocas)
    let a2 := a1.setSummary currBlock { summary with liveAllocas := r.2 }
    let r2 := (f.preds currBlock).foldl (livePred currBlock r.1 r.2) (rest, a2)
    ⟨r2.1, insert currBlock st.alreadyVisited, r2.2⟩

/-- The loop of `computeLiveness`, bounded by `fuel` iterations. -/
def liveLoop (f : Func) : Nat → LiveState → Option LiveState
  | 0, st => if st.stack = [] then some st else none
  | fuel + 1, st => if st.stack = [] then some st else liveLoop f fuel (liveStep f st)

/-- The member `computeLiveness`.  The ending blocks are pushed in iteration
order of the set, so the last one is on top of the stack. -/
def AllocaSSA.computeLiveness (f : Func) (region : Region) (fuel : Nat) (a : AllocaSSA) :
    Option AllocaSSA :=
  match region.getEndingBlocks f [] with
  | none => none
  | some endingBlocks =>
    (liveLoop f fuel ⟨endingBlocks.reverse, ∅, a⟩).map (fun st => st.ssa)

/-! ## Written pointers (`GetUnwrittenArguments`, `GetWrittenPointers`) -/

/-- The function `GetUnwrittenArguments`: the indices of the callee parameters
that are not writable pointers; empty when the callee is unknown. -/
def GetUnwrittenArguments : Option (List Param) → Finset Nat
  | none => ∅
  | some params =>
    ((List.range params.length).filter
      (fun i => match params.get? i with
        | some p => !(p.isPointerTy && !p.onlyReadsMemory)
        | none => false)).toFinset

/-- The argument loop of `GetWrittenPointers` on the pair (`i`, `writtenPtrs`);
the counter `i` advances only when an argument is recorded. -/
def writtenArgs (unwrittenArgIndices : Finset Nat) :
    List CallArg → Nat × List Value → Nat × List Value
  | [], acc => acc
  | callArg :: rest, (i, writtenPtrs) =>
    if !callArg.isPointerTy then writtenArgs unwrittenArgIndices rest (i, writtenPtrs)
    else if i ∈ unwrittenArgIndices then writtenArgs unwrittenArgIndices rest (i, writtenPtrs)
    else writtenArgs unwrittenArgIndices rest (i + 1, writtenPtrs ++ [callArg.val])

/-- The function `GetWrittenPointers`: the returned flag and `writtenPtrs`. -/
def GetWrittenPointers : Inst → Bool × List Value
  | .store _ ptr => (true, [ptr])
  | .memTransfer dest _ => (true, [dest])
  | .call callee onlyReadsMemory args _ =>
    if onlyReadsMemory then (false, [])
    else
      let writtenPtrs := (writtenArgs (GetUnwrittenArguments callee) args (0, [])).2
      (!writtenPtrs.isEmpty, writtenPtrs)
  | _ => (false, [])

/-! ## Definition and join tracking (`compute`) -/

/-- Assignment `lastDefMap[a] = d` for every `a` of a set, on a definition map
kept as the set of its (key, value) pairs. -/
def defSetAll (m : Finset (InstId × Desc)) (keys : Finset InstId) (d : Desc) :
    Finset (InstId × Desc) :=
  (m.filter (fun e => e.1 ∉ keys)) ∪ keys.image (fun a => (a, d))

/-- The local state of the fixpoint loop of `compute` together with the analysis
object. -/
structure DefState where
  worklist : Finset Nat
  keepGoing : Bool
  ssa : AllocaSSA

instance : DecidableEq DefState := fun a b =>
  decidable_of_iff
    (a.worklist = b.worklist ∧ a.keepGoing = b.keepGoing ∧ a.ssa = b.ssa)
    (by cases a; cases b; simp)

/-- The body of the predecessor loop of `compute` on (`lastDefMap`, `joinSet`):
every definition of the predecessor for an alloca that is live in the current
block is taken over when the alloca has no definition yet, and the alloca joins
`joinSet` when it has a different one.  The keys of a map are distinct, so the
entries of the predecessor are handled independently of each other. -/
def joinPred (a : AllocaSSA) (currBlock : Nat)
    (st : Finset (InstId × Desc) × PtrProvenance) (inBlock : Nat) :
    Finset (InstId × Desc) × PtrProvenance :=
  let inDefs := ((a.summary inBlock).lastDef).filter (fun e => a.isLive e.1 currBlock)
  let fresh := inDefs.filter (fun e => ∀ e' ∈ st.1, e'.1 ≠ e.1)
  let clash := inDefs.filter (fun e => ∃ e' ∈ st.1, e'.1 = e.1 ∧ e'.2 ≠ e.2)
  (st.1 ∪ fresh, { st.2 with allocs := st.2.allocs ∪ clash.image Prod.fst })

/-- Join the provenances of the written pointers that are instructions. -/
def joinWritten (a : AllocaSSA) : List Value → PtrProvenance → PtrProvenance
  | [], joinedProv => joinedProv
  | .other _ :: rest, joinedProv => joinWritten a rest joinedProv
  | .inst p :: rest, joinedProv =>
    joinWritten a rest (joinedProv.merge (a.getProvenance (.inst p))).2

/-- The body of the instruction scan of `compute` on
(`blockChanged`, `instEffects`, `lastDefMap`).  The map `instEffects` owns the
`Effect` objects and none is freed while the analysis runs, so the allocation
`new Effect(&inst)` made when the map holds `n` objects is given the address `n`. -/
def defInst (a : AllocaSSA) (allocVec : List InstId) (id : InstId) (inst : Inst)
    (st : Bool × List (InstId × Desc) × Finset (InstId × Desc)) :
    Bool × List (InstId × Desc) × Finset (InstId × Desc) :=
  let w := GetWrittenPointers inst
  if w.1 then
    let joinedProv := joinWritten a w.2 PtrProvenance.empty
    let blockChanged := st.1 || (mapFind st.2.1 id).isNone
    let instEffects :=
      if (mapFind st.2.1 id).isNone then mapSet st.2.1 id (Desc.newEffect id st.2.1.length)
      else st.2.1
    let memEffect := (mapFind instEffects id).getD (Desc.newEffect id st.2.1.length)
    if joinedProv.isTop then
      (blockChanged, instEffects, defSetAll st.2.2 allocVec.toFinset memEffect)
    else
      (blockChanged, instEffects, defSetAll st.2.2 joinedProv.allocs memEffect)
  else st

/-- The summaries requested while a block is processed: its own and, in the
predecessor loop, that of every predecessor. -/
def requestPreds (f : Func) (currBlock : Nat) (a : AllocaSSA) : AllocaSSA :=
  (f.preds currBlock).foldl (fun a inBlock => a.requestBlockSummary inBlock)
    (a.requestBlockSummary currBlock)

/-- The predecessor loop of `compute`: the incoming definitions (`lastDefMap`) and
the allocas with disagreeing definitions (`joinSet`). -/
def defJoin (f : Func) (a : AllocaSSA) (currBlock : Nat) :
    Finset (InstId × Desc) × PtrProvenance :=
  (f.preds currBlock).foldl (joinPred a currBlock) (∅, PtrProvenance.empty)

/-- The work of the visitor of `compute` on a scheduled block: the flag returned
by the merge into the block's join, the final `blockChanged`, and the analysis
object after the visit. -/
def defBlock (f : Func) (allocVec : List InstId) (currBlock : Nat) (a : AllocaSSA) :
    Bool × Bool × AllocaSSA :=
  let a1 := requestPreds f currBlock a
  let summary := a1.summary currBlock
  -- compute provenances with disagreeing definitions from incoming values
  let j := defJoin f a1 currBlock
  let joinSet := j.2
  -- update join
  let m := summary.allocJoin.merge joinSet
  -- register join as live-in definition
  let lastDefMap := defSetAll j.1 joinSet.allocs (Desc.Join currBlock)
  -- detect instructions that operate on the alloca memory states
  let r := forInsts currBlock (defInst a1 allocVec) 0 (f.block currBlock).insts
    (m.1, a1.instEffects, lastDefMap)
  -- register live out changes
  let blockChanged := r.1 || decide (summary.lastDef ≠ r.2.2)
  let summary' : BlockSummary := ⟨summary.liveAllocas, m.2, r.2.2⟩
  (m.1, blockChanged, ({ a1 with instEffects := r.2.1 }).setSummary currBlock summary')

/-- The visitor that `compute` hands to `forBlocksRpo`: the returned flag and the
new state. -/
def defVisit (f : Func) (allocVec : List InstId) (currBlock : Nat) (st : DefState) :
    Bool × DefState :=
  -- skip this block if it is not scheduled
  if currBlock ∉ st.worklist then (true, st)
  else
    let worklist := st.worklist.erase currBlock
    let r := defBlock f allocVec currBlock st.ssa
    let keepGoing := (st.keepGoing || r.1) || r.2.1
    if !r.2.1 then (true, ⟨worklist, keepGoing, r.2.2⟩)
    else
      -- push successors
      let worklist := (f.succs currBlock).foldl (fun wl s => insert s wl) worklist
      (decide (worklist ≠ ∅), ⟨worklist, keepGoing, r.2.2⟩)

/-- One pass of the body of `while (keepGoing)`. -/
def defSweep (f : Func) (region : Region) (allocVec : List InstId) (st : DefState) : DefState :=
  region.forBlocksRpo f (defVisit f allocVec) { st with keepGoing := false }

/-- The loop `while (keepGoing)` of `compute`, bounded by `fuel` sweeps. -/
def defLoop (f : Func) (region : Region) (allocVec : List InstId) :
    Nat → DefState → Option DefState
  | 0, st => if st.keepGoing then none else some st
  | fuel + 1, st =>
    if st.keepGoing then defLoop f region allocVec fuel (defSweep f region allocVec st)
    else some st

/-- The allocas of a block, in order (`allocVec` for the region entry). -/
def collectAllocas (b : Nat) : Nat → List Inst → List InstId
  | _, [] => []
  | k, i :: rest =>
    if i.isAlloca then ⟨b, k⟩ :: collectAllocas b (k + 1) rest else collectAllocas b (k + 1) rest

/-- The part of `compute` after `computeLiveness`. -/
def AllocaSSA.computeDefs (f : Func) (region : Region) (fuel : Nat) (a : AllocaSSA) :
    Option AllocaSSA :=
  let allocVec := collectAllocas region.getRegionEntry 0 (f.block region.getRegionEntry).insts
  (defLoop f region allocVec fuel ⟨{region.getRegionEntry}, true, a⟩).map (fun st => st.ssa)

/-- The member `compute`; each of its three loops gets `fuel` iterations. -/
def AllocaSSA.compute (f : Func) (region : Region) (fuel : Nat) (a : AllocaSSA) :
    Option AllocaSSA :=
  match a.computePointerProvenance f region.getRegionEntry fuel with
  | none => none
  | some a1 =>
    match a1.computeLiveness f region fuel with
    | none => none
    | some a2 => a2.computeDefs f region fuel

/-- The live allocas of a block as seen through `isLive`. -/
def AllocaSSA.liveSet (a : AllocaSSA) (b : Nat) : Finset InstId :=
  (a.summary b).liveAllocas

/-- The join set of a block: the provenance set of its `Join`, bottom when the
block has no summary. -/
def AllocaSSA.joinSet (a : AllocaSSA) (b : Nat) : PtrProvenance :=
  (a.summary b).allocJoin

/-! ## Example functions -/

/-- A loop that selects between a loaded pointer and an alloca:
```
entry(0): a = alloca ; br loop
loop(1):  l = load ptr, ptr %arg ; s = select i1 %c, ptr l, ptr a ; br i1 %c, loop, exit
exit(2):  ret
``` -/
def selectLoop : Func :=
  ⟨[⟨[.alloca, .other [] false], [1]⟩,
    ⟨[.load (.other 0) true, .other [.other 1, .inst ⟨1, 0⟩, .inst ⟨0, 0⟩] true,
      .other [.other 1] false], [1, 2]⟩,
    ⟨[.other [] false], []⟩]⟩

/-- A loop whose header phi merges an alloca with a pointer loaded in the latch,
the phi being used two blocks further down:
```
entry(0):  a = alloca ; br header
header(1): p = phi ptr [a, entry], [g, latch] ; br mid
mid(2):    br latch
latch(3):  i = getelementptr p, %n ; g = load ptr, ptr %arg ; br i1 %c, header, exit
exit(4):   ret
``` -/
def phiLoop : Func :=
  ⟨[⟨[.alloca, .other [] false], [1]⟩,
    ⟨[.other [.inst ⟨0, 0⟩, .inst ⟨3, 1⟩] true, .other [] false], [2]⟩,
    ⟨[.other [] false], [3]⟩,
    ⟨[.other [.inst ⟨1, 0⟩, .other 0] true, .load (.other 1) true, .other [.other 2] false],
      [1, 4]⟩,
    ⟨[.other [] false], []⟩]⟩

/-- The loop `phiLoop` with a load through the `getelementptr` of the latch in the
exit block:
```
entry(0):  a = alloca ; br header
header(1): p = phi ptr [a, entry], [g, latch] ; br mid
mid(2):    br latch
latch(3):  i = getelementptr p, %n ; g = load ptr, ptr %arg ; br i1 %c, header, exit
exit(4):   v = load i32, ptr i ; ret v
``` -/
def phiLoopLoad : Func :=
  ⟨[⟨[.alloca, .other [] false], [1]⟩,
    ⟨[.other [.inst ⟨0, 0⟩, .inst ⟨3, 1⟩] true, .other [] false], [2]⟩,
    ⟨[.other [] false], [3]⟩,
    ⟨[.other [.inst ⟨1, 0⟩, .other 0] true, .load (.other 1) true, .other [.other 2] false],
      [1, 4]⟩,
    ⟨[.load (.inst ⟨3, 0⟩) false, .other [.inst ⟨4, 0⟩] false], []⟩]⟩

/-- The diamond of the end-to-end scenario:
```
entry(0): x = alloca ; br i1 %c, then, else
then(1):  store 1, x ; br merge
else(2):  store 2, x ; br merge
merge(3): v = load i32, x ; ret v
``` -/
def diamond : Func :=
  ⟨[⟨[.alloca, .other [.other 0] false], [1, 2]⟩,
    ⟨[.store (.other 1) (.inst ⟨0, 0⟩), .other [] false], [3]⟩,
    ⟨[.store (.other 2) (.inst ⟨0, 0⟩), .other [] false], [3]⟩,
    ⟨[.load (.inst ⟨0, 0⟩) false, .other [.inst ⟨3, 0⟩] false], []⟩]⟩

/-- The diamond with an initialising store in the entry block:
```
entry(0): x = alloca ; store 0, x ; br i1 %c, then, else
then(1):  store 1, x ; br merge
else(2):  store 2, x ; br merge
merge(3): v = load i32, x ; ret v
``` -/
def diamondStore : Func :=
  ⟨[⟨[.alloca, .store (.other 0) (.inst ⟨0, 0⟩), .other [.other 1] false], [1, 2]⟩,
    ⟨[.store (.other 1) (.inst ⟨0, 0⟩), .other [] false], [3]⟩,
    ⟨[.store (.other 2) (.inst ⟨0, 0⟩), .other [] false], [3]⟩,
    ⟨[.load (.inst ⟨0, 0⟩) false, .other [.inst ⟨3, 0⟩] false], []⟩]⟩

/-- The function region that holds the first `n` blocks of a function. -/
def functionRegion (n : Nat) : Region := ⟨.FunctionRegion (List.range n), []⟩

/-- Block `b` can be reached from block `a` along CFG successor edges. -/
def Func.Reachable (f : Func) (a b : Nat) : Prop :=
  Relation.ReflTransGen (fun u v => v ∈ f.succs u) a b

/-! ## Invariants used in the proofs -/

/-- Every record held for an alloca instruction `i` is `Tracked({i})`. -/
def AllocaOK (f : Func) (prov : List (InstId × PtrProvenance)) : Prop :=
  ∀ i v, mapFind prov i = some v → f.instAt i = some Inst.alloca → v = PtrProvenance.ofAlloca i

/-- The invariant of the worklist loop of `computePointerProvenance`: alloca
records are exact, the allocas of every seen block are recorded, the successors
of a seen block are seen or pending, and the entry is seen or pending. -/
def ProvInv (f : Func) (entry : Nat) (st : ProvState) : Prop :=
  AllocaOK f st.instProvenance ∧
  (∀ b ∈ st.seenBlocks, ∀ k, f.instAt ⟨b, k⟩ = some Inst.alloca →
    (mapFind st.instProvenance ⟨b, k⟩).isSome) ∧
  (∀ b ∈ st.seenBlocks, ∀ s ∈ f.succs b, s ∈ st.seenBlocks ∨ s ∈ st.worklist) ∧
  (entry ∈ st.seenBlocks ∨ entry ∈ st.worklist)

/-- The invariant of the loop of `computeLiveness`: a block that is not pending
on the stack has handed its live allocas to every predecessor other than itself. -/
def LiveInv (f : Func) (st : LiveState) : Prop :=
  ∀ B, B ∉ st.stack → ∀ P ∈ f.preds B, P ≠ B → st.ssa.liveSet B ⊆ st.ssa.liveSet P

/-- A definition map holds at most one definition per alloca. -/
def DefFunctional (m : Finset (InstId × Desc)) : Prop :=
  ∀ e ∈ m, ∀ e' ∈ m, e.1 = e'.1 → e.2 = e'.2

/-- The invariant of the analysis object used for the join sets: every
definition map is a map, and the join set of a block whose predecessor edges all
come from one block is bottom. -/
def JoinInv (f : Func) (a : AllocaSSA) : Prop :=
  (∀ b, DefFunctional (a.summary b).lastDef) ∧
  (∀ B P, (∀ p ∈ f.preds B, p = P) → (a.summary B).allocJoin = PtrProvenance.empty)


/-! ## Block visitors (`forEachBlock`) -/

/-- The loop of `RegionImpl::forEachBlock` over the blocks of the function: a block
outside the region is skipped, the visitor is applied to the others, and the
loop is left when the visitor returns `false`. -/
def forEachBlockLoop {σ : Type} (contains : Nat → Bool) (UserFunc : Nat → σ → Bool × σ) :
    List Nat → σ → σ
  | [], s => s
  | BB :: rest, s =>
    if !contains BB then forEachBlockLoop contains UserFunc rest s
    else
      let r := UserFunc BB s
      if !r.1 then r.2 else forEachBlockLoop contains UserFunc rest r.2

/-- The member `RegionImpl::forEachBlock` (inherited by every implementation): the
blocks of the function of the region entry are taken in function order. -/
def RegionImpl.forEachBlock {σ : Type} (f : Func) (impl : RegionImpl)
    (UserFunc : Nat → σ → Bool × σ) (s : σ) : σ :=
  forEachBlockLoop impl.contains UserFunc (List.range f.blocks.length) s

/-- The member `Region::forEachBlock`: the implementation's loop, then the visitor
on every extra block. -/
def Region.forEachBlock {σ : Type} (f : Func) (r : Region) (userFunc : Nat → σ → Bool × σ)
    (s : σ) : σ :=
  r.extraBlocks.foldl (fun acc block => (userFunc block acc).2)
    (r.mImpl.forEachBlock f userFunc s)

/-- A visitor that appends the block it is invoked on to a log and returns
`answer` of that block. -/
def recordVisits (answer : Nat → Bool) (b : Nat) (log : List Nat) : Bool × List Nat :=
  (answer b, log ++ [b])

/-! ## Further example functions -/

/-- A loop that stores to an alloca made before the loop; the value is loaded
after the loop:
```
entry(0):  x = alloca ; store 0, x ; br header
header(1): store 1, x ; br i1 %c, latch, exit
latch(2):  br header
exit(3):   v = load i32, x ; ret v
``` -/
def loopStore : Func :=
  ⟨[⟨[.alloca, .store (.other 0) (.inst ⟨0, 0⟩), .other [] false], [1]⟩,
    ⟨[.store (.other 1) (.inst ⟨0, 0⟩), .other [.other 2] false], [2, 3]⟩,
    ⟨[.other [] false], [1]⟩,
    ⟨[.load (.inst ⟨0, 0⟩) false, .other [.inst ⟨3, 0⟩] false], []⟩]⟩

/-- The loop of `loopStore`: header `1`, blocks `1` and `2`. -/
def loopStoreLoop : Loop := ⟨1, [1, 2]⟩

/-- The loop region of `loopStore`. -/
def loopStoreRegion : Region := ⟨.LoopRegion loopStoreLoop, []⟩

/-! ## Further notions used in the statements -/

/-- One provenance value is an update of another that does not lower the rank and,
unless the rank has become `Wildcard`, does not lose an alloca. -/
def PtrProvenance.Grows (v v' : PtrProvenance) : Prop :=
  v.provType.val ≤ v'.provType.val ∧ (v'.provType ≠ ProvType.Wildcard → v.allocs ⊆ v'.allocs)

/-- The block list an implementation was built from holds its entry block.  For a
loop this is the rule of `llvm::Loop` that the header is a block of the loop. -/
def RegionImpl.EntryListed : RegionImpl → Prop
  | .FunctionRegion Blocks => 0 ∈ Blocks
  | .LoopRegion loop => loop.header ∈ loop.blocks
  | .Base entry blocks => entry ∈ blocks

/-- Every record held for a load or a call is `Wildcard` with an empty set. -/
def WildOK (f : Func) (prov : List (InstId × PtrProvenance)) : Prop :=
  ∀ i v inst, mapFind prov i = some v → f.instAt i = some inst →
    (inst.isLoad || inst.isCall) = true → v = PtrProvenance.ofType ProvType.Wildcard

/-- The invariant of the provenance loop for loads and calls: their records are
`Wildcard`, and every pointer-typed load or call of a seen block has a record. -/
def WildInv (f : Func) (st : ProvState) : Prop :=
  WildOK f st.instProvenance ∧
  (∀ b ∈ st.seenBlocks, ∀ k inst, f.instAt ⟨b, k⟩ = some inst →
    (inst.isLoad || inst.isCall) = true → inst.isPointerTy = true →
    (mapFind st.instProvenance ⟨b, k⟩).isSome)

/-- Every record belongs to an instruction of a block with property `R`, and so
does every alloca of its allocation set. -/
def ProvWithin (R : Nat → Prop) (prov : List (InstId × PtrProvenance)) : Prop :=
  ∀ i v, mapFind prov i = some v → R i.block ∧ ∀ y ∈ v.allocs, R y.block

/-- Every alloca of a block's join set is live in that block. -/
def JoinLive (a : AllocaSSA) : Prop :=
  ∀ b, (a.joinSet b).allocs ⊆ a.liveSet b

/-! ## Notions used in the statements about effects and liveness -/

/-- The effect map is as `compute` builds it: the `Effect` held for an instruction
is one made by `Effect(&inst)` (its `inst` is the instruction, its place the
parent block) at an address among those handed out so far; it is held only for
an instruction of the function for which `GetWrittenPointers` reports a write;
and no `Effect` object is held for two instructions. -/
def EffInv (f : Func) (instEffects : List (InstId × Desc)) : Prop :=
  (∀ i e, mapFind instEffects i = some e →
    (∃ addr, e = Desc.Effect i.block i addr ∧ addr < instEffects.length) ∧
    ∃ inst, f.instAt i = some inst ∧ (GetWrittenPointers inst).1 = true) ∧
  (∀ i j p q p2 q2 addr, mapFind instEffects i = some (Desc.Effect p q addr) →
    mapFind instEffects j = some (Desc.Effect p2 q2 addr) → i = j)

/-- Block `S` holds a load whose address operand is an instruction whose recorded
provenance has `x` in its allocation set. -/
def LoadsThrough (f : Func) (prov : List (InstId × PtrProvenance)) (S : Nat) (x : InstId) :
    Prop :=
  ∃ k p flag v, f.instAt ⟨S, k⟩ = some (Inst.load (Value.inst p) flag) ∧
    mapFind prov p = some v ∧ x ∈ v.allocs

/-- An ending block of the list can be reached from `S`. -/
def ReachesEnding (f : Func) (endingBlocks : List Nat) (S : Nat) : Prop :=
  ∃ E ∈ endingBlocks, f.Reachable S E

/-- Block `b` can be reached from the region entry along successor edges whose
targets are all contained in the region. -/
def RegionImpl.ReachInside (f : Func) (impl : RegionImpl) (b : Nat) : Prop :=
  Relation.ReflTransGen (fun u v => v ∈ f.succs u ∧ impl.contains v = true)
    impl.getRegionEntry b

/-- The work left for the loop of `RegionImpl::getEndingBlocks`: the pending
stack entries and the out-edges of the blocks that have not been expanded. -/
def endingMeasure (f : Func) (st : EndingState) : Nat :=
  st.blockStack.length +
    Finset.sum ((Finset.range f.blocks.length).filter (fun b => b ∉ st.visitedBlocks))
      (fun b => (f.succs b).length)

/-- The invariant of the loop of `RegionImpl::getEndingBlocks`. -/
def EndingInv (f : Func) (impl : RegionImpl) (st : EndingState) : Prop :=
  (∀ b ∈ st.blockStack, impl.ReachInside f b) ∧
  (∀ b ∈ st.visitedBlocks, impl.ReachInside f b) ∧
  (∀ S ∈ st.endingBlocks, impl.contains S = false ∧ ∃ b ∈ st.visitedBlocks, S ∈ f.succs b) ∧
  (∀ b ∈ st.visitedBlocks, ∀ s ∈ f.succs b,
    (impl.contains s = true → s ∈ st.visitedBlocks ∨ s ∈ st.blockStack) ∧
    (impl.contains s = false → s ∈ st.endingBlocks)) ∧
  (impl.getRegionEntry ∈ st.visitedBlocks ∨ impl.getRegionEntry ∈ st.blockStack)

/-- All allocas that occur in a recorded provenance set. -/
def provAllocs (prov : List (InstId × PtrProvenance)) : Finset InstId :=
  prov.foldr (fun e acc => e.2.allocs ∪ acc) ∅

/-- The work left for the loop of `computeLiveness`, over a finite set `W` of
blocks and a finite set `Tot` of allocas: the pending stack entries, a first
visit of every block not yet visited (which pushes each of its predecessors at
most once), and the allocas that can still be added to a live set. -/
def liveMeasure (f : Func) (W : Finset Nat) (Tot : Finset InstId) (st : LiveState) : Nat :=
  st.stack.length +
    Finset.sum (W \ st.alreadyVisited) (fun b => (f.preds b).length + 1) +
    Finset.sum W (fun p => (Tot \ st.ssa.liveSet p).card)

/-- Soundness invariant of the loop of `computeLiveness`: a pending block reaches
an ending block, and every live alloca of a block comes from a load in a block
that the block reaches and that reaches an ending block. -/
def LiveSound (f : Func) (endingBlocks : List Nat) (st : LiveState) : Prop :=
  (∀ c ∈ st.stack, ReachesEnding f endingBlocks c) ∧
  (∀ c x, x ∈ st.ssa.liveSet c →
    ∃ S, f.Reachable c S ∧ ReachesEnding f endingBlocks S ∧
      LoadsThrough f st.ssa.instProvenance S x)

/-- Completeness invariant of the loop of `computeLiveness`: every ending block
is visited or pending, so is every predecessor (other than the block itself) of
a visited block, and a visited block holds the allocas of its loads. -/
def LiveComplete (f : Func) (endingBlocks : List Nat) (st : LiveState) : Prop :=
  (∀ E ∈ endingBlocks, E ∈ st.alreadyVisited ∨ E ∈ st.stack) ∧
  (∀ c ∈ st.alreadyVisited, ∀ p ∈ f.preds c, p ≠ c → p ∈ st.alreadyVisited ∨ p ∈ st.stack) ∧
  (∀ c ∈ st.alreadyVisited, ∀ x, LoadsThrough f st.ssa.instProvenance c x →
    x ∈ st.ssa.liveSet c)

/-- Every recorded provenance value has property `G`. -/
def ProvAll (G : PtrProvenance → Prop) (prov : List (InstId × PtrProvenance)) : Prop :=
  ∀ i v, mapFind prov i = some v → G v

/-- The invariant used for the termination of the loop of `computeLiveness`: the
pending blocks and the blocks of the function lie in `W`, the live sets of the
blocks of `W` and the recorded provenance sets lie in `Tot`, and a visited block
holds the allocas of its loads. -/
def LiveTermInv (f : Func) (W : Finset Nat) (Tot : Finset InstId) (st : LiveState) : Prop :=
  (∀ c ∈ st.stack, c ∈ W) ∧
  (∀ p, p < f.blocks.length → p ∈ W) ∧
  (∀ c ∈ W, st.ssa.liveSet c ⊆ Tot) ∧
  (provAllocs st.ssa.instProvenance ⊆ Tot) ∧
  (∀ c ∈ st.alreadyVisited, ∀ x, LoadsThrough f st.ssa.instProvenance c x →
    x ∈ st.ssa.liveSet c)

/-- A block that loads a pointer and reads through it:
```
entry(0): x = alloca ; p = load ptr, ptr %arg ; v = load i32, ptr p ; ret v
``` -/
def wildLoad : Func :=
  ⟨[⟨[.alloca, .load (.other 0) true, .load (.inst ⟨0, 1⟩) false, .other [.inst ⟨0, 2⟩] false],
    []⟩]⟩

/-- A function with a cycle `a → c → b → a` that holds two back edges of the
depth-first traversal, the side block `n` being left out of the block list:
```
entry(0): x = alloca ; y = alloca ; store 0, x ; br a
a(1):     br i1 %c1, s, c
s(2):     store 1, y ; br p
p(3):     br i1 %c2, b, q
q(4):     store 2, y ; br p
b(5):     br i1 %c3, n, a
c(6):     br i1 %c4, b, exit
n(7):     br c
exit(8):  u = load i32, x ; v = load i32, y ; ret
``` -/
def joinFlip : Func :=
  ⟨[⟨[.alloca, .alloca, .store (.other 0) (.inst ⟨0, 0⟩), .other [] false], [1]⟩,
    ⟨[.other [.other 1] false], [2, 6]⟩,
    ⟨[.store (.other 2) (.inst ⟨0, 1⟩), .other [] false], [3]⟩,
    ⟨[.other [.other 3] false], [5, 4]⟩,
    ⟨[.store (.other 4) (.inst ⟨0, 1⟩), .other [] false], [3]⟩,
    ⟨[.other [.other 5] false], [7, 1]⟩,
    ⟨[.other [.other 6] false], [5, 8]⟩,
    ⟨[.other [] false], [6]⟩,
    ⟨[.load (.inst ⟨0, 0⟩) false, .load (.inst ⟨0, 1⟩) false, .other [] false], []⟩]⟩

/-- The function region of `joinFlip` built from all blocks but `n`. -/
def joinFlipRegion : Region := ⟨.FunctionRegion [0, 1, 2, 3, 4, 5, 6, 8], []⟩

/-- The analysis object of `joinFlip` after the provenance pass and the liveness
pass, each given 40 iterations. -/
def joinFlipLive : AllocaSSA :=
  ((AllocaSSA.new.computePointerProvenance joinFlip joinFlipRegion.getRegionEntry 40).bind
    (fun a => a.computeLiveness joinFlip joinFlipRegion 40)).getD AllocaSSA.new

/-- The state of the definition loop of `joinFlip` after `k` sweeps. -/
def joinFlipSweeps (k : Nat) : DefState :=
  (defSweep joinFlip joinFlipRegion
    (collectAllocas joinFlipRegion.getRegionEntry 0
      (joinFlip.block joinFlipRegion.getRegionEntry).insts))^[k]
    ⟨{joinFlipRegion.getRegionEntry}, true, joinFlipLive⟩

/-! ## Notions used in the statements about ranks, join sets and a quiet entry block -/

/-- A value as the provenance pass records it for an instruction: its rank is not
`External`, and a `Wildcard` carries no allocas. -/
def PtrProvenance.Recordable (v : PtrProvenance) : Prop :=
  v.provType ≠ ProvType.External ∧ v.WellFormed

/-- Every block's join set has rank `Tracked`. -/
def JoinTracked (a : AllocaSSA) : Prop :=
  ∀ b, (a.joinSet b).provType = ProvType.Tracked

/-- The definition pass has left no trace in the object: there is no `Effect`, and
every block has an empty last-definition map and a bottom join set. -/
def DefsClean (a : AllocaSSA) : Prop :=
  a.instEffects = [] ∧
  ∀ b, (a.summary b).lastDef = ∅ ∧ (a.summary b).allocJoin = PtrProvenance.empty

/-- The instruction is none of the writing instructions: not a store, not a memory
transfer, and not a call that may write memory and has a pointer-typed
argument. -/
def Inst.isQuiet : Inst → Bool
  | .store _ _ => false
  | .memTransfer _ _ => false
  | .call _ onlyReadsMemory args _ => onlyReadsMemory || args.all (fun c => !c.isPointerTy)
  | _ => true

/-! ## The provenance lattice: theorems -/

/-- The insertion loop of `merge` adds exactly the listed allocas and raises the flag
exactly when one of them was not yet in the set. -/
theorem insertAll_eq (l : List InstId) (changed : Bool) (allocs : Finset InstId) :
    insertAll l (changed, allocs) =
      (changed || decide (¬ l.toFinset ⊆ allocs), allocs ∪ l.toFinset) := by
  induction l generalizing changed allocs with
  | nil => simp [insertAll]
  | cons a rest ih =>
    rw [insertAll, ih]
    refine Prod.ext ?_ ?_
    · simp only [List.toFinset_cons, Finset.insert_subset_iff]
      by_cases ha : a ∈ allocs
      · simp [ha, Finset.insert_eq_of_mem]
      · have : ¬ (rest.toFinset ⊆ insert a allocs ∧ a ∈ allocs ∧ rest.toFinset ⊆ allocs) := by
          tauto
        cases changed <;> simp [ha]
    · ext x
      simp only [List.toFinset_cons, Finset.mem_union, Finset.mem_insert]
      tauto

/-- The result of `merge`, written with the insertion loop of the source run over any
enumeration of `Other.allocs`: the iteration order of the set does not matter. -/
theorem merge_loop (self other : PtrProvenance) (l : List InstId)
    (hl : l.toFinset = other.allocs) :
    self.merge other =
      if ProvType.max self.provType other.provType = ProvType.Wildcard then
        (decide (self.provType ≠ other.provType),
          ⟨ProvType.max self.provType other.provType, ∅⟩)
      else
        ((insertAll l (decide (self.provType ≠ other.provType), self.allocs)).1,
          ⟨ProvType.max self.provType other.provType,
            (insertAll l (decide (self.provType ≠ other.provType), self.allocs)).2⟩) := by
  rw [insertAll_eq, hl]
  rfl

/-- On a well-formed receiver, `merge` returns `true` whenever the value of the
receiver changed. -/
theorem merge_changed_of_ne (p q : PtrProvenance) (hp : p.WellFormed)
    (h : (p.merge q).2 ≠ p) : (p.merge q).1 = true := by
  obtain ⟨tp, ap⟩ := p
  obtain ⟨tq, aq⟩ := q
  simp only [PtrProvenance.WellFormed] at hp
  by_cases hsub : aq ⊆ ap
  · have hu : ap ∪ aq = ap := Finset.union_eq_left.mpr hsub
    cases tp <;> cases tq <;>
      simp_all [PtrProvenance.merge, ProvType.max, ProvType.val]
  · cases tp <;> cases tq <;>
      simp_all [PtrProvenance.merge, ProvType.max, ProvType.val]

/-- C8 (the code at the failing input).  `merge` returns `true` although the receiver
keeps its value: a `Wildcard` (or `External`) receiver merged with the bottom
element leaves `merge` with rank and allocation set unchanged, yet the returned
flag is `true`, because the flag starts as `provType != Other.provType`. -/
theorem merge_reports_change_without_change :
    ((PtrProvenance.ofType ProvType.Wildcard).merge PtrProvenance.empty).1 = true ∧
      ((PtrProvenance.ofType ProvType.Wildcard).merge PtrProvenance.empty).2 =
        PtrProvenance.ofType ProvType.Wildcard ∧
      ((PtrProvenance.ofType ProvType.External).merge PtrProvenance.empty).1 = true ∧
      ((PtrProvenance.ofType ProvType.External).merge PtrProvenance.empty).2 =
        PtrProvenance.ofType ProvType.External := by
  decide

/-- C9.  Top absorption: for every provenance value `p` and every value of rank
`Wildcard` (whatever set it carries), after `p.merge(Wildcard)` and after
`Wildcard.merge(p)` the receiver has rank `Wildcard` and an empty allocation set. -/
theorem merge_wildcard_absorbs (p : PtrProvenance) (s : Finset InstId) :
    (p.merge ⟨ProvType.Wildcard, s⟩).2 = ⟨ProvType.Wildcard, ∅⟩ ∧
      ((PtrProvenance.mk ProvType.Wildcard s).merge p).2 = ⟨ProvType.Wildcard, ∅⟩ := by
  obtain ⟨t, a⟩ := p
  cases t <;> simp [PtrProvenance.merge, ProvType.max, ProvType.val]

/-- C10.  For well-formed provenance values `p` and `q`, the value of `p` after
`p.merge(q)` is an upper bound of `p` and of `q` and lies below every common
upper bound, in the order where `a ≤ b` iff `b` is `Wildcard`, or the rank of `a`
is at most that of `b` and the allocas of `a` are among those of `b`; the merged
value is the same whichever of the two is the receiver, and bottom (the empty
`Tracked` value) is an identity on either side. -/
theorem merge_is_lub (p q : PtrProvenance) (hp : p.WellFormed) (hq : q.WellFormed) :
    PtrProvenance.le p (p.merge q).2 ∧ PtrProvenance.le q (p.merge q).2 ∧
      (∀ u : PtrProvenance, PtrProvenance.le p u → PtrProvenance.le q u →
        PtrProvenance.le (p.merge q).2 u) ∧
      (p.merge q).2 = (q.merge p).2 ∧
      (p.merge PtrProvenance.empty).2 = p ∧ (PtrProvenance.empty.merge p).2 = p := by
  obtain ⟨tp, ap⟩ := p
  obtain ⟨tq, aq⟩ := q
  simp only [PtrProvenance.WellFormed] at hp hq
  refine ⟨?_, ?_, ?_, ?_, ?_, ?_⟩
  · cases tp <;> cases tq <;>
      simp [PtrProvenance.merge, ProvType.max, ProvType.val, PtrProvenance.le,
        Finset.subset_union_left]
  · cases tp <;> cases tq <;>
      simp [PtrProvenance.merge, ProvType.max, ProvType.val, PtrProvenance.le,
        Finset.subset_union_right]
  · rintro ⟨tu, au⟩ h1 h2
    cases tp <;> cases tq <;> cases tu <;>
      simp_all [PtrProvenance.merge, ProvType.max, ProvType.val, PtrProvenance.le,
        Finset.union_subset_iff]
  · cases tp <;> cases tq <;>
      simp_all [PtrProvenance.merge, ProvType.max, ProvType.val, Finset.union_comm]
  · cases tp <;> simp_all [PtrProvenance.merge, ProvType.max, ProvType.val, PtrProvenance.empty]
  · cases tp <;> simp_all [PtrProvenance.merge, ProvType.max, ProvType.val, PtrProvenance.empty]

/-- Witness for C10: a `Tracked` value with one alloca merged with an `External`
value with another one. -/
theorem merge_is_lub_witness :
    PtrProvenance.le (PtrProvenance.ofAlloca ⟨0, 0⟩)
        ((PtrProvenance.ofAlloca ⟨0, 0⟩).merge ⟨ProvType.External, {⟨0, 1⟩}⟩).2 ∧
      ((PtrProvenance.ofAlloca ⟨0, 0⟩).merge ⟨ProvType.External, {⟨0, 1⟩}⟩).2 =
        ((PtrProvenance.mk ProvType.External {⟨0, 1⟩}).merge (PtrProvenance.ofAlloca ⟨0, 0⟩)).2 :=
  have h := merge_is_lub (PtrProvenance.ofAlloca ⟨0, 0⟩) ⟨ProvType.External, {⟨0, 1⟩}⟩
    (by simp [PtrProvenance.WellFormed, PtrProvenance.ofAlloca])
    (by simp [PtrProvenance.WellFormed])
  ⟨h.1, h.2.2.2.1⟩


/-! ## Maps and instruction scans: lemmas -/

/-- Lookup after assignment. -/
theorem mapFind_mapSet {κ ν : Type} [DecidableEq κ] (m : List (κ × ν)) (k k' : κ) (v : ν) :
    mapFind (mapSet m k v) k' = if k = k' then some v else mapFind m k' := by
  induction m with
  | nil => simp [mapFind, mapSet]
  | cons e rest ih =>
    obtain ⟨k0, v0⟩ := e
    by_cases h0 : k0 = k
    · subst h0
      by_cases h1 : k0 = k' <;> simp [mapFind, mapSet, h1]
    · by_cases h1 : k0 = k'
      · subst h1
        have : ¬ k = k0 := fun h => h0 h.symm
        simp [mapFind, mapSet, h0, this]
      · simp [mapFind, mapSet, h0, h1, ih]

/-- Induction over an instruction scan: a property indexed by the number of
instructions handled so far holds at the end when every loop body keeps it. -/
theorem forInsts_invariant {σ : Type} (b : Nat) (body : InstId → Inst → σ → σ)
    (P : Nat → σ → Prop) (l : List Inst) :
    ∀ (k : Nat) (s : σ), P k s →
      (∀ j inst s', l.get? j = some inst → P (k + j) s' →
        P (k + j + 1) (body ⟨b, k + j⟩ inst s')) →
      P (k + l.length) (forInsts b body k l s) := by
  induction l with
  | nil => intro k s h0 _; simpa [forInsts] using h0
  | cons i rest ih =>
    intro k s h0 hstep
    have h1 : P (k + 1) (body ⟨b, k⟩ i s) := by
      have := hstep 0 i s (by simp) (by simpa using h0)
      simpa using this
    have h2 := ih (k + 1) (body ⟨b, k⟩ i s) h1 (by
      intro j inst s' hj hP
      have e : k + 1 + j = k + (j + 1) := by omega
      rw [e] at hP ⊢
      exact hstep (j + 1) inst s' (by simpa using hj) hP)
    have e : k + (i :: rest).length = k + 1 + rest.length := by simp; omega
    rw [e]
    simpa [forInsts] using h2

/-! ## Pointer provenance pass: lemmas -/

/-- The scan body of the provenance pass only touches the record of its own
instruction. -/
theorem provInst_other_key (id : InstId) (inst : Inst)
    (st : Bool × List (InstId × PtrProvenance)) (i : InstId) (h : i ≠ id) :
    mapFind (provInst id inst st).2 i = mapFind st.2 i := by
  have h' : ¬ id = i := fun e => h e.symm
  unfold provInst
  cases inst <;> simp only [Inst.isPointerTy, Inst.isAlloca, Inst.isLoad, Inst.isCall] <;>
    (repeat' split) <;> simp_all [mapFind_mapSet]

/-- The scan body of the provenance pass never removes a record. -/
theorem provInst_isSome (id : InstId) (inst : Inst)
    (st : Bool × List (InstId × PtrProvenance)) (i : InstId)
    (h : (mapFind st.2 i).isSome) : (mapFind (provInst id inst st).2 i).isSome := by
  by_cases hi : i = id
  · subst hi
    unfold provInst
    cases inst <;> simp only [Inst.isPointerTy, Inst.isAlloca, Inst.isLoad, Inst.isCall] <;>
      (repeat' split) <;> simp_all [mapFind_mapSet]
  · rw [provInst_other_key id inst st i hi]; exact h

/-- On an alloca the scan body keeps an existing record and otherwise records
`Tracked` with the alloca itself. -/
theorem provInst_alloca (id : InstId) (st : Bool × List (InstId × PtrProvenance)) :
    mapFind (provInst id Inst.alloca st).2 id =
      some ((mapFind st.2 id).getD (PtrProvenance.ofAlloca id)) := by
  unfold provInst
  simp only [Inst.isPointerTy, Inst.isAlloca]
  cases h : mapFind st.2 id <;> simp [h, mapFind_mapSet]

/-- The scan body of the provenance pass never lowers the flag `changed`. -/
theorem provInst_changed (id : InstId) (inst : Inst)
    (st : Bool × List (InstId × PtrProvenance)) (h : st.1 = true) :
    (provInst id inst st).1 = true := by
  unfold provInst
  cases inst <;> simp only [Inst.isPointerTy, Inst.isAlloca, Inst.isLoad, Inst.isCall] <;>
    (repeat' split) <;> simp_all

/-- The scan body of the provenance pass keeps the records of allocas exact. -/
theorem provInst_allocaOK (f : Func) (id : InstId) (inst : Inst)
    (st : Bool × List (InstId × PtrProvenance)) (hinst : f.instAt id = some inst)
    (h : AllocaOK f st.2) : AllocaOK f (provInst id inst st).2 := by
  intro i v hv hi
  by_cases hid : i = id
  · subst hid
    have e : inst = Inst.alloca := by
      rw [hinst] at hi; exact Option.some.inj hi
    subst e
    rw [provInst_alloca] at hv
    cases hold : mapFind st.2 i with
    | none => rw [hold] at hv; simpa using hv.symm
    | some w =>
      rw [hold] at hv
      have : w = v := by simpa using hv
      subst this
      exact h i w hold hi
  · rw [provInst_other_key id inst st i hid] at hv
    exact h i v hv hi

/-- Membership in the worklist after pushing the successors. -/
theorem mem_foldl_push (succs rest : List Nat) (x : Nat) :
    x ∈ succs.foldl (fun wl s => s :: wl) rest ↔ x ∈ succs ∨ x ∈ rest := by
  induction succs generalizing rest with
  | nil => simp
  | cons s t ih =>
    simp only [List.foldl_cons, ih, List.mem_cons]
    tauto

/-- The scan of one block in the provenance pass: alloca records stay exact, no
record is lost, every alloca of the block gets a record, and `changed` is not
lowered. -/
theorem provScan_spec (f : Func) (b : Nat) (changed : Bool)
    (prov : List (InstId × PtrProvenance)) (h : AllocaOK f prov) :
    AllocaOK f (forInsts b provInst 0 (f.block b).insts (changed, prov)).2 ∧
    (∀ i, (mapFind prov i).isSome →
      (mapFind (forInsts b provInst 0 (f.block b).insts (changed, prov)).2 i).isSome) ∧
    (∀ k, f.instAt ⟨b, k⟩ = some Inst.alloca →
      (mapFind (forInsts b provInst 0 (f.block b).insts (changed, prov)).2 ⟨b, k⟩).isSome) ∧
    (changed = true → (forInsts b provInst 0 (f.block b).insts (changed, prov)).1 = true) := by
  have key := forInsts_invariant b provInst
    (fun j s => AllocaOK f s.2 ∧ (∀ i, (mapFind prov i).isSome → (mapFind s.2 i).isSome) ∧
      (∀ k, k < j → f.instAt ⟨b, k⟩ = some Inst.alloca → (mapFind s.2 ⟨b, k⟩).isSome) ∧
      (changed = true → s.1 = true))
    (f.block b).insts 0 (changed, prov)
    ⟨h, fun _ hi => hi, fun k hk => absurd hk (Nat.not_lt_zero k), fun hc => hc⟩
    (by
      intro j inst s' hj hP
      obtain ⟨h1, h2, h3, h4⟩ := hP
      have hinst : f.instAt ⟨b, 0 + j⟩ = some inst := by
        simpa [Func.instAt] using hj
      refine ⟨provInst_allocaOK f _ inst s' hinst h1,
        fun i hi => provInst_isSome _ inst s' i (h2 i hi), ?_,
        fun hc => provInst_changed _ inst s' (h4 hc)⟩
      intro k hk hka
      by_cases hkj : k < 0 + j
      · exact provInst_isSome _ inst s' _ (h3 k hkj hka)
      · have e : k = 0 + j := by omega
        subst e
        have e2 : inst = Inst.alloca := by
          rw [hinst] at hka; exact Option.some.inj hka
        subst e2
        rw [provInst_alloca]; rfl)
  obtain ⟨k1, k2, k3, k4⟩ := key
  refine ⟨k1, k2, ?_, k4⟩
  intro k hk
  apply k3 k _ hk
  have : (f.block b).insts.get? k = some Inst.alloca := by simpa [Func.instAt] using hk
  have hlt := (List.get?_eq_some.mp this).1
  omega

/-- An iteration of the provenance loop never removes a record. -/
theorem provStep_isSome (f : Func) (st : ProvState) (hok : AllocaOK f st.instProvenance)
    (i : InstId) (h : (mapFind st.instProvenance i).isSome) :
    (mapFind (provStep f st).instProvenance i).isSome := by
  unfold provStep
  cases hw : st.worklist with
  | nil => simpa using h
  | cons b rest =>
    have hs := (provScan_spec f b (decide (b ∉ st.seenBlocks)) st.instProvenance hok).2.1 i h
    simp only
    split <;> exact hs

/-- An iteration of the provenance loop never removes a block from `seenBlocks`. -/
theorem provStep_seen (f : Func) (st : ProvState) (b : Nat) (h : b ∈ st.seenBlocks) :
    b ∈ (provStep f st).seenBlocks := by
  unfold provStep
  cases hw : st.worklist with
  | nil => simpa using h
  | cons c rest =>
    simp only
    split <;> simp [h]

/-- An iteration of the provenance loop keeps `ProvInv`. -/
theorem provStep_inv (f : Func) (entry : Nat) (st : ProvState) (h : ProvInv f entry st) :
    ProvInv f entry (provStep f st) := by
  obtain ⟨h1, h2, h3, h4⟩ := h
  unfold provStep
  cases hw : st.worklist with
  | nil => simp only; exact ⟨h1, h2, h3, h4⟩
  | cons b rest =>
    rw [hw] at h3 h4
    obtain ⟨s1, s2, s3, s4⟩ := provScan_spec f b (decide (b ∉ st.seenBlocks)) st.instProvenance h1
    have hI2 : ∀ c ∈ insert b st.seenBlocks, ∀ k, f.instAt ⟨c, k⟩ = some Inst.alloca →
        (mapFind (forInsts b provInst 0 (f.block b).insts
          (decide (b ∉ st.seenBlocks), st.instProvenance)).2 ⟨c, k⟩).isSome := by
      intro c hc k hk
      rcases Finset.mem_insert.mp hc with e | hc'
      · subst e; exact s3 k hk
      · exact s2 _ (h2 c hc' k hk)
    simp only
    split
    · rename_i hch
      refine ⟨s1, hI2, ?_, ?_⟩
      · intro c hc s hs
        simp only [mem_foldl_push, Finset.mem_insert]
        rcases Finset.mem_insert.mp hc with e | hc'
        · subst e; right; left; exact hs
        · rcases h3 c hc' s hs with q | q
          · left; right; exact q
          · rcases List.mem_cons.mp q with q | q
            · left; left; exact q
            · right; right; exact q
      · simp only [mem_foldl_push, Finset.mem_insert]
        rcases h4 with q | q
        · left; right; exact q
        · rcases List.mem_cons.mp q with q | q
          · left; left; exact q
          · right; right; exact q
    · rename_i hch
      have hseen : b ∈ st.seenBlocks := by
        by_contra hb
        exact hch (s4 (by simp [hb]))
      refine ⟨s1, hI2, ?_, ?_⟩
      · intro c hc s hs
        simp only [Finset.mem_insert]
        have hc' : c ∈ st.seenBlocks := by
          rcases Finset.mem_insert.mp hc with e | hc'
          · subst e; exact hseen
          · exact hc'
        rcases h3 c hc' s hs with q | q
        · left; right; exact q
        · rcases List.mem_cons.mp q with q | q
          · left; left; exact q
          · right; exact q
      · simp only [Finset.mem_insert]
        rcases h4 with q | q
        · left; right; exact q
        · rcases List.mem_cons.mp q with q | q
          · left; left; exact q
          · right; exact q

/-- The initial state of the provenance loop on a fresh analysis object satisfies `ProvInv`. -/
theorem provInit_inv (f : Func) (entry : Nat) :
    ProvInv f entry (provInit entry AllocaSSA.new) := by
  refine ⟨?_, ?_, ?_, ?_⟩
  · intro i v hv; simp [provInit, AllocaSSA.new, mapFind] at hv
  · intro b hb; simp [provInit] at hb
  · intro b hb; simp [provInit] at hb
  · right; simp [provInit]

/-- Every state reached by the provenance loop from a fresh object satisfies `ProvInv`. -/
theorem provIter_inv (f : Func) (entry : Nat) (n : Nat) :
    ProvInv f entry ((provStep f)^[n] (provInit entry AllocaSSA.new)) := by
  induction n with
  | zero => exact provInit_inv f entry
  | succ k ih =>
    rw [Function.iterate_succ_apply']
    exact provStep_inv f entry _ ih

/-- A result of the fuel-bounded provenance loop is a state reached after finitely
many iterations, with an empty worklist. -/
theorem provLoop_some (f : Func) (n : Nat) (s s' : ProvState) (h : provLoop f n s = some s') :
    ∃ k, s' = (provStep f)^[k] s ∧ s'.worklist = [] := by
  induction n generalizing s with
  | zero =>
    unfold provLoop at h
    split at h
    · rename_i hw
      refine ⟨0, ?_, ?_⟩
      · simpa using (Option.some.inj h).symm
      · rw [← Option.some.inj h]; exact hw
    · cases h
  | succ m ih =>
    unfold provLoop at h
    split at h
    · rename_i hw
      refine ⟨0, ?_, ?_⟩
      · simpa using (Option.some.inj h).symm
      · rw [← Option.some.inj h]; exact hw
    · obtain ⟨k, hk, hw⟩ := ih (provStep f s) h
      exact ⟨k + 1, by rw [Function.iterate_succ_apply]; exact hk, hw⟩

/-- When the worklist is empty, every block reachable from the entry has been seen. -/
theorem provInv_reachable (f : Func) (entry : Nat) (st : ProvState) (h : ProvInv f entry st)
    (hw : st.worklist = []) (b : Nat) (hr : f.Reachable entry b) : b ∈ st.seenBlocks := by
  obtain ⟨_, _, h3, h4⟩ := h
  rw [hw] at h3 h4
  induction hr with
  | refl => simpa using h4
  | tail _ hstep ih => simpa using h3 _ ih _ hstep

/-- After the first iteration the entry block has been seen. -/
theorem provIter_entry_seen (f : Func) (entry : Nat) (n : Nat) :
    entry ∈ ((provStep f)^[n + 1] (provInit entry AllocaSSA.new)).seenBlocks := by
  induction n with
  | zero =>
    simp only [zero_add, Function.iterate_one]
    unfold provStep
    simp only [provInit]
    split <;> simp
  | succ k ih =>
    rw [Function.iterate_succ_apply']
    exact provStep_seen f _ _ ih


/-- C2.  Started on a fresh analysis object at the entry of any region, when
`computePointerProvenance` returns, every alloca `x` in a block reachable from the
region entry has the record `Tracked` with allocation set `{x}`, and that is what
`getProvenance` yields.  Moreover, at every iteration of the loop (whether or not
the loop ever ends) a record held for `x` is this value and stays this value in
all later iterations, and an alloca of the entry block holds it from the first
iteration on. -/
theorem alloca_provenance_exact (f : Func) (region : Region) (fuel : Nat) (a : AllocaSSA)
    (h : AllocaSSA.new.computePointerProvenance f region.getRegionEntry fuel = some a)
    (x : InstId) (hx : f.instAt x = some Inst.alloca)
    (hr : f.Reachable region.getRegionEntry x.block) :
    a.getProvenance (.inst x) = PtrProvenance.ofAlloca x ∧
    mapFind a.instProvenance x = some (PtrProvenance.ofAlloca x) ∧
    (∀ n v,
      mapFind ((provStep f)^[n] (provInit region.getRegionEntry AllocaSSA.new)).instProvenance x
        = some v →
      v = PtrProvenance.ofAlloca x ∧
      ∀ m, mapFind
        ((provStep f)^[n + m] (provInit region.getRegionEntry AllocaSSA.new)).instProvenance x
          = some v) ∧
    (x.block = region.getRegionEntry → ∀ n,
      mapFind
        ((provStep f)^[n + 1] (provInit region.getRegionEntry AllocaSSA.new)).instProvenance x
          = some (PtrProvenance.ofAlloca x)) := by
  have hval : ∀ n, (mapFind
      ((provStep f)^[n] (provInit region.getRegionEntry AllocaSSA.new)).instProvenance x).isSome →
      mapFind ((provStep f)^[n] (provInit region.getRegionEntry AllocaSSA.new)).instProvenance x
        = some (PtrProvenance.ofAlloca x) := by
    intro n hs
    obtain ⟨v, hv⟩ := Option.isSome_iff_exists.mp hs
    rw [hv, (provIter_inv f region.getRegionEntry n).1 x v hv hx]
  have hfinal : mapFind a.instProvenance x = some (PtrProvenance.ofAlloca x) := by
    unfold AllocaSSA.computePointerProvenance at h
    cases hl : provLoop f fuel (provInit region.getRegionEntry AllocaSSA.new) with
    | none => rw [hl] at h; cases h
    | some st =>
      rw [hl] at h
      have ha : a.instProvenance = st.instProvenance := by
        rw [← Option.some.inj h]
      obtain ⟨k, hk, hw⟩ := provLoop_some f fuel _ st hl
      have hinv := provIter_inv f region.getRegionEntry k
      rw [← hk] at hinv
      have hseen := provInv_reachable f _ st hinv hw x.block hr
      have := hinv.2.1 x.block hseen x.idx hx
      rw [ha, hk]
      apply hval
      rw [← hk]
      exact this
  refine ⟨?_, hfinal, ?_, ?_⟩
  · simp [AllocaSSA.getProvenance, hfinal]
  · intro n v hv
    have e := (provIter_inv f region.getRegionEntry n).1 x v hv hx
    refine ⟨e, ?_⟩
    intro m
    induction m with
    | zero => simpa using hv
    | succ j ih =>
      rw [e]
      apply hval
      rw [← Nat.add_assoc, Function.iterate_succ_apply']
      exact provStep_isSome f _ (provIter_inv f region.getRegionEntry (n + j)).1 x (by rw [ih]; rfl)
  · intro hb n
    apply hval
    have hseen := provIter_entry_seen f region.getRegionEntry n
    obtain ⟨xb, xi⟩ := x
    simp only at hb
    subst hb
    exact (provIter_inv f region.getRegionEntry (n + 1)).2.1 _ hseen xi hx

/-- Witness for C2: the alloca of the diamond. -/
theorem alloca_provenance_exact_witness :
    ∃ a, AllocaSSA.new.computePointerProvenance diamond (functionRegion 4).getRegionEntry 20
        = some a ∧
      diamond.instAt ⟨0, 0⟩ = some Inst.alloca ∧
      a.getProvenance (.inst ⟨0, 0⟩) = PtrProvenance.ofAlloca ⟨0, 0⟩ :=
  ⟨_, rfl, by decide,
    (alloca_provenance_exact diamond (functionRegion 4) 20 _ rfl ⟨0, 0⟩ (by decide)
      Relation.ReflTransGen.refl).1⟩


/-! ## Block summaries: lemmas -/

/-- Requesting a summary does not change the summary seen for any block. -/
theorem summary_request (a : AllocaSSA) (b c : Nat) :
    (a.requestBlockSummary b).summary c = a.summary c := by
  unfold AllocaSSA.requestBlockSummary AllocaSSA.summary
  cases h : mapFind a.blockSummaries b with
  | some s => rfl
  | none =>
    simp only [mapFind_mapSet]
    by_cases e : b = c
    · subst e; simp [h]
    · simp [e]

/-- The summary seen after writing the summary of a block. -/
theorem summary_setSummary (a : AllocaSSA) (b c : Nat) (s : BlockSummary) :
    (a.setSummary b s).summary c = if b = c then s else a.summary c := by
  unfold AllocaSSA.setSummary AllocaSSA.summary
  simp only [mapFind_mapSet]
  by_cases e : b = c <;> simp [e]

/-- Requesting a summary does not change provenance lookups. -/
theorem getProvenance_request (a : AllocaSSA) (b : Nat) (v : Value) :
    (a.requestBlockSummary b).getProvenance v = a.getProvenance v := by
  unfold AllocaSSA.requestBlockSummary
  cases h : mapFind a.blockSummaries b <;> cases v <;> simp [AllocaSSA.getProvenance]

/-- The member `isLive` is membership in the live set of the block. -/
theorem isLive_iff (a : AllocaSSA) (x : InstId) (b : Nat) :
    a.isLive x b = true ↔ x ∈ a.liveSet b := by
  unfold AllocaSSA.isLive AllocaSSA.getBlockSummary AllocaSSA.liveSet AllocaSSA.summary
  cases h : mapFind a.blockSummaries b <;> simp [BlockSummary.new]

/-! ## Liveness pass: lemmas -/

/-- The load scan of the liveness pass only adds live allocas. -/
theorem liveScan_mono (a : AllocaSSA) (b : Nat) (l : List Inst) (changed : Bool)
    (live : Finset InstId) :
    live ⊆ (forInsts b (liveInst a) 0 l (changed, live)).2 := by
  have key := forInsts_invariant b (liveInst a) (fun _ s => live ⊆ s.2) l 0 (changed, live)
    (Finset.Subset.refl _)
    (by
      intro j inst s' _ hP
      unfold liveInst
      split
      · exact hP.trans Finset.subset_union_left
      · exact hP)
  exact key

/-- The predecessor loop of the liveness pass: live sets only grow, every predecessor
other than the current block receives `live`, the current block keeps its set,
the stack keeps its entries, and a block whose live set grew is on the stack. -/
theorem livePred_spec (curr : Nat) (changed : Bool) (live : Finset InstId) (ps : List Nat) :
    ∀ (stk : List Nat) (a : AllocaSSA) (c : Nat),
      a.liveSet c ⊆ (ps.foldl (livePred curr changed live) (stk, a)).2.liveSet c ∧
      (c ∈ ps → c ≠ curr → live ⊆ (ps.foldl (livePred curr changed live) (stk, a)).2.liveSet c) ∧
      (c = curr → (ps.foldl (livePred curr changed live) (stk, a)).2.liveSet c = a.liveSet c) ∧
      (c ∈ stk → c ∈ (ps.foldl (livePred curr changed live) (stk, a)).1) ∧
      ((ps.foldl (livePred curr changed live) (stk, a)).2.liveSet c ≠ a.liveSet c →
        c ∈ (ps.foldl (livePred curr changed live) (stk, a)).1) := by
  induction ps with
  | nil => intro stk a c; simp
  | cons p rest ih =>
    intro stk a c
    simp only [List.foldl_cons]
    by_cases hp : p = curr
    · have e : livePred curr changed live (stk, a) p = (stk, a) := by simp [livePred, hp]
      rw [e]
      obtain ⟨i1, i2, i3, i4, i5⟩ := ih stk a c
      refine ⟨i1, ?_, i3, i4, i5⟩
      intro hc hne
      rcases List.mem_cons.mp hc with q | q
      · exact absurd (q.trans hp) hne
      · exact i2 q hne
    · -- the summary of `p` grows by `live`
      have hl : ∀ d, (livePred curr changed live (stk, a) p).2.liveSet d =
          if p = d then a.liveSet d ∪ live else a.liveSet d := by
        intro d
        simp only [livePred, hp, if_false, AllocaSSA.liveSet, summary_setSummary, summary_request]
        by_cases e : p = d
        · subst e; simp
        · simp [e]
      have hs : ∀ d, d ∈ stk → d ∈ (livePred curr changed live (stk, a) p).1 := by
        intro d hd
        simp only [livePred, hp, if_false]
        split
        · exact List.mem_cons_of_mem _ hd
        · exact hd
      have hpush : (livePred curr changed live (stk, a) p).2.liveSet p ≠ a.liveSet p →
          p ∈ (livePred curr changed live (stk, a) p).1 := by
        intro hne
        have hns : ¬ live ⊆ a.liveSet p := by
          intro hsub
          apply hne
          rw [hl p]
          simp [Finset.union_eq_left.mpr hsub]
        simp only [livePred, hp, if_false, summary_request]
        have : decide (¬ live ⊆ (a.summary p).liveAllocas) = true := by
          simpa [AllocaSSA.liveSet] using hns
        simp [this]
      obtain ⟨i1, i2, i3, i4, i5⟩ :=
        ih (livePred curr changed live (stk, a) p).1 (livePred curr changed live (stk, a) p).2 c
      have hmono : a.liveSet c ⊆ (livePred curr changed live (stk, a) p).2.liveSet c := by
        rw [hl c]
        split
        · exact Finset.subset_union_left
        · exact Finset.Subset.refl _
      refine ⟨hmono.trans i1, ?_, ?_, fun hc => i4 (hs c hc), ?_⟩
      · intro hc hne
        rcases List.mem_cons.mp hc with q | q
        · subst q
          refine Finset.Subset.trans ?_ i1
          rw [hl c]
          simp [Finset.subset_union_right]
        · exact i2 q hne
      · intro hc
        rw [i3 hc, hl c]
        have : ¬ p = c := fun e => hp (e.trans hc)
        simp [this]
      · intro hne
        by_cases hq : (livePred curr changed live (stk, a) p).2.liveSet c = a.liveSet c
        · exact i5 (by rw [hq]; exact hne)
        · by_cases e : p = c
          · subst e
            exact i4 (hpush hq)
          · exfalso; apply hq; rw [hl c]; simp [e]

/-- An iteration of the liveness loop keeps `LiveInv`. -/
theorem liveStep_inv (f : Func) (st : LiveState) (h : LiveInv f st) :
    LiveInv f (liveStep f st) := by
  unfold liveStep
  cases hw : st.stack with
  | nil => simp only; exact h
  | cons curr rest =>
    simp only
    intro B hB P hP hne
    simp only at hB ⊢
    -- abbreviations for the pieces of the step
    generalize hr : forInsts curr (liveInst (st.ssa.requestBlockSummary curr)) 0
      (f.block curr).insts (decide (curr ∉ st.alreadyVisited),
        ((st.ssa.requestBlockSummary curr).summary curr).liveAllocas) = r at hB ⊢
    have hmono : (st.ssa.liveSet curr) ⊆ r.2 := by
      rw [← hr]
      have := liveScan_mono (st.ssa.requestBlockSummary curr) curr (f.block curr).insts
        (decide (curr ∉ st.alreadyVisited))
        ((st.ssa.requestBlockSummary curr).summary curr).liveAllocas
      simpa [AllocaSSA.liveSet, summary_request] using this
    generalize ha2 : (st.ssa.requestBlockSummary curr).setSummary curr
      { liveAllocas := r.2,
        allocJoin := ((st.ssa.requestBlockSummary curr).summary curr).allocJoin,
        lastDef := ((st.ssa.requestBlockSummary curr).summary curr).lastDef } = a2 at hB ⊢
    have hl2 : ∀ d, a2.liveSet d = if curr = d then r.2 else st.ssa.liveSet d := by
      intro d
      rw [← ha2]
      simp only [AllocaSSA.liveSet, summary_setSummary, summary_request]
      by_cases e : curr = d <;> simp [e]
    have hmono2 : ∀ d, st.ssa.liveSet d ⊆ a2.liveSet d := by
      intro d
      rw [hl2 d]
      split
      · rename_i e; subst e; exact hmono
      · exact Finset.Subset.refl _
    obtain ⟨b1, b2, b3, b4, b5⟩ := livePred_spec curr r.1 r.2 (f.preds curr) rest a2 B
    obtain ⟨p1, p2, p3, p4, p5⟩ := livePred_spec curr r.1 r.2 (f.preds curr) rest a2 P
    by_cases hBc : B = curr
    · subst hBc
      rw [b3 rfl, hl2 B]
      simp only [if_true]
      exact p2 hP hne
    · have hBrest : B ∉ rest := fun hin => hB (b4 hin)
      have hBstack : B ∉ st.stack := by
        rw [hw]
        simp only [List.mem_cons, not_or]
        exact ⟨hBc, hBrest⟩
      have hsame : ((f.preds curr).foldl (livePred curr r.1 r.2) (rest, a2)).2.liveSet B
          = a2.liveSet B := by
        by_contra hne2
        exact hB (b5 hne2)
      rw [hsame, hl2 B]
      have : ¬ curr = B := fun e => hBc e.symm
      simp only [this, if_false]
      exact ((h B hBstack P hP hne).trans (hmono2 P)).trans p1

/-- A result of the fuel-bounded liveness loop is a state reached after finitely many
iterations, with an empty stack. -/
theorem liveLoop_some (f : Func) (n : Nat) (s s' : LiveState) (h : liveLoop f n s = some s') :
    ∃ k, s' = (liveStep f)^[k] s ∧ s'.stack = [] := by
  induction n generalizing s with
  | zero =>
    unfold liveLoop at h
    split at h
    · rename_i hw
      refine ⟨0, ?_, ?_⟩
      · simpa using (Option.some.inj h).symm
      · rw [← Option.some.inj h]; exact hw
    · cases h
  | succ m ih =>
    unfold liveLoop at h
    split at h
    · rename_i hw
      refine ⟨0, ?_, ?_⟩
      · simpa using (Option.some.inj h).symm
      · rw [← Option.some.inj h]; exact hw
    · obtain ⟨k, hk, hw⟩ := ih (liveStep f s) h
      exact ⟨k + 1, by rw [Function.iterate_succ_apply]; exact hk, hw⟩

/-- Every state reached by the liveness loop from a state with `LiveInv` has `LiveInv`. -/
theorem liveIter_inv (f : Func) (s : LiveState) (h : LiveInv f s) (n : Nat) :
    LiveInv f ((liveStep f)^[n] s) := by
  induction n with
  | zero => exact h
  | succ k ih =>
    rw [Function.iterate_succ_apply']
    exact liveStep_inv f _ ih

/-- After `computeLiveness`, live allocas of a block are live in every predecessor
other than the block itself, provided this held before the pass. -/
theorem computeLiveness_backprop (f : Func) (region : Region) (fuel : Nat) (a0 a : AllocaSSA)
    (h0 : ∀ B P, P ∈ f.preds B → P ≠ B → a0.liveSet B ⊆ a0.liveSet P)
    (h : a0.computeLiveness f region fuel = some a) :
    ∀ B P, P ∈ f.preds B → P ≠ B → a.liveSet B ⊆ a.liveSet P := by
  unfold AllocaSSA.computeLiveness at h
  cases he : region.getEndingBlocks f [] with
  | none => rw [he] at h; cases h
  | some eb =>
    rw [he] at h
    simp only at h
    cases hl : liveLoop f fuel ⟨eb.reverse, ∅, a0⟩ with
    | none => rw [hl] at h; cases h
    | some st =>
      rw [hl] at h
      have ha : a = st.ssa := (Option.some.inj h).symm
      obtain ⟨k, hk, hw⟩ := liveLoop_some f fuel _ st hl
      have hinv := liveIter_inv f ⟨eb.reverse, ∅, a0⟩ (fun B _ P hP hne => h0 B P hP hne) k
      rw [← hk] at hinv
      intro B P hP hne
      rw [ha]
      exact hinv B (by rw [hw]; simp) P hP hne

/-! ## Definition and join tracking: the live sets are left alone -/

/-- The requests made while a block is processed do not change the summary seen for
any block. -/
theorem requestPreds_summary (f : Func) (b : Nat) (a : AllocaSSA) (c : Nat) :
    (requestPreds f b a).summary c = a.summary c := by
  unfold requestPreds
  generalize f.preds b = ps
  have key : ∀ (ps : List Nat) (a' : AllocaSSA),
      (ps.foldl (fun a p => a.requestBlockSummary p) a').summary c = a'.summary c := by
    intro ps
    induction ps with
    | nil => intro a'; rfl
    | cons p rest ih => intro a'; simp only [List.foldl_cons, ih, summary_request]
  rw [key, summary_request]

/-- Processing a block in the definition pass leaves the summaries of the other
blocks alone. -/
theorem defBlock_summary (f : Func) (allocVec : List InstId) (b : Nat) (a : AllocaSSA)
    (c : Nat) (hc : c ≠ b) :
    (defBlock f allocVec b a).2.2.summary c = a.summary c := by
  have e : ¬ b = c := fun e => hc e.symm
  simp only [defBlock, summary_setSummary, e, if_false]
  exact requestPreds_summary f b a c

/-- Processing a block in the definition pass leaves all live sets alone. -/
theorem defBlock_liveSet (f : Func) (allocVec : List InstId) (b : Nat) (a : AllocaSSA)
    (c : Nat) : (defBlock f allocVec b a).2.2.liveSet c = a.liveSet c := by
  by_cases hc : c = b
  · subst hc
    simp only [AllocaSSA.liveSet, defBlock, summary_setSummary, if_true]
    rw [requestPreds_summary]
  · simp only [AllocaSSA.liveSet, defBlock_summary f allocVec b a c hc]

/-- The visitor of the definition pass either skips the block or processes it. -/
theorem defVisit_ssa (f : Func) (allocVec : List InstId) (b : Nat) (st : DefState) :
    (defVisit f allocVec b st).2.ssa = st.ssa ∨
      (defVisit f allocVec b st).2.ssa = (defBlock f allocVec b st.ssa).2.2 := by
  unfold defVisit
  split
  · left; rfl
  · right
    simp only
    split <;> rfl

/-- The visitor of the definition pass leaves all live sets alone. -/
theorem defVisit_liveSet (f : Func) (allocVec : List InstId) (b : Nat) (st : DefState)
    (c : Nat) : (defVisit f allocVec b st).2.ssa.liveSet c = st.ssa.liveSet c := by
  rcases defVisit_ssa f allocVec b st with e | e
  · rw [e]
  · rw [e, defBlock_liveSet]

/-- A property of the analysis object kept by the processing of a block is kept by a
sweep of the definition pass. -/
theorem defSweep_induction (f : Func) (region : Region) (allocVec : List InstId)
    (Q : AllocaSSA → Prop)
    (hstep : ∀ b a, Q a → Q (defBlock f allocVec b a).2.2)
    (st : DefState) (hq : Q st.ssa) : Q (defSweep f region allocVec st).ssa := by
  unfold defSweep Region.forBlocksRpo
  generalize f.rpo = order
  have key : ∀ (order : List Nat) (s : DefState), Q s.ssa →
      Q (order.foldl (fun acc b =>
        if region.mImpl.contains b || decide (b ∈ region.extraBlocks)
        then (defVisit f allocVec b acc).2 else acc) s).ssa := by
    intro order
    induction order with
    | nil => intro s hs; exact hs
    | cons b rest ih =>
      intro s hs
      simp only [List.foldl_cons]
      apply ih
      split
      · rcases defVisit_ssa f allocVec b s with e | e
        · rw [e]; exact hs
        · rw [e]; exact hstep b s.ssa hs
      · exact hs
  exact key order _ hq

/-- A property of the analysis object kept by the processing of a block holds for the
result of the fixpoint loop of the definition pass. -/
theorem defLoop_induction (f : Func) (region : Region) (allocVec : List InstId)
    (Q : AllocaSSA → Prop)
    (hstep : ∀ b a, Q a → Q (defBlock f allocVec b a).2.2)
    (fuel : Nat) (st st' : DefState) (hq : Q st.ssa)
    (h : defLoop f region allocVec fuel st = some st') : Q st'.ssa := by
  induction fuel generalizing st with
  | zero =>
    unfold defLoop at h
    split at h
    · cases h
    · rw [← Option.some.inj h]; exact hq
  | succ n ih =>
    unfold defLoop at h
    split at h
    · exact ih _ (defSweep_induction f region allocVec Q hstep st hq) h
    · rw [← Option.some.inj h]; exact hq

/-- A property of the analysis object kept by the processing of a block holds after
the definition pass. -/
theorem computeDefs_induction (f : Func) (region : Region) (fuel : Nat)
    (Q : AllocaSSA → Prop)
    (hstep : ∀ allocVec b a, Q a → Q (defBlock f allocVec b a).2.2)
    (a a' : AllocaSSA) (hq : Q a) (h : a.computeDefs f region fuel = some a') : Q a' := by
  unfold AllocaSSA.computeDefs at h
  simp only [Option.map_eq_some'] at h
  obtain ⟨st, hst, e⟩ := h
  rw [← e]
  exact defLoop_induction f region _ Q (hstep _) fuel _ st hq hst

/-- The provenance pass leaves the block summaries and the effects alone. -/
theorem computePointerProvenance_frame (f : Func) (entry fuel : Nat) (a a' : AllocaSSA)
    (h : a.computePointerProvenance f entry fuel = some a') :
    a'.blockSummaries = a.blockSummaries ∧ a'.instEffects = a.instEffects := by
  unfold AllocaSSA.computePointerProvenance at h
  simp only [Option.map_eq_some'] at h
  obtain ⟨st, _, e⟩ := h
  rw [← e]
  exact ⟨rfl, rfl⟩

/-- A result of `compute` comes from a result of each of its three passes. -/
theorem compute_stages (f : Func) (region : Region) (fuel : Nat) (a0 a : AllocaSSA)
    (h : a0.compute f region fuel = some a) :
    ∃ a1 a2, a0.computePointerProvenance f region.getRegionEntry fuel = some a1 ∧
      a1.computeLiveness f region fuel = some a2 ∧ a2.computeDefs f region fuel = some a := by
  unfold AllocaSSA.compute at h
  cases h1 : a0.computePointerProvenance f region.getRegionEntry fuel with
  | none => rw [h1] at h; cases h
  | some a1 =>
    rw [h1] at h
    simp only at h
    cases h2 : a1.computeLiveness f region fuel with
    | none => rw [h2] at h; cases h
    | some a2 =>
      rw [h2] at h
      exact ⟨a1, a2, rfl, h2, h⟩


/-- C4.  After `compute` (on an analysis object for which the property held before,
such as a fresh one), for every block `B` and every predecessor `P` of `B` with
`P ≠ B`, every allocation that is live in `B` is also live in `P`. -/
theorem liveness_back_propagation (f : Func) (region : Region) (fuel : Nat) (a0 a : AllocaSSA)
    (h0 : ∀ B P x, P ∈ f.preds B → P ≠ B → a0.isLive x B = true → a0.isLive x P = true)
    (h : a0.compute f region fuel = some a)
    (B P : Nat) (hP : P ∈ f.preds B) (hne : P ≠ B) (x : InstId) (hx : a.isLive x B = true) :
    a.isLive x P = true := by
  obtain ⟨a1, a2, h1, h2, h3⟩ := compute_stages f region fuel a0 a h
  have e1 : ∀ c, a1.liveSet c = a0.liveSet c := by
    intro c
    simp only [AllocaSSA.liveSet, AllocaSSA.summary,
      (computePointerProvenance_frame f _ fuel a0 a1 h1).1]
  have l2 := computeLiveness_backprop f region fuel a1 a2
    (by
      intro B' P' hP' hne' y hy
      rw [e1] at hy ⊢
      exact (isLive_iff a0 y P').mp (h0 B' P' y hP' hne' ((isLive_iff a0 y B').mpr hy)))
    h2
  have l3 := computeDefs_induction f region fuel
    (fun s => ∀ B P, P ∈ f.preds B → P ≠ B → s.liveSet B ⊆ s.liveSet P)
    (by
      intro av b s hs B' P' hP' hne'
      rw [defBlock_liveSet, defBlock_liveSet]
      exact hs B' P' hP' hne')
    a2 a l2 h3
  exact (isLive_iff a x P).mpr (l3 B P hP hne ((isLive_iff a x B).mp hx))

/-- Witness for C4: in the diamond the alloca is live in the merge block and hence in
the `then` block. -/
theorem liveness_back_propagation_witness :
    ∃ a, AllocaSSA.new.compute diamond (functionRegion 4) 20 = some a ∧
      a.isLive ⟨0, 0⟩ 3 = true ∧ a.isLive ⟨0, 0⟩ 1 = true :=
  ⟨_, rfl, by decide,
    liveness_back_propagation diamond (functionRegion 4) 20 AllocaSSA.new _
      (by intro B P x _ _ hx; simp [AllocaSSA.isLive, AllocaSSA.getBlockSummary, AllocaSSA.new, mapFind] at hx)
      rfl 3 1 (by decide) (by decide) ⟨0, 0⟩ (by decide)⟩


/-! ## Definition and join tracking: join sets -/

/-- Bulk assignment keeps a definition map a map. -/
theorem defSetAll_functional (m : Finset (InstId × Desc)) (keys : Finset InstId) (d : Desc)
    (h : DefFunctional m) : DefFunctional (defSetAll m keys d) := by
  intro e he e' he' hk
  simp only [defSetAll, Finset.mem_union, Finset.mem_filter, Finset.mem_image] at he he'
  rcases he with ⟨hm, hn⟩ | ⟨x, hx, rfl⟩
  · rcases he' with ⟨hm', hn'⟩ | ⟨x', hx', rfl⟩
    · exact h e hm e' hm' hk
    · exact absurd (by simpa [hk] using hx') hn
  · rcases he' with ⟨hm', hn'⟩ | ⟨x', hx', rfl⟩
    · exact absurd (by simpa [← hk] using hx) hn'
    · rfl

/-- The predecessor loop body of the definition pass keeps `lastDefMap` a map. -/
theorem joinPred_functional (a : AllocaSSA) (curr : Nat)
    (st : Finset (InstId × Desc) × PtrProvenance) (p : Nat)
    (h : DefFunctional st.1) (hp : DefFunctional (a.summary p).lastDef) :
    DefFunctional (joinPred a curr st p).1 := by
  intro e he e' he' hk
  simp only [joinPred, Finset.mem_union, Finset.mem_filter] at he he'
  rcases he with hm | ⟨⟨hd, _⟩, hf⟩
  · rcases he' with hm' | ⟨⟨hd', _⟩, hf'⟩
    · exact h e hm e' hm' hk
    · exact absurd hk (hf' e hm)
  · rcases he' with hm' | ⟨⟨hd', _⟩, hf'⟩
    · exact absurd hk.symm (hf e' hm')
    · exact hp e hd e' hd' hk

/-- The incoming definitions computed by the predecessor loop form a map. -/
theorem defJoin_functional (f : Func) (a : AllocaSSA) (curr : Nat)
    (h : ∀ b, DefFunctional (a.summary b).lastDef) : DefFunctional (defJoin f a curr).1 := by
  unfold defJoin
  generalize f.preds curr = ps
  have key : ∀ (ps : List Nat) (st : Finset (InstId × Desc) × PtrProvenance),
      DefFunctional st.1 → DefFunctional (ps.foldl (joinPred a curr) st).1 := by
    intro ps
    induction ps with
    | nil => intro st hs; exact hs
    | cons p rest ih =>
      intro st hs
      simp only [List.foldl_cons]
      exact ih _ (joinPred_functional a curr st p hs (h p))
  exact key ps _ (fun e he => absurd he (Finset.not_mem_empty e))

/-- When all predecessor edges of a block come from one block, the predecessor loop
finds no disagreement: `joinSet` stays bottom. -/
theorem defJoin_single (f : Func) (a : AllocaSSA) (curr P : Nat)
    (hP : ∀ p ∈ f.preds curr, p = P) (h : DefFunctional (a.summary P).lastDef) :
    (defJoin f a curr).2 = PtrProvenance.empty := by
  unfold defJoin
  generalize f.preds curr = ps at hP
  have key : ∀ (ps : List Nat) (st : Finset (InstId × Desc) × PtrProvenance),
      (∀ p ∈ ps, p = P) → st.1 ⊆ (a.summary P).lastDef → st.2 = PtrProvenance.empty →
      (ps.foldl (joinPred a curr) st).2 = PtrProvenance.empty := by
    intro ps
    induction ps with
    | nil => intro st _ _ hs; exact hs
    | cons p rest ih =>
      intro st hall hsub hs
      simp only [List.foldl_cons]
      have hp : p = P := hall p (List.mem_cons_self _ _)
      subst hp
      apply ih _ (fun q hq => hall q (List.mem_cons_of_mem _ hq))
      · intro e he
        simp only [joinPred, Finset.mem_union, Finset.mem_filter] at he
        rcases he with hm | ⟨⟨hd, _⟩, _⟩
        · exact hsub hm
        · exact hd
      · have hclash : (((a.summary p).lastDef.filter (fun e => a.isLive e.1 curr)).filter
            (fun e => ∃ e' ∈ st.1, e'.1 = e.1 ∧ e'.2 ≠ e.2)) = ∅ := by
          apply Finset.eq_empty_of_forall_not_mem
          intro e he
          simp only [Finset.mem_filter] at he
          obtain ⟨⟨hd, _⟩, e', he', hk, hv⟩ := he
          exact hv (h e' (hsub he') e hd hk)
        simp only [joinPred, hclash, Finset.image_empty, Finset.union_empty, hs]
  exact key ps _ hP (Finset.empty_subset _) rfl

/-- The instruction scan body of the definition pass keeps `lastDefMap` a map. -/
theorem defInst_functional (a : AllocaSSA) (allocVec : List InstId) (id : InstId) (inst : Inst)
    (st : Bool × List (InstId × Desc) × Finset (InstId × Desc)) (h : DefFunctional st.2.2) :
    DefFunctional (defInst a allocVec id inst st).2.2 := by
  unfold defInst
  simp only
  split
  · split
    · exact defSetAll_functional _ _ _ h
    · exact defSetAll_functional _ _ _ h
  · exact h

/-- The instruction scan of the definition pass keeps `lastDefMap` a map. -/
theorem defScan_functional (a : AllocaSSA) (allocVec : List InstId) (b : Nat) (l : List Inst)
    (st : Bool × List (InstId × Desc) × Finset (InstId × Desc)) (h : DefFunctional st.2.2) :
    DefFunctional (forInsts b (defInst a allocVec) 0 l st).2.2 :=
  forInsts_invariant b (defInst a allocVec) (fun _ s => DefFunctional s.2.2) l 0 st h
    (fun _ inst s' _ hs => defInst_functional a allocVec _ inst s' hs)

/-- Processing a block in the definition pass keeps `JoinInv`. -/
theorem defBlock_joinInv (f : Func) (allocVec : List InstId) (b : Nat) (a : AllocaSSA)
    (h : JoinInv f a) : JoinInv f (defBlock f allocVec b a).2.2 := by
  obtain ⟨h1, h2⟩ := h
  have hfun : ∀ c, DefFunctional ((requestPreds f b a).summary c).lastDef := by
    intro c; rw [requestPreds_summary]; exact h1 c
  refine ⟨?_, ?_⟩
  · intro c
    by_cases hc : c = b
    · subst hc
      simp only [defBlock, summary_setSummary, if_true]
      apply defScan_functional
      exact defSetAll_functional _ _ _ (defJoin_functional f _ c hfun)
    · rw [defBlock_summary f allocVec b a c hc]; exact h1 c
  · intro B P hP
    by_cases hc : B = b
    · subst hc
      simp only [defBlock, summary_setSummary, if_true]
      rw [defJoin_single f _ B P hP (hfun P), requestPreds_summary, h2 B P hP]
      rfl
    · rw [defBlock_summary f allocVec b a B hc]; exact h2 B P hP

/-- The predecessor loop of the liveness pass leaves joins and definitions alone. -/
theorem livePred_frame (curr : Nat) (changed : Bool) (live : Finset InstId) (ps : List Nat) :
    ∀ (stk : List Nat) (a : AllocaSSA) (c : Nat),
      ((ps.foldl (livePred curr changed live) (stk, a)).2.summary c).allocJoin
        = (a.summary c).allocJoin ∧
      ((ps.foldl (livePred curr changed live) (stk, a)).2.summary c).lastDef
        = (a.summary c).lastDef := by
  induction ps with
  | nil => intro stk a c; exact ⟨rfl, rfl⟩
  | cons p rest ih =>
    intro stk a c
    simp only [List.foldl_cons]
    obtain ⟨i1, i2⟩ :=
      ih (livePred curr changed live (stk, a) p).1 (livePred curr changed live (stk, a) p).2 c
    rw [i1, i2]
    unfold livePred
    split
    · exact ⟨rfl, rfl⟩
    · simp only [summary_setSummary, summary_request]
      by_cases e : p = c
      · subst e; simp
      · simp [e]

/-- An iteration of the liveness loop leaves joins and definitions alone. -/
theorem liveStep_frame (f : Func) (st : LiveState) (c : Nat) :
    ((liveStep f st).ssa.summary c).allocJoin = (st.ssa.summary c).allocJoin ∧
    ((liveStep f st).ssa.summary c).lastDef = (st.ssa.summary c).lastDef := by
  unfold liveStep
  cases hw : st.stack with
  | nil => exact ⟨rfl, rfl⟩
  | cons curr rest =>
    simp only
    obtain ⟨i1, i2⟩ := livePred_frame curr
      (forInsts curr (liveInst (st.ssa.requestBlockSummary curr)) 0 (f.block curr).insts
        (decide (curr ∉ st.alreadyVisited),
          ((st.ssa.requestBlockSummary curr).summary curr).liveAllocas)).1
      (forInsts curr (liveInst (st.ssa.requestBlockSummary curr)) 0 (f.block curr).insts
        (decide (curr ∉ st.alreadyVisited),
          ((st.ssa.requestBlockSummary curr).summary curr).liveAllocas)).2
      (f.preds curr) rest
      ((st.ssa.requestBlockSummary curr).setSummary curr
        { liveAllocas := (forInsts curr (liveInst (st.ssa.requestBlockSummary curr)) 0
            (f.block curr).insts (decide (curr ∉ st.alreadyVisited),
              ((st.ssa.requestBlockSummary curr).summary curr).liveAllocas)).2,
          allocJoin := ((st.ssa.requestBlockSummary curr).summary curr).allocJoin,
          lastDef := ((st.ssa.requestBlockSummary curr).summary curr).lastDef }) c
    rw [i1, i2]
    simp only [summary_setSummary, summary_request]
    by_cases e : curr = c
    · subst e; simp
    · simp [e]

/-- The liveness pass keeps `JoinInv`. -/
theorem computeLiveness_joinInv (f : Func) (region : Region) (fuel : Nat) (a0 a : AllocaSSA)
    (h0 : JoinInv f a0) (h : a0.computeLiveness f region fuel = some a) : JoinInv f a := by
  unfold AllocaSSA.computeLiveness at h
  cases he : region.getEndingBlocks f [] with
  | none => rw [he] at h; cases h
  | some eb =>
    rw [he] at h
    simp only at h
    cases hl : liveLoop f fuel ⟨eb.reverse, ∅, a0⟩ with
    | none => rw [hl] at h; cases h
    | some st =>
      rw [hl] at h
      have ha : a = st.ssa := (Option.some.inj h).symm
      obtain ⟨k, hk, _⟩ := liveLoop_some f fuel _ st hl
      have key : ∀ n (s : LiveState) c,
          (((liveStep f)^[n] s).ssa.summary c).allocJoin = (s.ssa.summary c).allocJoin ∧
          (((liveStep f)^[n] s).ssa.summary c).lastDef = (s.ssa.summary c).lastDef := by
        intro n
        induction n with
        | zero => intro s c; exact ⟨rfl, rfl⟩
        | succ m ih =>
          intro s c
          rw [Function.iterate_succ_apply']
          obtain ⟨i1, i2⟩ := liveStep_frame f ((liveStep f)^[m] s) c
          rw [i1, i2]
          exact ih s c
      rw [ha, hk]
      refine ⟨fun b => ?_, fun B P hP => ?_⟩
      · rw [(key k _ b).2]; exact h0.1 b
      · rw [(key k _ B).1]; exact h0.2 B P hP


/-- C5.  After `compute` on a fresh analysis object, a block all of whose predecessor
edges come from one block `P` (in particular a block with exactly one
predecessor) has an empty join set: its `Join` still has the bottom provenance,
whatever definitions the predecessor carries. -/
theorem single_pred_no_join (f : Func) (region : Region) (fuel : Nat) (a : AllocaSSA)
    (h : AllocaSSA.new.compute f region fuel = some a)
    (B P : Nat) (hP : ∀ p ∈ f.preds B, p = P) :
    a.joinSet B = PtrProvenance.empty ∧
    (a.getJoinNode B = none ∨ a.getJoinNode B = some (Desc.Join B, PtrProvenance.empty)) := by
  obtain ⟨a1, a2, h1, h2, h3⟩ := compute_stages f region fuel AllocaSSA.new a h
  have j0 : JoinInv f AllocaSSA.new := by
    refine ⟨fun b => ?_, fun B P _ => ?_⟩
    · intro e he; simp [AllocaSSA.summary, AllocaSSA.new, mapFind, BlockSummary.new] at he
    · simp [AllocaSSA.summary, AllocaSSA.new, mapFind, BlockSummary.new]
  have j1 : JoinInv f a1 := by
    have e := (computePointerProvenance_frame f _ fuel _ a1 h1).1
    refine ⟨fun b => ?_, fun B P hP => ?_⟩
    · simp only [AllocaSSA.summary, e]; exact j0.1 b
    · simp only [AllocaSSA.summary, e]; exact j0.2 B P hP
  have j2 := computeLiveness_joinInv f region fuel a1 a2 j1 h2
  have j3 := computeDefs_induction f region fuel (JoinInv f)
    (fun av b s hs => defBlock_joinInv f av b s hs) a2 a j2 h3
  have hj : a.joinSet B = PtrProvenance.empty := j3.2 B P hP
  refine ⟨hj, ?_⟩
  unfold AllocaSSA.getJoinNode AllocaSSA.getBlockSummary
  cases hm : mapFind a.blockSummaries B with
  | none => left; rfl
  | some s =>
    right
    have : s.allocJoin = PtrProvenance.empty := by
      simpa [AllocaSSA.joinSet, AllocaSSA.summary, hm] using hj
    simp [this]

/-- Witness for C5: in the diamond with an initialising store the merge block gets the
join set with the alloca, the `then` block, whose only predecessor is the entry,
gets none. -/
theorem single_pred_no_join_witness :
    ∃ a, AllocaSSA.new.compute diamondStore (functionRegion 4) 20 = some a ∧
      diamondStore.preds 1 = [0] ∧
      a.getJoinNode 3 = some (Desc.Join 3, PtrProvenance.ofAlloca ⟨0, 0⟩) ∧
      a.joinSet 1 = PtrProvenance.empty :=
  ⟨_, rfl, by decide, by decide,
    (single_pred_no_join diamondStore (functionRegion 4) 20 _ rfl 1 0 (by decide)).1⟩

/-- A state of the provenance loop with a non-empty worklist that recurs after two
iterations, the state in between also having a non-empty worklist, never leads
to a result. -/
theorem provLoop_cycle (f : Func) (s : ProvState) (h1 : s.worklist ≠ [])
    (h2 : (provStep f s).worklist ≠ []) (h3 : provStep f (provStep f s) = s) (n : Nat) :
    provLoop f n s = none ∧ provLoop f n (provStep f s) = none := by
  induction n with
  | zero => simp [provLoop, h1, h2]
  | succ k ih => simp [provLoop, h1, h2, h3, ih.1, ih.2]

/-- C6 (the code at the failing input).  On `selectLoop`, a three-block function with
a loop block that selects between a loaded pointer and an alloca,
`computePointerProvenance` does not return for any number of iterations: from the
third iteration on the loop block is processed again and again, because merging
the alloca's `Tracked` record into the `Wildcard` record of the select reports a
change each time. -/
theorem provenance_pass_diverges (fuel : Nat) :
    AllocaSSA.new.computePointerProvenance selectLoop 0 fuel = none := by
  have hc := provLoop_cycle selectLoop ((provStep selectLoop)^[3] (provInit 0 AllocaSSA.new))
    (by decide) (by decide) (by decide)
  have h0 : (provInit 0 AllocaSSA.new).worklist ≠ [] := by decide
  have h1 : (provStep selectLoop (provInit 0 AllocaSSA.new)).worklist ≠ [] := by decide
  have h2 : (provStep selectLoop (provStep selectLoop (provInit 0 AllocaSSA.new))).worklist ≠ [] := by
    decide
  unfold AllocaSSA.computePointerProvenance
  rcases fuel with _ | _ | _ | k
  · simp [provLoop, h0]
  · simp [provLoop, h0, h1]
  · simp [provLoop, h0, h1, h2]
  · have := (hc k).1
    simp only [Function.iterate_succ, Function.iterate_zero, Function.comp, id] at this
    simp [provLoop, h0, h1, h2, this]

/-- C1 (the code at the failing input).  On `phiLoop` the provenance pass returns with
the getelementptr in the latch recorded as `Tracked` with the single alloca,
while its operand, the header phi, is recorded as `Wildcard`: the record of the
instruction is not above the record of its operand, so it is not the join of its
operands' records. -/
theorem provenance_pass_not_fixpoint :
    ∃ a, AllocaSSA.new.computePointerProvenance phiLoop 0 20 = some a ∧
      phiLoop.instAt ⟨3, 0⟩ = some (.other [.inst ⟨1, 0⟩, .other 0] true) ∧
      mapFind a.instProvenance ⟨1, 0⟩ = some (PtrProvenance.ofType .Wildcard) ∧
      mapFind a.instProvenance ⟨3, 0⟩ = some (PtrProvenance.ofAlloca ⟨0, 0⟩) ∧
      ¬ PtrProvenance.le (a.getProvenance (.inst ⟨1, 0⟩)) (a.getProvenance (.inst ⟨3, 0⟩)) :=
  ⟨_, rfl, by decide⟩

/-- C3 (the code at the failing input).  On the diamond, `compute` returns and the
join of the merge block has an empty provenance set: the alloca `x` is not in it. -/
theorem diamond_merge_join_set_empty :
    ∃ a, AllocaSSA.new.compute diamond (functionRegion 4) 20 = some a ∧
      a.getJoinNode 3 = some (Desc.Join 3, PtrProvenance.empty) ∧
      (⟨0, 0⟩ : InstId) ∉ (a.joinSet 3).allocs :=
  ⟨_, rfl, by decide⟩

/-- C7 (the code at the failing input).  On `phiLoop` a first call of `compute` leaves
the getelementptr of the latch with provenance `Tracked` with the single alloca; a
second call on the same object changes it to `Wildcard`. -/
theorem compute_not_idempotent :
    ∃ a1 a2, AllocaSSA.new.compute phiLoop (functionRegion 5) 20 = some a1 ∧
      a1.compute phiLoop (functionRegion 5) 20 = some a2 ∧
      a1.getProvenance (.inst ⟨3, 0⟩) = PtrProvenance.ofAlloca ⟨0, 0⟩ ∧
      a2.getProvenance (.inst ⟨3, 0⟩) = PtrProvenance.ofType .Wildcard :=
  ⟨_, _, rfl, rfl, by decide⟩

/-! ## Queries: `getProvenance`, `getJoinNode` -/

/-- C15.  The member `getProvenance` always yields a value: for a value that is not
an instruction it is the `External` value with an empty allocation set, for an
instruction without a record it is bottom (`Tracked` with an empty set), and for
an instruction with a record it is exactly the recorded value. -/
theorem getProvenance_total (a : AllocaSSA) :
    (∀ n, a.getProvenance (.other n) = ⟨ProvType.External, ∅⟩) ∧
    (∀ i, mapFind a.instProvenance i = none →
      a.getProvenance (.inst i) = ⟨ProvType.Tracked, ∅⟩) ∧
    (∀ i p, mapFind a.instProvenance i = some p → a.getProvenance (.inst i) = p) ∧
    (∀ v, ∃ p, a.getProvenance v = p ∧
      (p = ⟨ProvType.External, ∅⟩ ∨ p = ⟨ProvType.Tracked, ∅⟩ ∨
        ∃ i, mapFind a.instProvenance i = some p)) := by
  refine ⟨fun n => rfl, ?_, ?_, ?_⟩
  · intro i h
    simp [AllocaSSA.getProvenance, h, AllocaSSA.emptyProvSingle, PtrProvenance.empty]
  · intro i p h
    simp [AllocaSSA.getProvenance, h]
  · intro v
    refine ⟨_, rfl, ?_⟩
    cases v with
    | other n => left; rfl
    | inst i =>
      cases h : mapFind a.instProvenance i with
      | none =>
        right; left
        simp [AllocaSSA.getProvenance, h, AllocaSSA.emptyProvSingle, PtrProvenance.empty]
      | some p =>
        right; right
        exact ⟨i, by simp [AllocaSSA.getProvenance, h]⟩

/-- Witness for C15: on the object with the single record `Wildcard` for
instruction `(1, 0)`. -/
theorem getProvenance_total_witness :
    (AllocaSSA.mk [(⟨1, 0⟩, PtrProvenance.ofType .Wildcard)] [] []).getProvenance (.inst ⟨1, 0⟩)
        = PtrProvenance.ofType .Wildcard ∧
      (AllocaSSA.mk [(⟨1, 0⟩, PtrProvenance.ofType .Wildcard)] [] []).getProvenance (.inst ⟨2, 0⟩)
        = ⟨ProvType.Tracked, ∅⟩ :=
  ⟨(getProvenance_total ⟨[(⟨1, 0⟩, PtrProvenance.ofType .Wildcard)], [], []⟩).2.2.1
      ⟨1, 0⟩ (PtrProvenance.ofType .Wildcard) (by decide),
    (getProvenance_total ⟨[(⟨1, 0⟩, PtrProvenance.ofType .Wildcard)], [], []⟩).2.1
      ⟨2, 0⟩ (by decide)⟩

/-- C16.  The member `getJoinNode` yields no descriptor exactly when the analysis
holds no summary for the block; otherwise it yields the block's own `Join`, whose
place is the block and whose provenance set is the join set accumulated in the
summary (which may be empty). -/
theorem getJoinNode_spec (a : AllocaSSA) (B : Nat) :
    (a.getJoinNode B = none ↔ a.getBlockSummary B = none) ∧
    (∀ s, a.getBlockSummary B = some s →
      a.getJoinNode B = some (Desc.Join B, s.getJoinSet) ∧ s.getJoinSet = a.joinSet B) := by
  unfold AllocaSSA.getJoinNode
  cases h : a.getBlockSummary B with
  | none => simp
  | some s =>
    refine ⟨by simp, ?_⟩
    intro s' hs
    have e : s = s' := Option.some.inj hs
    subst e
    refine ⟨rfl, ?_⟩
    simp only [AllocaSSA.getBlockSummary] at h
    simp [BlockSummary.getJoinSet, AllocaSSA.joinSet, AllocaSSA.summary, h]

/-- Witness for C16: an object whose only summary is that of block `3`, with the
alloca `(0, 0)` in its join set. -/
theorem getJoinNode_spec_witness :
    (AllocaSSA.mk [] [] [(3, ⟨∅, PtrProvenance.ofAlloca ⟨0, 0⟩, ∅⟩)]).getJoinNode 3
        = some (Desc.Join 3, PtrProvenance.ofAlloca ⟨0, 0⟩) ∧
      ((AllocaSSA.mk [] [] [(3, ⟨∅, PtrProvenance.ofAlloca ⟨0, 0⟩, ∅⟩)]).getJoinNode 4 = none ↔
        (AllocaSSA.mk [] [] [(3, ⟨∅, PtrProvenance.ofAlloca ⟨0, 0⟩, ∅⟩)]).getBlockSummary 4
          = none) :=
  ⟨((getJoinNode_spec ⟨[], [], [(3, ⟨∅, PtrProvenance.ofAlloca ⟨0, 0⟩, ∅⟩)]⟩ 3).2
      ⟨∅, PtrProvenance.ofAlloca ⟨0, 0⟩, ∅⟩ rfl).1,
    (getJoinNode_spec ⟨[], [], [(3, ⟨∅, PtrProvenance.ofAlloca ⟨0, 0⟩, ∅⟩)]⟩ 4).1⟩

/-! ## Regions: theorems -/

/-- Membership in a set after inserting the elements of a list. -/
theorem mem_foldl_setInsert (l acc : List Nat) (x : Nat) :
    x ∈ l.foldl setInsert acc ↔ x ∈ acc ∨ x ∈ l := by
  induction l generalizing acc with
  | nil => simp
  | cons b rest ih =>
    simp only [List.foldl_cons, ih, List.mem_cons]
    unfold setInsert
    split
    · rename_i hb
      constructor
      · rintro (h | h)
        · exact Or.inl h
        · exact Or.inr (Or.inr h)
      · rintro (h | h | h)
        · exact Or.inl h
        · subst h; exact Or.inl hb
        · exact Or.inr h
    · simp only [List.mem_append, List.mem_singleton]
      tauto

/-- Inserting the elements of a list into a duplicate-free set keeps it
duplicate-free. -/
theorem nodup_foldl_setInsert (l acc : List Nat) (h : acc.Nodup) :
    (l.foldl setInsert acc).Nodup := by
  induction l generalizing acc with
  | nil => simpa using h
  | cons b rest ih =>
    simp only [List.foldl_cons]
    apply ih
    unfold setInsert
    split
    · exact h
    · rename_i hb
      rw [List.nodup_append]
      refine ⟨h, List.nodup_singleton b, ?_⟩
      intro x hx hx'
      simp only [List.mem_singleton] at hx'
      subst hx'
      exact hb hx

/-- C17.  For a function region, `getEndingBlocks` called with an empty output set
returns normally, and the set it yields holds exactly the blocks of the region's
block set that have no CFG successor (each of them once); the extra blocks of
the `Region` play no part. -/
theorem functionRegion_endingBlocks (f : Func) (Blocks extraBlocks : List Nat) :
    ∃ endingBlocks,
      (Region.mk (.FunctionRegion Blocks) extraBlocks).getEndingBlocks f [] = some endingBlocks ∧
      (∀ b, b ∈ endingBlocks ↔ b ∈ Blocks ∧ f.succs b = []) ∧ endingBlocks.Nodup := by
  refine ⟨_, rfl, ?_, ?_⟩
  · intro b
    simp [mem_foldl_setInsert, List.mem_filter]
  · exact nodup_foldl_setInsert _ _ List.nodup_nil

/-- C18 (counterexample).  A function region built from the block list `[1]` does not
contain its entry, block `0`. -/
theorem functionRegion_entry_not_contained :
    (Region.mk (.FunctionRegion [1]) []).contains
      (Region.mk (.FunctionRegion [1]) []).getRegionEntry = false := by
  decide

/-- C18 (amended).  A region whose implementation was built from a block list that
holds the entry block (for a loop region: an `llvm::Loop`, which holds its
header) contains its entry; this covers every loop region and every function
region built from a block list with the function's entry block. -/
theorem region_contains_entry (r : Region) (h : r.mImpl.EntryListed) :
    r.contains r.getRegionEntry = true := by
  obtain ⟨impl, extra⟩ := r
  unfold Region.contains Region.getRegionEntry
  split
  · rfl
  · cases impl <;>
      simpa [RegionImpl.contains, RegionImpl.getRegionEntry, RegionImpl.EntryListed,
        Loop.contains] using h

/-- Witness for C18: the loop region of `loopStore` and the function region of the
diamond. -/
theorem region_contains_entry_witness :
    loopStoreRegion.contains loopStoreRegion.getRegionEntry = true ∧
      (functionRegion 4).contains (functionRegion 4).getRegionEntry = true :=
  ⟨region_contains_entry loopStoreRegion (by show (1 : Nat) ∈ [1, 2]; decide),
    region_contains_entry (functionRegion 4) (by show (0 : Nat) ∈ List.range 4; decide)⟩

/-- The loop of `RegionImpl::forEachBlock` does stop: with a logging visitor, every
invocation but the last one returned `true`. -/
theorem forEachBlockLoop_stops (contains : Nat → Bool) (answer : Nat → Bool) (l : List Nat) :
    ∀ log : List Nat, ∃ visited : List Nat,
      forEachBlockLoop contains (recordVisits answer) l log = log ++ visited ∧
      ∀ b ∈ visited.dropLast, answer b = true := by
  induction l with
  | nil => intro log; exact ⟨[], by simp [forEachBlockLoop], by simp⟩
  | cons b rest ih =>
    intro log
    unfold forEachBlockLoop
    split
    · exact ih log
    · simp only [recordVisits]
      split
      · exact ⟨[b], rfl, by simp⟩
      · rename_i hb
        obtain ⟨vis, hv, hall⟩ := ih (log ++ [b])
        refine ⟨b :: vis, by rw [hv]; simp, ?_⟩
        intro c hc
        cases vis with
        | nil => simp at hc
        | cons d t =>
          rw [List.dropLast_cons₂] at hc
          rcases List.mem_cons.mp hc with e | e
          · subst e; simpa using hb
          · exact hall c e

/-- C19 (the code at the failing input).  On the region made of the first three
blocks of the diamond with the fourth block added by `add`, a visitor that
returns `false` at once is still invoked on the added block: the log is `[0, 3]`. -/
theorem forEachBlock_visits_extra_after_stop :
    ((functionRegion 3).add 3).forEachBlock diamond (recordVisits (fun _ => false)) []
      = [0, 3] := by
  decide

/-- C20 (the code at the failing input).  On the function region of the diamond,
`forBlocksRpo` invokes a visitor that returns `false` at once on every block of
the reverse post-order: the log is `[0, 2, 1, 3]`. -/
theorem forBlocksRpo_ignores_stop :
    (functionRegion 4).forBlocksRpo diamond (recordVisits (fun _ => false)) []
      = [0, 2, 1, 3] := by
  decide

/-! ## End-to-end scenarios -/

/-- C13.  In the diamond (one alloca `x` in the entry block, a conditional branch to
two blocks that each store to `x`, and a merge block that loads `x` and returns),
`compute` on the function region returns and `x` is live in the merge block, in
both branch blocks and in the entry block. -/
theorem diamond_liveness :
    ∃ a, AllocaSSA.new.compute diamond (functionRegion 4) 20 = some a ∧
      a.isLive ⟨0, 0⟩ 3 = true ∧ a.isLive ⟨0, 0⟩ 1 = true ∧
      a.isLive ⟨0, 0⟩ 2 = true ∧ a.isLive ⟨0, 0⟩ 0 = true :=
  ⟨_, rfl, by decide⟩

/-! ## Pointer provenance pass: loads, calls and monotone updates -/

/-- On a load or a call the scan body keeps the record or sets it to `Wildcard`. -/
theorem provInst_wild (id : InstId) (inst : Inst) (st : Bool × List (InstId × PtrProvenance))
    (hk : (inst.isLoad || inst.isCall) = true) :
    mapFind (provInst id inst st).2 id = mapFind st.2 id ∨
      mapFind (provInst id inst st).2 id = some (PtrProvenance.ofType ProvType.Wildcard) := by
  unfold provInst
  cases inst <;> simp only [Inst.isLoad, Inst.isCall] at hk <;>
    simp only [Inst.isPointerTy, Inst.isAlloca, Inst.isLoad, Inst.isCall] <;>
    (repeat' split) <;> simp_all [mapFind_mapSet]

/-- On a pointer-typed load or call the scan body leaves a record behind. -/
theorem provInst_wild_isSome (id : InstId) (inst : Inst)
    (st : Bool × List (InstId × PtrProvenance))
    (hk : (inst.isLoad || inst.isCall) = true) (hp : inst.isPointerTy = true) :
    (mapFind (provInst id inst st).2 id).isSome := by
  unfold provInst
  cases inst <;> simp only [Inst.isLoad, Inst.isCall] at hk <;>
    simp only [Inst.isPointerTy] at hp <;>
    simp only [Inst.isPointerTy, Inst.isAlloca, Inst.isLoad, Inst.isCall] <;>
    (repeat' split) <;> simp_all [mapFind_mapSet]

/-- The scan body of the provenance pass keeps the records of loads and calls at
`Wildcard`. -/
theorem provInst_wildOK (f : Func) (id : InstId) (inst : Inst)
    (st : Bool × List (InstId × PtrProvenance)) (hinst : f.instAt id = some inst)
    (h : WildOK f st.2) : WildOK f (provInst id inst st).2 := by
  intro i v inst' hv hi hk
  by_cases hid : i = id
  · subst hid
    have e : inst = inst' := by
      rw [hinst] at hi; exact Option.some.inj hi
    subst e
    rcases provInst_wild i inst st hk with q | q
    · rw [q] at hv; exact h i v inst hv hi hk
    · rw [q] at hv; exact (Option.some.inj hv).symm
  · rw [provInst_other_key id inst st i hid] at hv
    exact h i v inst' hv hi hk

/-- The scan of one block in the provenance pass: load and call records stay
`Wildcard`, no record is lost, and every pointer-typed load or call of the
block gets a record. -/
theorem provScan_wild (f : Func) (b : Nat) (changed : Bool)
    (prov : List (InstId × PtrProvenance)) (h : WildOK f prov) :
    WildOK f (forInsts b provInst 0 (f.block b).insts (changed, prov)).2 ∧
    (∀ i, (mapFind prov i).isSome →
      (mapFind (forInsts b provInst 0 (f.block b).insts (changed, prov)).2 i).isSome) ∧
    (∀ k inst, f.instAt ⟨b, k⟩ = some inst → (inst.isLoad || inst.isCall) = true →
      inst.isPointerTy = true →
      (mapFind (forInsts b provInst 0 (f.block b).insts (changed, prov)).2 ⟨b, k⟩).isSome) := by
  have key := forInsts_invariant b provInst
    (fun j s => WildOK f s.2 ∧ (∀ i, (mapFind prov i).isSome → (mapFind s.2 i).isSome) ∧
      (∀ k inst, k < j → f.instAt ⟨b, k⟩ = some inst → (inst.isLoad || inst.isCall) = true →
        inst.isPointerTy = true → (mapFind s.2 ⟨b, k⟩).isSome))
    (f.block b).insts 0 (changed, prov)
    ⟨h, fun _ hi => hi, fun k _ hk => absurd hk (Nat.not_lt_zero k)⟩
    (by
      intro j inst s' hj hP
      obtain ⟨h1, h2, h3⟩ := hP
      have hinst : f.instAt ⟨b, 0 + j⟩ = some inst := by
        simpa [Func.instAt] using hj
      refine ⟨provInst_wildOK f _ inst s' hinst h1,
        fun i hi => provInst_isSome _ inst s' i (h2 i hi), ?_⟩
      intro k inst' hk hka hkk hkp
      by_cases hkj : k < 0 + j
      · exact provInst_isSome _ inst s' _ (h3 k inst' hkj hka hkk hkp)
      · have e : k = 0 + j := by omega
        subst e
        have e2 : inst = inst' := by
          rw [hinst] at hka; exact Option.some.inj hka
        subst e2
        exact provInst_wild_isSome _ inst s' hkk hkp)
  obtain ⟨k1, k2, k3⟩ := key
  refine ⟨k1, k2, ?_⟩
  intro k inst hk
  apply k3 k inst _ hk
  have : (f.block b).insts.get? k = some inst := by simpa [Func.instAt] using hk
  have hlt := (List.get?_eq_some.mp this).1
  omega

/-- An iteration of the provenance loop never removes a record, whatever the state. -/
theorem provStep_keeps (f : Func) (st : ProvState) (i : InstId)
    (h : (mapFind st.instProvenance i).isSome) :
    (mapFind (provStep f st).instProvenance i).isSome := by
  unfold provStep
  cases hw : st.worklist with
  | nil => simpa using h
  | cons b rest =>
    have hs := forInsts_invariant b provInst
      (fun _ s => (mapFind s.2 i).isSome) (f.block b).insts 0
      (decide (b ∉ st.seenBlocks), st.instProvenance) h
      (fun _ inst s' _ hP => provInst_isSome _ inst s' i hP)
    simp only
    split <;> exact hs

/-- An iteration of the provenance loop keeps `WildInv`. -/
theorem provStep_wildInv (f : Func) (st : ProvState) (h : WildInv f st) :
    WildInv f (provStep f st) := by
  obtain ⟨h1, h2⟩ := h
  unfold provStep
  cases hw : st.worklist with
  | nil => simp only; exact ⟨h1, h2⟩
  | cons b rest =>
    obtain ⟨s1, s2, s3⟩ := provScan_wild f b (decide (b ∉ st.seenBlocks)) st.instProvenance h1
    have hI2 : ∀ c ∈ insert b st.seenBlocks, ∀ k inst, f.instAt ⟨c, k⟩ = some inst →
        (inst.isLoad || inst.isCall) = true → inst.isPointerTy = true →
        (mapFind (forInsts b provInst 0 (f.block b).insts
          (decide (b ∉ st.seenBlocks), st.instProvenance)).2 ⟨c, k⟩).isSome := by
      intro c hc k inst hk hkk hkp
      rcases Finset.mem_insert.mp hc with e | hc'
      · subst e; exact s3 k inst hk hkk hkp
      · exact s2 _ (h2 c hc' k inst hk hkk hkp)
    simp only
    split <;> exact ⟨s1, hI2⟩

/-- Every state reached by the provenance loop from a fresh object satisfies `WildInv`. -/
theorem provIter_wildInv (f : Func) (entry : Nat) (n : Nat) :
    WildInv f ((provStep f)^[n] (provInit entry AllocaSSA.new)) := by
  induction n with
  | zero =>
    refine ⟨?_, ?_⟩
    · intro i v inst hv; simp [provInit, AllocaSSA.new, mapFind] at hv
    · intro b hb; simp [provInit] at hb
  | succ k ih =>
    rw [Function.iterate_succ_apply']
    exact provStep_wildInv f _ ih

/-- C12.  Started on a fresh analysis object at the entry of any region, when
`computePointerProvenance` returns, every pointer-typed load and every
pointer-typed call `x` in a block reachable from the region entry has provenance
`Wildcard` with an empty allocation set, whatever its operands are.  Moreover, at
every iteration of the loop, `x` has this record as soon as its block has been
seen, and a record held for `x` is this value and stays this value in all later
iterations. -/
theorem load_call_provenance_wildcard (f : Func) (region : Region) (fuel : Nat) (a : AllocaSSA)
    (h : AllocaSSA.new.computePointerProvenance f region.getRegionEntry fuel = some a)
    (x : InstId) (inst : Inst) (hx : f.instAt x = some inst)
    (hk : (inst.isLoad || inst.isCall) = true) (hp : inst.isPointerTy = true)
    (hr : f.Reachable region.getRegionEntry x.block) :
    a.getProvenance (.inst x) = PtrProvenance.ofType ProvType.Wildcard ∧
    (∀ n, x.block ∈ ((provStep f)^[n] (provInit region.getRegionEntry AllocaSSA.new)).seenBlocks →
      mapFind ((provStep f)^[n] (provInit region.getRegionEntry AllocaSSA.new)).instProvenance x
        = some (PtrProvenance.ofType ProvType.Wildcard)) ∧
    (∀ n v,
      mapFind ((provStep f)^[n] (provInit region.getRegionEntry AllocaSSA.new)).instProvenance x
        = some v →
      v = PtrProvenance.ofType ProvType.Wildcard ∧
      ∀ m, mapFind
        ((provStep f)^[n + m] (provInit region.getRegionEntry AllocaSSA.new)).instProvenance x
          = some v) := by
  have hval : ∀ n, (mapFind
      ((provStep f)^[n] (provInit region.getRegionEntry AllocaSSA.new)).instProvenance x).isSome →
      mapFind ((provStep f)^[n] (provInit region.getRegionEntry AllocaSSA.new)).instProvenance x
        = some (PtrProvenance.ofType ProvType.Wildcard) := by
    intro n hs
    obtain ⟨v, hv⟩ := Option.isSome_iff_exists.mp hs
    rw [hv, (provIter_wildInv f region.getRegionEntry n).1 x v inst hv hx hk]
  have hseen : ∀ n,
      x.block ∈ ((provStep f)^[n] (provInit region.getRegionEntry AllocaSSA.new)).seenBlocks →
      mapFind ((provStep f)^[n] (provInit region.getRegionEntry AllocaSSA.new)).instProvenance x
        = some (PtrProvenance.ofType ProvType.Wildcard) := by
    intro n hs
    apply hval
    obtain ⟨xb, xi⟩ := x
    exact (provIter_wildInv f region.getRegionEntry n).2 xb hs xi inst hx hk hp
  refine ⟨?_, hseen, ?_⟩
  · unfold AllocaSSA.computePointerProvenance at h
    cases hl : provLoop f fuel (provInit region.getRegionEntry AllocaSSA.new) with
    | none => rw [hl] at h; cases h
    | some st =>
      rw [hl] at h
      have ha : a.instProvenance = st.instProvenance := by
        rw [← Option.some.inj h]
      obtain ⟨k, hk', hw⟩ := provLoop_some f fuel _ st hl
      have hinv := provIter_inv f region.getRegionEntry k
      rw [← hk'] at hinv
      have hs := provInv_reachable f _ st hinv hw x.block hr
      rw [hk'] at hs
      have := hseen k hs
      rw [← hk', ← ha] at this
      simp [AllocaSSA.getProvenance, this]
  · intro n v hv
    have e := (provIter_wildInv f region.getRegionEntry n).1 x v inst hv hx hk
    refine ⟨e, ?_⟩
    intro m
    induction m with
    | zero => simpa using hv
    | succ j ih =>
      rw [e]
      apply hval
      rw [← Nat.add_assoc, Function.iterate_succ_apply']
      exact provStep_keeps f _ x (by rw [ih]; rfl)

/-- Witness for C12: the pointer load in the latch of `phiLoop`. -/
theorem load_call_provenance_wildcard_witness :
    ∃ a, AllocaSSA.new.computePointerProvenance phiLoop (functionRegion 5).getRegionEntry 20
        = some a ∧
      a.getProvenance (.inst ⟨3, 1⟩) = PtrProvenance.ofType ProvType.Wildcard :=
  ⟨_, rfl,
    (load_call_provenance_wildcard phiLoop (functionRegion 5) 20 _ rfl ⟨3, 1⟩
      (.load (.other 1) true) (by decide) (by decide) (by decide)
      (by
        have h01 : phiLoop.Reachable 0 1 :=
          Relation.ReflTransGen.single (by show (1 : Nat) ∈ phiLoop.succs 0; decide)
        have h12 : phiLoop.Reachable 1 2 :=
          Relation.ReflTransGen.single (by show (2 : Nat) ∈ phiLoop.succs 1; decide)
        have h23 : phiLoop.Reachable 2 3 :=
          Relation.ReflTransGen.single (by show (3 : Nat) ∈ phiLoop.succs 2; decide)
        exact (h01.trans h12).trans h23)).1⟩

/-- The join never lowers the rank of the receiver and, unless the result is
`Wildcard`, never loses an alloca of the receiver. -/
theorem merge_grows (p q : PtrProvenance) : PtrProvenance.Grows p (p.merge q).2 := by
  obtain ⟨tp, ap⟩ := p
  obtain ⟨tq, aq⟩ := q
  cases tp <;> cases tq <;>
    simp [PtrProvenance.Grows, PtrProvenance.merge, ProvType.max, ProvType.val,
      Finset.subset_union_left]

/-- Growth is reflexive. -/
theorem grows_refl (p : PtrProvenance) : PtrProvenance.Grows p p :=
  ⟨Nat.le_refl _, fun _ => Finset.Subset.refl _⟩

/-- Growth is transitive. -/
theorem grows_trans (p q r : PtrProvenance) (h1 : PtrProvenance.Grows p q)
    (h2 : PtrProvenance.Grows q r) : PtrProvenance.Grows p r := by
  refine ⟨Nat.le_trans h1.1 h2.1, ?_⟩
  intro hr
  have hq : q.provType ≠ ProvType.Wildcard := by
    intro e
    apply hr
    have := h2.1
    rw [e] at this
    cases hrt : r.provType <;> simp [hrt, ProvType.val] at this ⊢
  exact (h1.2 hq).trans (h2.2 hr)

/-- The operand loop of the generic transformer only lets `oldProv` grow. -/
theorem joinOperands_grows (prov : List (InstId × PtrProvenance)) (ops : List Value) :
    ∀ acc : Bool × PtrProvenance, PtrProvenance.Grows acc.2 (joinOperands prov ops acc).2 := by
  induction ops with
  | nil => intro acc; exact grows_refl _
  | cons o rest ih =>
    intro acc
    obtain ⟨c, p⟩ := acc
    cases o with
    | other n => simpa [joinOperands] using ih (c, p)
    | inst op =>
      unfold joinOperands
      cases hm : mapFind prov op with
      | none => simpa [hm] using ih (c, p)
      | some q =>
        simp only [hm]
        exact grows_trans _ _ _ (merge_grows p q) (ih (c || (p.merge q).1, (p.merge q).2))

/-- The scan body of the provenance pass keeps every record or lets it grow. -/
theorem provInst_grows (id : InstId) (inst : Inst) (st : Bool × List (InstId × PtrProvenance))
    (i : InstId) (v : PtrProvenance) (h : mapFind st.2 i = some v) :
    ∃ v', mapFind (provInst id inst st).2 i = some v' ∧ PtrProvenance.Grows v v' := by
  by_cases hid : i = id
  · subst hid
    cases inst with
    | other operands p =>
      unfold provInst
      simp only [Inst.isPointerTy, Inst.isAlloca, Inst.isLoad, Inst.isCall]
      split
      · exact ⟨v, h, grows_refl v⟩
      · simp only [Bool.false_eq_true, if_false, Bool.or_self, h, Option.isSome_some, if_true,
          Option.getD_some]
        split
        · exact ⟨(joinOperands st.2 operands (false, v)).2, by simp [mapFind_mapSet],
            joinOperands_grows st.2 operands (false, v)⟩
        · exact ⟨v, h, grows_refl v⟩
    | alloca =>
      refine ⟨v, ?_, grows_refl v⟩
      rw [provInst_alloca, h]; rfl
    | load ptr p =>
      refine ⟨v, ?_, grows_refl v⟩
      unfold provInst
      simp only [Inst.isPointerTy, Inst.isAlloca, Inst.isLoad, Inst.isCall]
      (repeat' split) <;> simp_all
    | store val ptr =>
      exact ⟨v, by simpa [provInst, Inst.isPointerTy] using h, grows_refl v⟩
    | memTransfer d s =>
      exact ⟨v, by simpa [provInst, Inst.isPointerTy] using h, grows_refl v⟩
    | call c r args p =>
      refine ⟨v, ?_, grows_refl v⟩
      unfold provInst
      simp only [Inst.isPointerTy, Inst.isAlloca, Inst.isLoad, Inst.isCall]
      (repeat' split) <;> simp_all
  · exact ⟨v, by rw [provInst_other_key id inst st i hid]; exact h, grows_refl v⟩

/-- An iteration of the provenance loop keeps every record or lets it grow. -/
theorem provStep_grows (f : Func) (st : ProvState) (i : InstId) (v : PtrProvenance)
    (h : mapFind st.instProvenance i = some v) :
    ∃ v', mapFind (provStep f st).instProvenance i = some v' ∧ PtrProvenance.Grows v v' := by
  unfold provStep
  cases hw : st.worklist with
  | nil => exact ⟨v, by simpa using h, grows_refl v⟩
  | cons b rest =>
    have hs := forInsts_invariant b provInst
      (fun _ s => ∃ v', mapFind s.2 i = some v' ∧ PtrProvenance.Grows v v')
      (f.block b).insts 0 (decide (b ∉ st.seenBlocks), st.instProvenance)
      ⟨v, h, grows_refl v⟩
      (by
        intro _ inst s' _ hP
        obtain ⟨w, hw1, hw2⟩ := hP
        obtain ⟨w', hw3, hw4⟩ := provInst_grows _ inst s' i w hw1
        exact ⟨w', hw3, grows_trans _ _ _ hw2 hw4⟩)
    simp only
    split <;> exact hs

/-- C11 (counterexample).  On `phiLoop` the sixth iteration of the provenance loop
updates the record of the header phi from `Tracked` with the alloca `(0, 0)` to
`Wildcard` with an empty set: the update removes the alloca from the set. -/
theorem provenance_update_drops_allocation :
    mapFind ((provStep phiLoop)^[5] (provInit 0 AllocaSSA.new)).instProvenance ⟨1, 0⟩
        = some (PtrProvenance.ofAlloca ⟨0, 0⟩) ∧
      mapFind ((provStep phiLoop)^[6] (provInit 0 AllocaSSA.new)).instProvenance ⟨1, 0⟩
        = some (PtrProvenance.ofType ProvType.Wildcard) ∧
      ¬ (PtrProvenance.ofAlloca ⟨0, 0⟩).allocs ⊆ (PtrProvenance.ofType ProvType.Wildcard).allocs := by
  decide

/-- C11 (amended).  Across the iterations of `computePointerProvenance`, from any
state, a record is never removed, an update never lowers its rank, and as long as
the new rank is not `Wildcard` it never removes an alloca from the set (at
`Wildcard` the set is cleared). -/
theorem provenance_record_grows (f : Func) (st : ProvState) (i : InstId) (v : PtrProvenance)
    (n : Nat) (h : mapFind st.instProvenance i = some v) :
    ∃ v', mapFind ((provStep f)^[n] st).instProvenance i = some v' ∧
      v.provType.val ≤ v'.provType.val ∧
      (v'.provType ≠ ProvType.Wildcard → v.allocs ⊆ v'.allocs) := by
  induction n with
  | zero => exact ⟨v, by simpa using h, Nat.le_refl _, fun _ => Finset.Subset.refl _⟩
  | succ k ih =>
    obtain ⟨w, hw1, hw2⟩ := ih
    obtain ⟨w', hw3, hw4⟩ := provStep_grows f _ i w hw1
    rw [Function.iterate_succ_apply']
    exact ⟨w', hw3, grows_trans v w w' hw2 hw4⟩

/-- Witness for C11: the record of the header phi of `phiLoop` after the second
iteration, `Tracked` with the alloca, followed over four more iterations (in
which it becomes `Wildcard`). -/
theorem provenance_record_grows_witness :
    ∃ v', mapFind
        ((provStep phiLoop)^[4] ((provStep phiLoop)^[2] (provInit 0 AllocaSSA.new))).instProvenance
        ⟨1, 0⟩ = some v' ∧
      (PtrProvenance.ofAlloca ⟨0, 0⟩).provType.val ≤ v'.provType.val ∧
      (v'.provType ≠ ProvType.Wildcard → (PtrProvenance.ofAlloca ⟨0, 0⟩).allocs ⊆ v'.allocs) :=
  provenance_record_grows phiLoop ((provStep phiLoop)^[2] (provInit 0 AllocaSSA.new)) ⟨1, 0⟩
    (PtrProvenance.ofAlloca ⟨0, 0⟩) 4 (by decide)

/-! ## Allocas that the provenance pass does not reach -/

/-- The join adds no alloca beyond those of its two arguments. -/
theorem merge_allocs_subset (p q : PtrProvenance) :
    (p.merge q).2.allocs ⊆ p.allocs ∪ q.allocs := by
  unfold PtrProvenance.merge
  simp only
  split
  · exact Finset.empty_subset _
  · exact Finset.Subset.refl _

/-- Assignment keeps `ProvWithin` when the new record qualifies. -/
theorem provWithin_mapSet (R : Nat → Prop) (prov : List (InstId × PtrProvenance)) (k : InstId)
    (v : PtrProvenance) (h : ProvWithin R prov) (hk : R k.block)
    (hv : ∀ y ∈ v.allocs, R y.block) : ProvWithin R (mapSet prov k v) := by
  intro i w hw
  rw [mapFind_mapSet] at hw
  split at hw
  · rename_i e
    subst e
    have : v = w := Option.some.inj hw
    subst this
    exact ⟨hk, hv⟩
  · exact h i w hw

/-- The operand loop of the generic transformer keeps the allocas of `oldProv`
within the allocas of the records. -/
theorem joinOperands_within (R : Nat → Prop) (prov : List (InstId × PtrProvenance))
    (h : ProvWithin R prov) (ops : List Value) :
    ∀ acc : Bool × PtrProvenance, (∀ y ∈ acc.2.allocs, R y.block) →
      ∀ y ∈ (joinOperands prov ops acc).2.allocs, R y.block := by
  induction ops with
  | nil => intro acc hacc; simpa [joinOperands] using hacc
  | cons o rest ih =>
    intro acc hacc
    obtain ⟨c, p⟩ := acc
    cases o with
    | other n => simpa [joinOperands] using ih (c, p) hacc
    | inst op =>
      unfold joinOperands
      cases hm : mapFind prov op with
      | none => simpa [hm] using ih (c, p) hacc
      | some q =>
        simp only [hm]
        apply ih
        intro y hy
        rcases Finset.mem_union.mp (merge_allocs_subset p q hy) with e | e
        · exact hacc y e
        · exact (h op q hm).2 y e

/-- The scan body of the provenance pass keeps `ProvWithin` when the instruction it
handles lies in a block with the property. -/
theorem provInst_within (R : Nat → Prop) (id : InstId) (inst : Inst)
    (st : Bool × List (InstId × PtrProvenance)) (hid : R id.block)
    (h : ProvWithin R st.2) : ProvWithin R (provInst id inst st).2 := by
  have hempty : ∀ y ∈ (PtrProvenance.empty).allocs, R y.block := by
    intro y hy; simp [PtrProvenance.empty] at hy
  have hwild : ∀ y ∈ (PtrProvenance.ofType ProvType.Wildcard).allocs, R y.block := by
    intro y hy; simp [PtrProvenance.ofType] at hy
  have hself : ∀ y ∈ (PtrProvenance.ofAlloca id).allocs, R y.block := by
    intro y hy
    simp only [PtrProvenance.ofAlloca, Finset.mem_singleton] at hy
    subst hy; exact hid
  cases inst with
  | other operands p =>
    cases p with
    | false => exact h
    | true =>
      have e : provInst id (.other operands true) st =
          if (joinOperands
              (if (mapFind st.2 id).isSome then st.2 else mapSet st.2 id PtrProvenance.empty)
              operands
              (false, (mapFind
                (if (mapFind st.2 id).isSome then st.2 else mapSet st.2 id PtrProvenance.empty)
                id).getD PtrProvenance.empty)).1
          then (true, mapSet
              (if (mapFind st.2 id).isSome then st.2 else mapSet st.2 id PtrProvenance.empty) id
              (joinOperands
                (if (mapFind st.2 id).isSome then st.2 else mapSet st.2 id PtrProvenance.empty)
                operands
                (false, (mapFind
                  (if (mapFind st.2 id).isSome then st.2 else mapSet st.2 id PtrProvenance.empty)
                  id).getD PtrProvenance.empty)).2)
          else (st.1,
            if (mapFind st.2 id).isSome then st.2 else mapSet st.2 id PtrProvenance.empty) := rfl
      rw [e]
      have hprov : ProvWithin R
          (if (mapFind st.2 id).isSome then st.2 else mapSet st.2 id PtrProvenance.empty) := by
        split
        · exact h
        · exact provWithin_mapSet R _ _ _ h hid hempty
      have hold : ∀ y ∈ ((mapFind
          (if (mapFind st.2 id).isSome then st.2 else mapSet st.2 id PtrProvenance.empty)
          id).getD PtrProvenance.empty).allocs, R y.block := by
        cases hm : mapFind
          (if (mapFind st.2 id).isSome then st.2 else mapSet st.2 id PtrProvenance.empty)
          id with
        | none => simpa using hempty
        | some w => simpa using (hprov id w hm).2
      generalize (if (mapFind st.2 id).isSome then st.2
        else mapSet st.2 id PtrProvenance.empty) = prov at hprov hold ⊢
      by_cases hc : (joinOperands prov operands
          (false, (mapFind prov id).getD PtrProvenance.empty)).1 = true
      · rw [if_pos hc]
        exact provWithin_mapSet R _ _ _ hprov hid
          (joinOperands_within R prov hprov operands
            (false, (mapFind prov id).getD PtrProvenance.empty) hold)
      · rw [if_neg hc]
        exact hprov
  | alloca =>
    have e : provInst id Inst.alloca st =
        if (mapFind st.2 id).isSome then st
        else (true, mapSet st.2 id (PtrProvenance.ofAlloca id)) := rfl
    rw [e]
    split
    · exact h
    · exact provWithin_mapSet R _ _ _ h hid hself
  | load ptr p =>
    cases p with
    | false => exact h
    | true =>
      have e : provInst id (.load ptr true) st =
          if (mapFind st.2 id).isSome then st
          else (true, mapSet st.2 id (PtrProvenance.ofType ProvType.Wildcard)) := rfl
      rw [e]
      split
      · exact h
      · exact provWithin_mapSet R _ _ _ h hid hwild
  | call c r args p =>
    cases p with
    | false => exact h
    | true =>
      have e : provInst id (.call c r args true) st =
          if (mapFind st.2 id).isSome then st
          else (true, mapSet st.2 id (PtrProvenance.ofType ProvType.Wildcard)) := rfl
      rw [e]
      split
      · exact h
      · exact provWithin_mapSet R _ _ _ h hid hwild
  | store val ptr => exact h
  | memTransfer d s => exact h

/-- An iteration of the provenance loop keeps the worklist and the records within
the blocks reachable from the entry. -/
theorem provStep_within (f : Func) (entry : Nat) (st : ProvState)
    (h : (∀ b ∈ st.worklist, f.Reachable entry b) ∧
      ProvWithin (f.Reachable entry) st.instProvenance) :
    (∀ b ∈ (provStep f st).worklist, f.Reachable entry b) ∧
      ProvWithin (f.Reachable entry) (provStep f st).instProvenance := by
  obtain ⟨h1, h2⟩ := h
  unfold provStep
  cases hw : st.worklist with
  | nil => exact ⟨h1, h2⟩
  | cons b rest =>
    rw [hw] at h1
    have hb : f.Reachable entry b := h1 b (List.mem_cons_self _ _)
    have hs := forInsts_invariant b provInst
      (fun _ s => ProvWithin (f.Reachable entry) s.2) (f.block b).insts 0
      (decide (b ∉ st.seenBlocks), st.instProvenance) h2
      (fun _ inst s' _ hP => provInst_within _ _ inst s' hb hP)
    simp only
    split
    · refine ⟨?_, hs⟩
      intro c hc
      rcases (mem_foldl_push _ _ _).mp hc with e | e
      · exact Relation.ReflTransGen.tail hb e
      · exact h1 c (List.mem_cons_of_mem _ e)
    · exact ⟨fun c hc => h1 c (List.mem_cons_of_mem _ hc), hs⟩

/-- After the provenance pass on a fresh object every record, and every alloca of
a record, lies in a block reachable from the entry. -/
theorem computePointerProvenance_within (f : Func) (entry fuel : Nat) (a : AllocaSSA)
    (h : AllocaSSA.new.computePointerProvenance f entry fuel = some a) :
    ProvWithin (f.Reachable entry) a.instProvenance := by
  unfold AllocaSSA.computePointerProvenance at h
  simp only [Option.map_eq_some'] at h
  obtain ⟨st, hst, e⟩ := h
  rw [← e]
  obtain ⟨k, hk, _⟩ := provLoop_some f fuel _ st hst
  have key : ∀ n, (∀ b ∈ ((provStep f)^[n] (provInit entry AllocaSSA.new)).worklist,
      f.Reachable entry b) ∧
      ProvWithin (f.Reachable entry)
        ((provStep f)^[n] (provInit entry AllocaSSA.new)).instProvenance := by
    intro n
    induction n with
    | zero =>
      refine ⟨?_, ?_⟩
      · intro b hb
        simp only [Function.iterate_zero, id, provInit, List.mem_singleton] at hb
        subst hb; exact Relation.ReflTransGen.refl
      · intro i v hv; simp [provInit, AllocaSSA.new, mapFind] at hv
    | succ m ih =>
      rw [Function.iterate_succ_apply']
      exact provStep_within f entry _ ih
  simpa [hk] using (key k).2

/-! ## Liveness pass: what can become live -/

/-- Requesting or writing a summary leaves the provenance map alone. -/
theorem instProvenance_request (a : AllocaSSA) (b : Nat) :
    (a.requestBlockSummary b).instProvenance = a.instProvenance := by
  unfold AllocaSSA.requestBlockSummary
  cases mapFind a.blockSummaries b <;> rfl

/-- The predecessor loop of the liveness pass leaves the provenance map alone and
adds nothing but `live` to a live set. -/
theorem livePred_upper (curr : Nat) (changed : Bool) (live : Finset InstId) (ps : List Nat) :
    ∀ (stk : List Nat) (a : AllocaSSA),
      (ps.foldl (livePred curr changed live) (stk, a)).2.instProvenance = a.instProvenance ∧
      ∀ c, (ps.foldl (livePred curr changed live) (stk, a)).2.liveSet c ⊆ a.liveSet c ∪ live := by
  induction ps with
  | nil => intro stk a; exact ⟨rfl, fun c => Finset.subset_union_left⟩
  | cons p rest ih =>
    intro stk a
    simp only [List.foldl_cons]
    obtain ⟨i1, i2⟩ :=
      ih (livePred curr changed live (stk, a) p).1 (livePred curr changed live (stk, a) p).2
    have hp : (livePred curr changed live (stk, a) p).2.instProvenance = a.instProvenance ∧
        ∀ c, (livePred curr changed live (stk, a) p).2.liveSet c ⊆ a.liveSet c ∪ live := by
      unfold livePred
      split
      · exact ⟨rfl, fun c => Finset.subset_union_left⟩
      · refine ⟨by simp [AllocaSSA.setSummary, instProvenance_request], ?_⟩
        intro c
        simp only [AllocaSSA.liveSet, summary_setSummary, summary_request]
        by_cases e : p = c
        · subst e; simp
        · simp only [e, if_false]; exact Finset.subset_union_left
    refine ⟨i1.trans hp.1, ?_⟩
    intro c
    refine (i2 c).trans ?_
    exact Finset.union_subset (hp.2 c) Finset.subset_union_right

/-- An iteration of the liveness loop leaves the provenance map alone, only lets
live sets grow, and only adds allocas of recorded provenance sets to them. -/
theorem liveStep_bounds (f : Func) (st : LiveState) (Q : InstId → Prop)
    (hprov : ∀ i v, mapFind st.ssa.instProvenance i = some v → ∀ y ∈ v.allocs, Q y) :
    (liveStep f st).ssa.instProvenance = st.ssa.instProvenance ∧
    (∀ c, st.ssa.liveSet c ⊆ (liveStep f st).ssa.liveSet c) ∧
    ((∀ c, ∀ y ∈ st.ssa.liveSet c, Q y) → ∀ c, ∀ y ∈ (liveStep f st).ssa.liveSet c, Q y) := by
  unfold liveStep
  cases hw : st.stack with
  | nil => exact ⟨rfl, fun c => Finset.Subset.refl _, fun h => h⟩
  | cons curr rest =>
    simp only
    generalize hr : forInsts curr (liveInst (st.ssa.requestBlockSummary curr)) 0
      (f.block curr).insts (decide (curr ∉ st.alreadyVisited),
        ((st.ssa.requestBlockSummary curr).summary curr).liveAllocas) = r
    have hmono : (st.ssa.liveSet curr) ⊆ r.2 := by
      rw [← hr]
      have := liveScan_mono (st.ssa.requestBlockSummary curr) curr (f.block curr).insts
        (decide (curr ∉ st.alreadyVisited))
        ((st.ssa.requestBlockSummary curr).summary curr).liveAllocas
      simpa [AllocaSSA.liveSet, summary_request] using this
    have hQ : (∀ y ∈ st.ssa.liveSet curr, Q y) → ∀ y ∈ r.2, Q y := by
      intro h0
      rw [← hr]
      apply forInsts_invariant curr (liveInst (st.ssa.requestBlockSummary curr))
        (fun _ s => ∀ y ∈ s.2, Q y) (f.block curr).insts 0
      · simpa [AllocaSSA.liveSet, summary_request] using h0
      · intro _ inst s' _ hP
        cases inst with
        | load ptr flag =>
          cases ptr with
          | other n => exact hP
          | inst p =>
            intro y hy
            simp only [liveInst] at hy
            rcases Finset.mem_union.mp hy with e | e
            · exact hP y e
            · rw [getProvenance_request] at e
              simp only [AllocaSSA.getProvenance] at e
              cases hm : mapFind st.ssa.instProvenance p with
              | none =>
                rw [hm] at e
                simp [AllocaSSA.emptyProvSingle, PtrProvenance.empty] at e
              | some w =>
                rw [hm] at e
                exact hprov p w hm y e
        | _ => exact hP
    generalize ha2 : (st.ssa.requestBlockSummary curr).setSummary curr
      { liveAllocas := r.2,
        allocJoin := ((st.ssa.requestBlockSummary curr).summary curr).allocJoin,
        lastDef := ((st.ssa.requestBlockSummary curr).summary curr).lastDef } = a2
    have hl2 : ∀ d, a2.liveSet d = if curr = d then r.2 else st.ssa.liveSet d := by
      intro d
      rw [← ha2]
      simp only [AllocaSSA.liveSet, summary_setSummary, summary_request]
      by_cases e : curr = d <;> simp [e]
    have hp2 : a2.instProvenance = st.ssa.instProvenance := by
      rw [← ha2]
      simp [AllocaSSA.setSummary, instProvenance_request]
    obtain ⟨u1, u2⟩ := livePred_upper curr r.1 r.2 (f.preds curr) rest a2
    refine ⟨u1.trans hp2, ?_, ?_⟩
    · intro c
      refine Finset.Subset.trans ?_
        (livePred_spec curr r.1 r.2 (f.preds curr) rest a2 c).1
      rw [hl2 c]
      split
      · rename_i e; subst e; exact hmono
      · exact Finset.Subset.refl _
    · intro h0 c y hy
      rcases Finset.mem_union.mp (u2 c hy) with e | e
      · rw [hl2 c] at e
        split at e
        · exact hQ (h0 curr) y e
        · exact h0 c y e
      · exact hQ (h0 curr) y e

/-- The liveness pass leaves the provenance map alone, only lets live sets grow,
and only adds allocas of recorded provenance sets to them. -/
theorem computeLiveness_bounds (f : Func) (region : Region) (fuel : Nat) (a0 a : AllocaSSA)
    (Q : InstId → Prop)
    (hprov : ∀ i v, mapFind a0.instProvenance i = some v → ∀ y ∈ v.allocs, Q y)
    (h : a0.computeLiveness f region fuel = some a) :
    a.instProvenance = a0.instProvenance ∧
    (∀ c, a0.liveSet c ⊆ a.liveSet c) ∧
    ((∀ c, ∀ y ∈ a0.liveSet c, Q y) → ∀ c, ∀ y ∈ a.liveSet c, Q y) := by
  unfold AllocaSSA.computeLiveness at h
  cases he : region.getEndingBlocks f [] with
  | none => rw [he] at h; cases h
  | some eb =>
    rw [he] at h
    simp only at h
    cases hl : liveLoop f fuel ⟨eb.reverse, ∅, a0⟩ with
    | none => rw [hl] at h; cases h
    | some st =>
      rw [hl] at h
      have ha : a = st.ssa := (Option.some.inj h).symm
      obtain ⟨k, hk, _⟩ := liveLoop_some f fuel _ st hl
      have key : ∀ n (s : LiveState),
          (∀ i v, mapFind s.ssa.instProvenance i = some v → ∀ y ∈ v.allocs, Q y) →
          ((liveStep f)^[n] s).ssa.instProvenance = s.ssa.instProvenance ∧
          (∀ c, s.ssa.liveSet c ⊆ ((liveStep f)^[n] s).ssa.liveSet c) ∧
          ((∀ c, ∀ y ∈ s.ssa.liveSet c, Q y) →
            ∀ c, ∀ y ∈ ((liveStep f)^[n] s).ssa.liveSet c, Q y) := by
        intro n
        induction n with
        | zero => intro s _; exact ⟨rfl, fun c => Finset.Subset.refl _, fun h => h⟩
        | succ m ih =>
          intro s hs
          obtain ⟨j1, j2, j3⟩ := ih s hs
          rw [Function.iterate_succ_apply']
          obtain ⟨b1, b2, b3⟩ := liveStep_bounds f ((liveStep f)^[m] s) Q (by rw [j1]; exact hs)
          exact ⟨b1.trans j1, fun c => (j2 c).trans (b2 c), fun h0 => b3 (j3 h0)⟩
      rw [ha, hk]
      exact key k ⟨eb.reverse, ∅, a0⟩ hprov

/-! ## Definition and join tracking: join sets hold live allocas only -/

/-- Every alloca that the predecessor loop puts into `joinSet` is live in the
current block. -/
theorem defJoin_live (f : Func) (a : AllocaSSA) (curr : Nat) :
    ∀ y ∈ (defJoin f a curr).2.allocs, a.isLive y curr = true := by
  unfold defJoin
  generalize f.preds curr = ps
  have key : ∀ (ps : List Nat) (st : Finset (InstId × Desc) × PtrProvenance),
      (∀ y ∈ st.2.allocs, a.isLive y curr = true) →
      ∀ y ∈ (ps.foldl (joinPred a curr) st).2.allocs, a.isLive y curr = true := by
    intro ps
    induction ps with
    | nil => intro st hs; exact hs
    | cons p rest ih =>
      intro st hs
      simp only [List.foldl_cons]
      apply ih
      intro y hy
      simp only [joinPred, Finset.mem_union, Finset.mem_image, Finset.mem_filter] at hy
      rcases hy with hy | ⟨e, ⟨⟨_, hl⟩, _⟩, rfl⟩
      · exact hs y hy
      · exact hl
  exact key ps _ (by intro y hy; simp [PtrProvenance.empty] at hy)

/-- The requests made while a block is processed leave the provenance map alone. -/
theorem requestPreds_instProvenance (f : Func) (b : Nat) (a : AllocaSSA) :
    (requestPreds f b a).instProvenance = a.instProvenance := by
  unfold requestPreds
  generalize f.preds b = ps
  have key : ∀ (ps : List Nat) (a' : AllocaSSA),
      (ps.foldl (fun a p => a.requestBlockSummary p) a').instProvenance = a'.instProvenance := by
    intro ps
    induction ps with
    | nil => intro a'; rfl
    | cons p rest ih => intro a'; simp only [List.foldl_cons, ih, instProvenance_request]
  rw [key, instProvenance_request]

/-- Processing a block in the definition pass leaves the provenance map alone. -/
theorem defBlock_instProvenance (f : Func) (allocVec : List InstId) (b : Nat) (a : AllocaSSA) :
    (defBlock f allocVec b a).2.2.instProvenance = a.instProvenance := by
  simp only [defBlock, AllocaSSA.setSummary]
  exact requestPreds_instProvenance f b a

/-- Processing a block in the definition pass keeps `JoinLive`. -/
theorem defBlock_joinLive (f : Func) (allocVec : List InstId) (b : Nat) (a : AllocaSSA)
    (h : JoinLive a) : JoinLive (defBlock f allocVec b a).2.2 := by
  intro c
  rw [defBlock_liveSet]
  by_cases hc : c = b
  · subst hc
    simp only [AllocaSSA.joinSet, defBlock, summary_setSummary, if_true]
    intro y hy
    rcases Finset.mem_union.mp (merge_allocs_subset _ _ hy) with e | e
    · rw [requestPreds_summary] at e
      exact h c e
    · have hl := defJoin_live f (requestPreds f c a) c y e
      have := (isLive_iff _ y c).mp hl
      simpa [AllocaSSA.liveSet, requestPreds_summary] using this
  · simp only [AllocaSSA.joinSet, defBlock_summary f allocVec b a c hc]
    exact h c

/-- The liveness pass keeps `JoinLive`. -/
theorem computeLiveness_joinLive (f : Func) (region : Region) (fuel : Nat) (a0 a : AllocaSSA)
    (h0 : JoinLive a0) (h : a0.computeLiveness f region fuel = some a) : JoinLive a := by
  have hmono := (computeLiveness_bounds f region fuel a0 a (fun _ => True)
    (fun _ _ _ _ _ => trivial) h).2.1
  intro c
  have hj : a.joinSet c = a0.joinSet c := by
    unfold AllocaSSA.computeLiveness at h
    cases he : region.getEndingBlocks f [] with
    | none => rw [he] at h; cases h
    | some eb =>
      rw [he] at h
      simp only at h
      cases hl : liveLoop f fuel ⟨eb.reverse, ∅, a0⟩ with
      | none => rw [hl] at h; cases h
      | some st =>
        rw [hl] at h
        have ha : a = st.ssa := (Option.some.inj h).symm
        obtain ⟨k, hk, _⟩ := liveLoop_some f fuel _ st hl
        have key : ∀ n (s : LiveState),
            (((liveStep f)^[n] s).ssa.summary c).allocJoin = (s.ssa.summary c).allocJoin := by
          intro n
          induction n with
          | zero => intro s; rfl
          | succ m ih =>
            intro s
            rw [Function.iterate_succ_apply', (liveStep_frame f _ c).1]
            exact ih s
        rw [ha, hk]
        exact key k _
  rw [hj]
  exact (h0 c).trans (hmono c)

/-- C14 (counterexample).  On `loopStore` with the loop region of its loop (header
`1`, latch `2`), where the alloca `x` is made in the function entry block, the
pre-header stores to `x`, the loop stores to `x` on the way to the back-edge and
the exit block loads `x`: `compute` returns, `x` is live neither in the header
nor in the latch, and the join set of the header does not contain `x`. -/
theorem loop_region_outside_alloca_not_tracked :
    ∃ a, AllocaSSA.new.compute loopStore loopStoreRegion 20 = some a ∧
      loopStore.instAt ⟨0, 0⟩ = some Inst.alloca ∧
      a.isLive ⟨0, 0⟩ 1 = false ∧ a.isLive ⟨0, 0⟩ 2 = false ∧
      (⟨0, 0⟩ : InstId) ∉ (a.joinSet 1).allocs :=
  ⟨_, rfl, by decide⟩

/-- C14 (amended).  The analysis tracks only what the provenance pass reaches from
the region entry (for a loop region, the loop header).  After `compute` on a
fresh analysis object, an instruction `x` of a block that cannot be reached from
the region entry, such as an alloca made before the loop, has no provenance
record, is in the allocation set of no record, is live in no block and is in no
block's join set, whatever stores and loads the region contains. -/
theorem unreached_alloca_untracked (f : Func) (region : Region) (fuel : Nat) (a : AllocaSSA)
    (h : AllocaSSA.new.compute f region fuel = some a)
    (x : InstId) (hx : ¬ f.Reachable region.getRegionEntry x.block) :
    mapFind a.instProvenance x = none ∧
    (∀ i v, mapFind a.instProvenance i = some v → x ∉ v.allocs) ∧
    (∀ b, a.isLive x b = false ∧ x ∉ (a.joinSet b).allocs) := by
  obtain ⟨a1, a2, h1, h2, h3⟩ := compute_stages f region fuel AllocaSSA.new a h
  have w1 := computePointerProvenance_within f _ fuel a1 h1
  have fr1 := computePointerProvenance_frame f _ fuel AllocaSSA.new a1 h1
  have hq1 : ∀ i v, mapFind a1.instProvenance i = some v →
      ∀ y ∈ v.allocs, f.Reachable region.getRegionEntry y.block :=
    fun i v hv => (w1 i v hv).2
  obtain ⟨p2, _, l2⟩ := computeLiveness_bounds f region fuel a1 a2
    (fun y => f.Reachable region.getRegionEntry y.block) hq1 h2
  have live1 : ∀ c, ∀ y ∈ a1.liveSet c, f.Reachable region.getRegionEntry y.block := by
    intro c y hy
    simp [AllocaSSA.liveSet, AllocaSSA.summary, fr1.1, AllocaSSA.new, mapFind,
      BlockSummary.new] at hy
  have live2 := l2 live1
  have jl1 : JoinLive a1 := by
    intro c
    simp [AllocaSSA.joinSet, AllocaSSA.summary, fr1.1, AllocaSSA.new, mapFind,
      BlockSummary.new, PtrProvenance.empty]
  have jl2 := computeLiveness_joinLive f region fuel a1 a2 jl1 h2
  have fin := computeDefs_induction f region fuel
    (fun s => s.instProvenance = a2.instProvenance ∧ (∀ c, s.liveSet c = a2.liveSet c) ∧
      JoinLive s)
    (by
      intro av b s hs
      refine ⟨?_, ?_, defBlock_joinLive f av b s hs.2.2⟩
      · rw [defBlock_instProvenance]; exact hs.1
      · intro c; rw [defBlock_liveSet]; exact hs.2.1 c)
    a2 a ⟨rfl, fun _ => rfl, jl2⟩ h3
  obtain ⟨f1, f2, f3⟩ := fin
  have hnl : ∀ b, x ∉ a.liveSet b := by
    intro b hb
    rw [f2 b] at hb
    exact hx (live2 b x hb)
  refine ⟨?_, ?_, ?_⟩
  · rw [f1, p2]
    cases hm : mapFind a1.instProvenance x with
    | none => rfl
    | some v => exact absurd (w1 x v hm).1 hx
  · intro i v hv hin
    rw [f1, p2] at hv
    exact hx ((w1 i v hv).2 x hin)
  · intro b
    refine ⟨?_, fun hj => hnl b (f3 b hj)⟩
    cases hl : a.isLive x b with
    | false => rfl
    | true => exact absurd ((isLive_iff a x b).mp hl) (hnl b)

/-- A set of blocks that is closed under CFG successors holds every block
reachable from one of its members. -/
theorem reachable_mem_of_closed (f : Func) (S : List Nat)
    (hclosed : ∀ u ∈ S, ∀ v ∈ f.succs u, v ∈ S) (a b : Nat) (ha : a ∈ S)
    (hr : f.Reachable a b) : b ∈ S := by
  induction hr with
  | refl => exact ha
  | tail _ hstep ih => exact hclosed _ ih _ hstep

/-- Witness for C14: the alloca of `loopStore`, made in the function entry block,
which cannot be reached from the loop header. -/
theorem unreached_alloca_untracked_witness :
    ∃ a, AllocaSSA.new.compute loopStore loopStoreRegion 20 = some a ∧
      ¬ loopStore.Reachable loopStoreRegion.getRegionEntry 0 ∧
      a.isLive ⟨0, 0⟩ 3 = false := by
  have hnr : ¬ loopStore.Reachable loopStoreRegion.getRegionEntry 0 := by
    intro hr
    have := reachable_mem_of_closed loopStore [1, 2, 3] (by decide) 1 0 (by decide) hr
    exact absurd this (by decide)
  exact ⟨_, rfl, hnr,
    ((unreached_alloca_untracked loopStore loopStoreRegion 20 _ rfl ⟨0, 0⟩ hnr).2.2 3).1⟩

/-! ## Ending blocks with a populated output set -/

/-- C21 (the code at the failing input).  Called with the output set `{7}`, the
function region of the diamond and the loop region of `loopStore` return
normally, with their ending block `3` added to the set; only the default
implementation (here on the diamond) fails its assertion. -/
theorem getEndingBlocks_accepts_populated_set :
    (functionRegion 4).getEndingBlocks diamond [7] = some [7, 3] ∧
      loopStoreRegion.getEndingBlocks loopStore [7] = some [7, 3] ∧
      (Region.mk (.Base 0 [0, 1, 2, 3]) []).getEndingBlocks diamond [7] = none := by
  decide

/-! ## Written pointers: theorems -/

/-- C22 (the code at the failing input).  For the call `f(%n, %x)` of a known callee
`f(i32 %n, ptr %p)` whose pointer parameter is writable, the call not being
read-only, `GetWrittenPointers` reports no written pointer and returns `false`:
the pointer argument `%x` is checked against parameter index `0`. -/
theorem known_callee_misses_written_pointer :
    GetWrittenPointers
      (.call (some [⟨false, false⟩, ⟨true, false⟩]) false
        [⟨.other 0, false⟩, ⟨.inst ⟨0, 0⟩, true⟩] false) = (false, []) := by
  decide

/-- With no unwritten index every pointer argument is recorded, in order. -/
theorem writtenArgs_empty (args : List CallArg) :
    ∀ (i : Nat) (writtenPtrs : List Value),
      writtenArgs ∅ args (i, writtenPtrs) =
        (i + (args.filter (fun c => c.isPointerTy)).length,
          writtenPtrs ++ (args.filter (fun c => c.isPointerTy)).map (fun c => c.val)) := by
  induction args with
  | nil => intro i w; simp [writtenArgs]
  | cons c rest ih =>
    intro i w
    unfold writtenArgs
    cases hc : c.isPointerTy with
    | false => simp [hc, ih]
    | true =>
      simp only [hc, Bool.not_true, Bool.false_eq_true, if_false, Finset.not_mem_empty, ih,
        List.filter_cons_of_pos, List.length_cons, List.map_cons, List.append_assoc,
        List.singleton_append]
      refine Prod.ext ?_ rfl
      simp only
      omega

/-- C26.  For a call that is not read-only and whose callee is unknown,
`GetWrittenPointers` reports exactly the pointer-typed call arguments, in
argument order, and returns `true` exactly when there is a pointer-typed
argument; for a read-only call (whatever the callee) it reports no pointer and
returns `false`. -/
theorem unknown_callee_writes_all_pointers (args : List CallArg) (isPointerTy : Bool) :
    (GetWrittenPointers (.call none false args isPointerTy)).2 =
        (args.filter (fun c => c.isPointerTy)).map (fun c => c.val) ∧
    ((GetWrittenPointers (.call none false args isPointerTy)).1 = true ↔
        ∃ c ∈ args, c.isPointerTy = true) ∧
    (∀ callee, GetWrittenPointers (.call callee true args isPointerTy) = (false, [])) := by
  have e : (writtenArgs (GetUnwrittenArguments none) args (0, [])).2 =
      (args.filter (fun c => c.isPointerTy)).map (fun c => c.val) := by
    simp [GetUnwrittenArguments, writtenArgs_empty]
  refine ⟨?_, ?_, ?_⟩
  · simp only [GetWrittenPointers, Bool.false_eq_true, if_false, e]
  · simp only [GetWrittenPointers, Bool.false_eq_true, if_false, e]
    simp [List.isEmpty_iff, List.filter_eq_nil_iff]
  · intro callee
    simp [GetWrittenPointers]

/-! ## Effects: theorems -/

/-- Membership in a definition map after a bulk assignment. -/
theorem mem_defSetAll (m : Finset (InstId × Desc)) (keys : Finset InstId) (e : Desc)
    (x : InstId) (d : Desc) :
    (x, d) ∈ defSetAll m keys e ↔ ((x, d) ∈ m ∧ x ∉ keys) ∨ (x ∈ keys ∧ d = e) := by
  simp only [defSetAll, Finset.mem_union, Finset.mem_filter, Finset.mem_image, Prod.mk.injEq]
  constructor
  · rintro (h | ⟨y, hy, rfl, rfl⟩)
    · exact Or.inl h
    · exact Or.inr ⟨hy, rfl⟩
  · rintro (h | ⟨hx, rfl⟩)
    · exact Or.inl h
    · exact Or.inr ⟨x, hx, rfl, rfl⟩

/-- The allocas collected from a block are the alloca instructions of the block. -/
theorem mem_collectAllocas (b : Nat) (l : List Inst) :
    ∀ (k : Nat) (x : InstId),
      x ∈ collectAllocas b k l ↔
        x.block = b ∧ k ≤ x.idx ∧ l.get? (x.idx - k) = some Inst.alloca := by
  induction l with
  | nil => intro k x; simp [collectAllocas]
  | cons i rest ih =>
    intro k x
    unfold collectAllocas
    have hstep : ∀ (hk : k + 1 ≤ x.idx), (i :: rest).get? (x.idx - k) = rest.get? (x.idx - (k + 1)) := by
      intro hk
      have : x.idx - k = (x.idx - (k + 1)) + 1 := by omega
      rw [this, List.get?_cons_succ]
    obtain ⟨xb, xi⟩ := x
    simp only at hstep ⊢
    cases i <;> simp only [Inst.isAlloca, if_true, Bool.false_eq_true, if_false, List.mem_cons,
      ih, InstId.mk.injEq]
    · constructor
      · rintro (⟨rfl, rfl⟩ | ⟨h1, h2, h3⟩)
        · simp
        · exact ⟨h1, by omega, by rw [hstep h2]; exact h3⟩
      · rintro ⟨h1, h2, h3⟩
        by_cases e : xi = k
        · exact Or.inl ⟨h1, e⟩
        · have hk : k + 1 ≤ xi := by omega
          exact Or.inr ⟨h1, hk, by rw [← hstep hk]; exact h3⟩
    all_goals
      constructor
      · rintro ⟨h1, h2, h3⟩
        exact ⟨h1, by omega, by rw [hstep h2]; exact h3⟩
      · rintro ⟨h1, h2, h3⟩
        by_cases e : xi = k
        · subst e; simp at h3
        · have hk : k + 1 ≤ xi := by omega
          exact ⟨h1, hk, by rw [← hstep hk]; exact h3⟩

/-- The vector `allocVec` of `compute` holds the allocas of the region entry block. -/
theorem mem_allocVec (f : Func) (entry : Nat) (x : InstId) :
    x ∈ collectAllocas entry 0 (f.block entry).insts ↔
      x.block = entry ∧ f.instAt x = some Inst.alloca := by
  rw [mem_collectAllocas]
  obtain ⟨xb, xi⟩ := x
  simp only [Nat.zero_le, true_and, Nat.sub_zero, Func.instAt]
  constructor
  · rintro ⟨rfl, h⟩; exact ⟨rfl, h⟩
  · rintro ⟨rfl, h⟩; exact ⟨rfl, h⟩

/-- C24.  When the definition pass handles a writing instruction `W` (one for which
`GetWrittenPointers` reports a write), `W` has an `Effect` afterwards (the one it
had, or a new one, allocated then), and with `joinedProv` the join of the provenances of its
written instruction pointers: if `joinedProv` is `Wildcard`, every alloca of the
region entry block has exactly that `Effect` as its last definition and the
definitions of all other allocas are unchanged; otherwise exactly the allocas of
the set of `joinedProv` have that `Effect` as their last definition and the
definitions of all other allocas are unchanged. -/
theorem effect_assignment (f : Func) (region : Region) (a : AllocaSSA) (id : InstId)
    (W : Inst) (st : Bool × List (InstId × Desc) × Finset (InstId × Desc))
    (hw : (GetWrittenPointers W).1 = true) :
    ∃ memEffect,
      mapFind (defInst a (collectAllocas region.getRegionEntry 0
        (f.block region.getRegionEntry).insts) id W st).2.1 id = some memEffect ∧
      (mapFind st.2.1 id = none → memEffect = Desc.newEffect id st.2.1.length) ∧
      (∀ e, mapFind st.2.1 id = some e → memEffect = e) ∧
      ((joinWritten a (GetWrittenPointers W).2 PtrProvenance.empty).isTop = true →
        ∀ x d, (x, d) ∈ (defInst a (collectAllocas region.getRegionEntry 0
            (f.block region.getRegionEntry).insts) id W st).2.2 ↔
          if x.block = region.getRegionEntry ∧ f.instAt x = some Inst.alloca
          then d = memEffect else (x, d) ∈ st.2.2) ∧
      ((joinWritten a (GetWrittenPointers W).2 PtrProvenance.empty).isTop = false →
        ∀ x d, (x, d) ∈ (defInst a (collectAllocas region.getRegionEntry 0
            (f.block region.getRegionEntry).insts) id W st).2.2 ↔
          if x ∈ (joinWritten a (GetWrittenPointers W).2 PtrProvenance.empty).allocs
          then d = memEffect else (x, d) ∈ st.2.2) := by
  cases hm : mapFind st.2.1 id with
  | none =>
    refine ⟨Desc.newEffect id st.2.1.length, ?_, fun _ => rfl, fun e he => (by cases he), ?_, ?_⟩
    · unfold defInst
      simp only [hw, if_true, hm, Option.isNone_none]
      split <;> simp [mapFind_mapSet]
    · intro htop x d
      unfold defInst
      simp only [hw, if_true, hm, Option.isNone_none, htop, mapFind_mapSet, Option.getD_some,
        mem_defSetAll, List.mem_toFinset, mem_allocVec]
      split <;> simp_all
    · intro htop x d
      unfold defInst
      simp only [hw, if_true, hm, Option.isNone_none, htop, mapFind_mapSet, Option.getD_some,
        mem_defSetAll, Bool.false_eq_true, if_false]
      split <;> simp_all
  | some e0 =>
    refine ⟨e0, ?_, fun h => (by cases h), fun e he => Option.some.inj he, ?_, ?_⟩
    · unfold defInst
      simp only [hw, if_true, hm, Option.isNone_some, Bool.false_eq_true, if_false]
      split <;> simp [hm]
    · intro htop x d
      unfold defInst
      simp only [hw, if_true, hm, Option.isNone_some, Bool.false_eq_true, if_false, htop,
        Option.getD_some, mem_defSetAll, List.mem_toFinset, mem_allocVec]
      split <;> simp_all
    · intro htop x d
      unfold defInst
      simp only [hw, if_true, hm, Option.isNone_some, Bool.false_eq_true, if_false, htop,
        Option.getD_some, mem_defSetAll]
      split <;> simp_all

/-- Requesting a summary leaves the effect map alone. -/
theorem instEffects_request (a : AllocaSSA) (b : Nat) :
    (a.requestBlockSummary b).instEffects = a.instEffects := by
  unfold AllocaSSA.requestBlockSummary
  cases mapFind a.blockSummaries b <;> rfl

/-- The requests made while a block is processed leave the effect map alone. -/
theorem requestPreds_instEffects (f : Func) (b : Nat) (a : AllocaSSA) :
    (requestPreds f b a).instEffects = a.instEffects := by
  unfold requestPreds
  generalize f.preds b = ps
  have key : ∀ (ps : List Nat) (a' : AllocaSSA),
      (ps.foldl (fun a p => a.requestBlockSummary p) a').instEffects = a'.instEffects := by
    intro ps
    induction ps with
    | nil => intro a'; rfl
    | cons p rest ih => intro a'; simp only [List.foldl_cons, ih, instEffects_request]
  rw [key, instEffects_request]

/-- The liveness pass leaves the effect map alone. -/
theorem computeLiveness_instEffects (f : Func) (region : Region) (fuel : Nat) (a0 a : AllocaSSA)
    (h : a0.computeLiveness f region fuel = some a) : a.instEffects = a0.instEffects := by
  have hpred : ∀ (curr : Nat) (changed : Bool) (live : Finset InstId) (ps : List Nat)
      (stk : List Nat) (s : AllocaSSA),
      (ps.foldl (livePred curr changed live) (stk, s)).2.instEffects = s.instEffects := by
    intro curr changed live ps
    induction ps with
    | nil => intro stk s; rfl
    | cons p rest ih =>
      intro stk s
      simp only [List.foldl_cons]
      rw [ih]
      unfold livePred
      split
      · rfl
      · simp [AllocaSSA.setSummary, instEffects_request]
  have hstep : ∀ st : LiveState, (liveStep f st).ssa.instEffects = st.ssa.instEffects := by
    intro st
    unfold liveStep
    cases hw : st.stack with
    | nil => rfl
    | cons curr rest =>
      simp only
      rw [hpred]
      simp [AllocaSSA.setSummary, instEffects_request]
  unfold AllocaSSA.computeLiveness at h
  cases he : region.getEndingBlocks f [] with
  | none => rw [he] at h; cases h
  | some eb =>
    rw [he] at h
    simp only at h
    cases hl : liveLoop f fuel ⟨eb.reverse, ∅, a0⟩ with
    | none => rw [hl] at h; cases h
    | some st =>
      rw [hl] at h
      have ha : a = st.ssa := (Option.some.inj h).symm
      obtain ⟨k, hk, _⟩ := liveLoop_some f fuel _ st hl
      have key : ∀ n (s : LiveState), ((liveStep f)^[n] s).ssa.instEffects = s.ssa.instEffects := by
        intro n
        induction n with
        | zero => intro s; rfl
        | succ m ih =>
          intro s
          rw [Function.iterate_succ_apply', hstep]
          exact ih s
      rw [ha, hk]
      exact key k _

/-- The effect map after the instruction scan body of the definition pass. -/
theorem defInst_instEffects (a : AllocaSSA) (allocVec : List InstId) (id : InstId)
    (inst : Inst) (st : Bool × List (InstId × Desc) × Finset (InstId × Desc)) :
    (defInst a allocVec id inst st).2.1 =
      if (GetWrittenPointers inst).1 = true ∧ mapFind st.2.1 id = none
      then mapSet st.2.1 id (Desc.newEffect id st.2.1.length) else st.2.1 := by
  simp only [defInst]
  by_cases hw : (GetWrittenPointers inst).1 = true
  · rw [if_pos hw]
    by_cases ht : (joinWritten a (GetWrittenPointers inst).2 PtrProvenance.empty).isTop = true
    · rw [if_pos ht]
      cases hm : mapFind st.2.1 id <;> simp [hw]
    · rw [if_neg ht]
      cases hm : mapFind st.2.1 id <;> simp [hw]
  · rw [if_neg hw, if_neg (fun h => hw h.1)]

/-- Adding an entry for a key the map does not hold makes the map one longer. -/
theorem length_mapSet_none {κ ν : Type} [DecidableEq κ] (m : List (κ × ν)) (k : κ) (v : ν)
    (h : mapFind m k = none) : (mapSet m k v).length = m.length + 1 := by
  induction m with
  | nil => rfl
  | cons x rest ih =>
    obtain ⟨k1, v1⟩ := x
    simp only [mapFind] at h
    by_cases hk : k1 = k
    · rw [if_pos hk] at h; cases h
    · rw [if_neg hk] at h
      simp only [mapSet, if_neg hk, List.length_cons, ih h]

/-- Allocating an `Effect` for a writing instruction that has none keeps the effect
map as `compute` builds it. -/
theorem effInv_alloc (f : Func) (l : List (InstId × Desc)) (id : InstId) (inst : Inst)
    (hinst : f.instAt id = some inst) (hw : (GetWrittenPointers inst).1 = true)
    (hm : mapFind l id = none) (h : EffInv f l) :
    EffInv f (mapSet l id (Desc.newEffect id l.length)) := by
  obtain ⟨h1, h2⟩ := h
  have hlen := length_mapSet_none l id (Desc.newEffect id l.length) hm
  constructor
  · intro i e he
    rw [mapFind_mapSet] at he
    split at he
    · rename_i e1
      subst e1
      refine ⟨⟨l.length, (Option.some.inj he).symm, ?_⟩, inst, hinst, hw⟩
      rw [hlen]; exact Nat.lt_succ_self _
    · obtain ⟨⟨addr, e1, e2⟩, e3⟩ := h1 i e he
      exact ⟨⟨addr, e1, by rw [hlen]; exact Nat.lt_succ_of_lt e2⟩, e3⟩
  · intro i j p q p2 q2 addr hi hj
    rw [mapFind_mapSet] at hi hj
    by_cases ei : id = i <;> by_cases ej : id = j
    · rw [← ei, ← ej]
    · rw [if_pos ei] at hi
      rw [if_neg ej] at hj
      obtain ⟨⟨ad, e1, e2⟩, _⟩ := h1 j _ hj
      have := Option.some.inj hi
      simp only [Desc.newEffect, Desc.Effect.injEq] at this e1
      omega
    · rw [if_neg ei] at hi
      rw [if_pos ej] at hj
      obtain ⟨⟨ad, e1, e2⟩, _⟩ := h1 i _ hi
      have := Option.some.inj hj
      simp only [Desc.newEffect, Desc.Effect.injEq] at this e1
      omega
    · rw [if_neg ei] at hi
      rw [if_neg ej] at hj
      exact h2 i j p q p2 q2 addr hi hj

/-- The instruction scan body of the definition pass keeps the effect map as
`compute` builds it and keeps every effect it holds. -/
theorem defInst_effects (f : Func) (a : AllocaSSA) (allocVec : List InstId) (id : InstId)
    (inst : Inst) (st : Bool × List (InstId × Desc) × Finset (InstId × Desc))
    (hinst : f.instAt id = some inst) :
    (EffInv f st.2.1 → EffInv f (defInst a allocVec id inst st).2.1) ∧
    (∀ i e, mapFind st.2.1 i = some e →
      mapFind (defInst a allocVec id inst st).2.1 i = some e) := by
  rw [defInst_instEffects]
  by_cases hc : (GetWrittenPointers inst).1 = true ∧ mapFind st.2.1 id = none
  · rw [if_pos hc]
    obtain ⟨hw, hm⟩ := hc
    constructor
    · exact effInv_alloc f st.2.1 id inst hinst hw hm
    · intro i e he
      rw [mapFind_mapSet]
      split
      · rename_i e1
        subst e1
        rw [hm] at he; cases he
      · exact he
  · rw [if_neg hc]
    exact ⟨fun h => h, fun _ _ h => h⟩

/-- An instruction that has an `Effect` gets no new one: the scan body leaves the
effect map as it is. -/
theorem defInst_reuse (a : AllocaSSA) (allocVec : List InstId) (id : InstId)
    (inst : Inst) (st : Bool × List (InstId × Desc) × Finset (InstId × Desc)) (e : Desc)
    (he : mapFind st.2.1 id = some e) :
    (defInst a allocVec id inst st).2.1 = st.2.1 := by
  rw [defInst_instEffects, if_neg]
  rintro ⟨_, hn⟩
  rw [hn] at he; cases he

/-- The `Effect` allocated for a writing instruction that has none is a new object:
no instruction held it before. -/
theorem defInst_fresh (f : Func) (a : AllocaSSA) (allocVec : List InstId) (id : InstId)
    (inst : Inst) (st : Bool × List (InstId × Desc) × Finset (InstId × Desc))
    (h : EffInv f st.2.1) (hw : (GetWrittenPointers inst).1 = true)
    (hm : mapFind st.2.1 id = none) :
    ∃ addr, mapFind (defInst a allocVec id inst st).2.1 id
        = some (Desc.Effect id.block id addr) ∧
      ∀ j p q, mapFind st.2.1 j ≠ some (Desc.Effect p q addr) := by
  refine ⟨st.2.1.length, ?_, ?_⟩
  · rw [defInst_instEffects, if_pos ⟨hw, hm⟩, mapFind_mapSet, if_pos rfl]
    rfl
  · intro j p q hj
    obtain ⟨⟨ad, e1, e2⟩, _⟩ := h.1 j _ hj
    simp only [Desc.Effect.injEq] at e1
    omega

/-- Processing a block in the definition pass keeps the effect map as `compute`
builds it and keeps every effect it holds. -/
theorem defBlock_effects (f : Func) (allocVec : List InstId) (b : Nat) (a : AllocaSSA) :
    (EffInv f a.instEffects → EffInv f (defBlock f allocVec b a).2.2.instEffects) ∧
    (∀ i e, mapFind a.instEffects i = some e →
      mapFind (defBlock f allocVec b a).2.2.instEffects i = some e) := by
  simp only [defBlock, AllocaSSA.setSummary]
  have key := forInsts_invariant b (defInst (requestPreds f b a) allocVec)
    (fun _ s => (EffInv f a.instEffects → EffInv f s.2.1) ∧
      (∀ i e, mapFind a.instEffects i = some e → mapFind s.2.1 i = some e))
    (f.block b).insts 0
    (((requestPreds f b a).summary b).allocJoin.merge (defJoin f (requestPreds f b a) b).2 |>.1,
      (requestPreds f b a).instEffects,
      defSetAll (defJoin f (requestPreds f b a) b).1 (defJoin f (requestPreds f b a) b).2.allocs
        (Desc.Join b))
    (by rw [requestPreds_instEffects]; exact ⟨fun h => h, fun _ _ h => h⟩)
    (by
      intro j inst s' hj hP
      have hinst : f.instAt ⟨b, 0 + j⟩ = some inst := by
        simpa [Func.instAt] using hj
      obtain ⟨d1, d2⟩ := defInst_effects f (requestPreds f b a) allocVec ⟨b, 0 + j⟩ inst s' hinst
      exact ⟨fun h => d1 (hP.1 h), fun i e he => d2 i e (hP.2 i e he)⟩)
  exact key

/-- C25.  For an analysis object whose effect map is as `compute` builds it (a fresh
object, or the result of an earlier `compute`), every visit of a block in the
definition pass, and `compute` as a whole, keep it so: an instruction has at
most one `Effect`, the map being keyed by the instruction, and no `Effect` object
is held for two instructions; an `Effect` that exists is still the same object
(same address) afterwards; the `inst` of the `Effect` of an instruction is that
instruction and its place is the parent block; and an `Effect` exists only for an
instruction for which `GetWrittenPointers` reports a write.  At the instruction
itself: when the instruction has an `Effect`, handling it allocates nothing and
leaves the map as it is; when a writing instruction has none, the `Effect`
allocated for it is an object that no instruction held before. -/
theorem effects_stable (f : Func) (region : Region) (fuel : Nat) (a0 a : AllocaSSA)
    (h0 : EffInv f a0.instEffects) (h : a0.compute f region fuel = some a) :
    EffInv f a.instEffects ∧
    (∀ i e, mapFind a0.instEffects i = some e → mapFind a.instEffects i = some e) ∧
    (∀ allocVec b (s : AllocaSSA), EffInv f s.instEffects →
      EffInv f (defBlock f allocVec b s).2.2.instEffects ∧
      ∀ i e, mapFind s.instEffects i = some e →
        mapFind (defBlock f allocVec b s).2.2.instEffects i = some e) ∧
    (∀ (s : AllocaSSA) allocVec id inst
        (st : Bool × List (InstId × Desc) × Finset (InstId × Desc)) e,
      mapFind st.2.1 id = some e →
        (defInst s allocVec id inst st).2.1 = st.2.1) ∧
    (∀ (s : AllocaSSA) allocVec id inst
        (st : Bool × List (InstId × Desc) × Finset (InstId × Desc)),
      EffInv f st.2.1 → (GetWrittenPointers inst).1 = true → mapFind st.2.1 id = none →
        ∃ addr, mapFind (defInst s allocVec id inst st).2.1 id
            = some (Desc.Effect id.block id addr) ∧
          ∀ j p q, mapFind st.2.1 j ≠ some (Desc.Effect p q addr)) := by
  obtain ⟨a1, a2, h1, h2, h3⟩ := compute_stages f region fuel a0 a h
  have e1 := (computePointerProvenance_frame f _ fuel a0 a1 h1).2
  have e2 := computeLiveness_instEffects f region fuel a1 a2 h2
  have fin := computeDefs_induction f region fuel
    (fun s => EffInv f s.instEffects ∧
      ∀ i e, mapFind a0.instEffects i = some e → mapFind s.instEffects i = some e)
    (by
      intro av b s hs
      obtain ⟨d1, d2⟩ := defBlock_effects f av b s
      exact ⟨d1 hs.1, fun i e he => d2 i e (hs.2 i e he)⟩)
    a2 a (by show EffInv f a2.instEffects ∧ _; rw [e2, e1]; exact ⟨h0, fun _ _ he => he⟩) h3
  refine ⟨fin.1, fin.2, ?_, ?_, ?_⟩
  · intro av b s hs
    obtain ⟨d1, d2⟩ := defBlock_effects f av b s
    exact ⟨d1 hs, d2⟩
  · intro s av id inst st e he
    exact defInst_reuse s av id inst st e he
  · intro s av id inst st hs hw hm
    exact defInst_fresh f s av id inst st hs hw hm

/-- The effect map of a fresh object is as `compute` builds it. -/
theorem effInv_new (f : Func) : EffInv f AllocaSSA.new.instEffects :=
  ⟨fun i e he => by simp [AllocaSSA.new, mapFind] at he,
    fun i j p q p2 q2 addr hi => by simp [AllocaSSA.new, mapFind] at hi⟩

/-- Witness for C25: `compute` run twice on the diamond with an initialising store,
the first time from a fresh object; the store of the `then` block holds the same
`Effect` object after both runs. -/
theorem effects_stable_witness :
    ∃ a1 a2, AllocaSSA.new.compute diamondStore (functionRegion 4) 20 = some a1 ∧
      a1.compute diamondStore (functionRegion 4) 20 = some a2 ∧
      mapFind a1.instEffects ⟨1, 0⟩ = some (Desc.Effect 1 ⟨1, 0⟩ 2) ∧
      mapFind a2.instEffects ⟨1, 0⟩ = some (Desc.Effect 1 ⟨1, 0⟩ 2) ∧
      EffInv diamondStore a2.instEffects :=
  ⟨_, _, rfl, rfl, by decide,
    (effects_stable diamondStore (functionRegion 4) 20 _ _
      (effects_stable diamondStore (functionRegion 4) 20 AllocaSSA.new _
        (effInv_new diamondStore) rfl).1 rfl).2.1 ⟨1, 0⟩ _ (by decide),
    (effects_stable diamondStore (functionRegion 4) 20 _ _
      (effects_stable diamondStore (functionRegion 4) 20 AllocaSSA.new _
        (effInv_new diamondStore) rfl).1 rfl).1⟩

/-! ## The default ending-block enumeration -/

/-- Membership after `setInsert`. -/
theorem mem_setInsert (l : List Nat) (b x : Nat) : x ∈ setInsert l b ↔ x ∈ l ∨ x = b := by
  unfold setInsert
  split
  · rename_i hb
    constructor
    · exact Or.inl
    · rintro (h | h)
      · exact h
      · subst h; exact hb
  · simp

/-- The successor loop of `RegionImpl::getEndingBlocks`. -/
theorem endingSuccs_spec (impl : RegionImpl) (ss : List Nat) :
    ∀ acc : EndingState,
      (ss.foldl (fun acc successor =>
          if impl.contains successor then
            { acc with blockStack := successor :: acc.blockStack }
          else { acc with endingBlocks := setInsert acc.endingBlocks successor }) acc).visitedBlocks
        = acc.visitedBlocks ∧
      (∀ s, s ∈ (ss.foldl (fun acc successor =>
          if impl.contains successor then
            { acc with blockStack := successor :: acc.blockStack }
          else { acc with endingBlocks := setInsert acc.endingBlocks successor }) acc).blockStack
        ↔ s ∈ acc.blockStack ∨ (s ∈ ss ∧ impl.contains s = true)) ∧
      (∀ s, s ∈ (ss.foldl (fun acc successor =>
          if impl.contains successor then
            { acc with blockStack := successor :: acc.blockStack }
          else { acc with endingBlocks := setInsert acc.endingBlocks successor }) acc).endingBlocks
        ↔ s ∈ acc.endingBlocks ∨ (s ∈ ss ∧ impl.contains s = false)) ∧
      (ss.foldl (fun acc successor =>
          if impl.contains successor then
            { acc with blockStack := successor :: acc.blockStack }
          else { acc with endingBlocks := setInsert acc.endingBlocks successor }) acc).blockStack.length
        ≤ acc.blockStack.length + ss.length := by
  induction ss with
  | nil => intro acc; simp
  | cons s0 rest ih =>
    intro acc
    simp only [List.foldl_cons]
    by_cases hc : impl.contains s0 = true
    · simp only [hc, if_true]
      obtain ⟨i1, i2, i3, i4⟩ := ih { acc with blockStack := s0 :: acc.blockStack }
      refine ⟨i1, ?_, ?_, ?_⟩
      · intro s
        rw [i2 s]
        simp only [List.mem_cons]
        constructor
        · rintro ((h | h) | h)
          · subst h; exact Or.inr ⟨Or.inl rfl, hc⟩
          · exact Or.inl h
          · exact Or.inr ⟨Or.inr h.1, h.2⟩
        · rintro (h | ⟨h | h, h2⟩)
          · exact Or.inl (Or.inr h)
          · exact Or.inl (Or.inl h)
          · exact Or.inr ⟨h, h2⟩
      · intro s
        rw [i3 s]
        simp only [List.mem_cons]
        constructor
        · rintro (h | h)
          · exact Or.inl h
          · exact Or.inr ⟨Or.inr h.1, h.2⟩
        · rintro (h | ⟨h | h, h2⟩)
          · exact Or.inl h
          · subst h; rw [hc] at h2; cases h2
          · exact Or.inr ⟨h, h2⟩
      · refine i4.trans ?_
        simp only [List.length_cons]
        omega
    · have hc2 : impl.contains s0 = false := by simpa using hc
      simp only [hc2, Bool.false_eq_true, if_false]
      obtain ⟨i1, i2, i3, i4⟩ :=
        ih { acc with endingBlocks := setInsert acc.endingBlocks s0 }
      refine ⟨i1, ?_, ?_, ?_⟩
      · intro s
        rw [i2 s]
        simp only [List.mem_cons]
        constructor
        · rintro (h | h)
          · exact Or.inl h
          · exact Or.inr ⟨Or.inr h.1, h.2⟩
        · rintro (h | ⟨h | h, h2⟩)
          · exact Or.inl h
          · subst h; rw [hc2] at h2; cases h2
          · exact Or.inr ⟨h, h2⟩
      · intro s
        rw [i3 s]
        simp only [List.mem_cons, mem_setInsert]
        constructor
        · rintro ((h | h) | h)
          · exact Or.inl h
          · subst h; exact Or.inr ⟨Or.inl rfl, hc2⟩
          · exact Or.inr ⟨Or.inr h.1, h.2⟩
        · rintro (h | ⟨h | h, h2⟩)
          · exact Or.inl (Or.inl h)
          · exact Or.inl (Or.inr h)
          · exact Or.inr ⟨h, h2⟩
      · refine i4.trans ?_
        simp only [List.length_cons]
        omega

/-- A block outside the block list has no successors. -/
theorem succs_out_of_range (f : Func) (b : Nat) (h : f.blocks.length ≤ b) : f.succs b = [] := by
  simp [Func.succs, Func.block, List.getElem?_eq_none h]

/-- The number of CFG edges is the sum of the out-degrees of the blocks. -/
theorem edgeCount_eq (f : Func) :
    f.edgeCount = Finset.sum (Finset.range f.blocks.length) (fun b => (f.succs b).length) := by
  have key : ∀ l : List BasicBlock,
      (l.map (fun b => b.succs.length)).sum =
        Finset.sum (Finset.range l.length) (fun i => (l.getD i ⟨[], []⟩).succs.length) := by
    intro l
    induction l with
    | nil => simp
    | cons b rest ih =>
      rw [List.map_cons, List.sum_cons, List.length_cons, Finset.sum_range_succ', ih]
      simp [Nat.add_comm]
  exact key f.blocks

/-- An iteration of the loop of `RegionImpl::getEndingBlocks` on a non-empty stack
reduces the work left. -/
theorem endingStep_decreases (f : Func) (impl : RegionImpl) (st : EndingState)
    (h : st.blockStack ≠ []) :
    endingMeasure f (endingStep f impl st) < endingMeasure f st := by
  unfold endingStep
  cases hw : st.blockStack with
  | nil => exact absurd hw h
  | cons block rest =>
    simp only
    by_cases hv : block ∈ st.visitedBlocks
    · simp only [hv, if_true, endingMeasure, hw, List.length_cons]
      omega
    · simp only [hv, if_false]
      obtain ⟨i1, _, _, i4⟩ := endingSuccs_spec impl (f.succs block)
        { st with blockStack := rest, visitedBlocks := block :: st.visitedBlocks }
      simp only [endingMeasure, hw, List.length_cons]
      rw [i1]
      simp only at i4 ⊢
      have hset : (Finset.range f.blocks.length).filter
            (fun b => b ∉ block :: st.visitedBlocks) =
          ((Finset.range f.blocks.length).filter (fun b => b ∉ st.visitedBlocks)).erase block := by
        ext b
        simp only [Finset.mem_filter, Finset.mem_range, List.mem_cons, not_or, Finset.mem_erase]
        tauto
      rw [hset]
      have hsum : Finset.sum
            (((Finset.range f.blocks.length).filter (fun b => b ∉ st.visitedBlocks)).erase block)
            (fun b => (f.succs b).length) + (f.succs block).length =
          Finset.sum ((Finset.range f.blocks.length).filter (fun b => b ∉ st.visitedBlocks))
            (fun b => (f.succs b).length) := by
        by_cases hin : block ∈ (Finset.range f.blocks.length).filter
            (fun b => b ∉ st.visitedBlocks)
        · exact Finset.sum_erase_add _ _ hin
        · rw [Finset.erase_eq_of_not_mem hin]
          have : f.blocks.length ≤ block := by
            by_contra hlt
            apply hin
            simp only [Finset.mem_filter, Finset.mem_range]
            exact ⟨by omega, hv⟩
          rw [succs_out_of_range f block this]
          simp
      omega

/-- An iteration of the loop of `RegionImpl::getEndingBlocks` keeps the invariant. -/
theorem endingStep_inv (f : Func) (impl : RegionImpl) (st : EndingState)
    (h : EndingInv f impl st) : EndingInv f impl (endingStep f impl st) := by
  unfold endingStep
  cases hw : st.blockStack with
  | nil => simp only; exact h
  | cons block rest =>
    obtain ⟨e1, e2, e3, e4, e5⟩ := h
    rw [hw] at e1 e4 e5
    simp only
    by_cases hv : block ∈ st.visitedBlocks
    · simp only [hv, if_true]
      refine ⟨fun b hb => e1 b (List.mem_cons_of_mem _ hb), e2, e3, ?_, ?_⟩
      · intro b hb s hs
        refine ⟨fun hc => ?_, (e4 b hb s hs).2⟩
        rcases (e4 b hb s hs).1 hc with q | q
        · exact Or.inl q
        · rcases List.mem_cons.mp q with q | q
          · subst q; exact Or.inl hv
          · exact Or.inr q
      · rcases e5 with q | q
        · exact Or.inl q
        · rcases List.mem_cons.mp q with q | q
          · rw [q]; exact Or.inl hv
          · exact Or.inr q
    · simp only [hv, if_false]
      obtain ⟨i1, i2, i3, _⟩ := endingSuccs_spec impl (f.succs block)
        { st with blockStack := rest, visitedBlocks := block :: st.visitedBlocks }
      simp only at i1 i2 i3
      have hblock : impl.ReachInside f block := e1 block (List.mem_cons_self _ _)
      refine ⟨?_, ?_, ?_, ?_, ?_⟩
      · intro b hb
        rcases (i2 b).mp hb with q | ⟨q1, q2⟩
        · exact e1 b (List.mem_cons_of_mem _ q)
        · exact Relation.ReflTransGen.tail hblock ⟨q1, q2⟩
      · intro b hb
        rw [i1] at hb
        rcases List.mem_cons.mp hb with q | q
        · rw [q]; exact hblock
        · exact e2 b q
      · intro S hS
        rw [i1]
        rcases (i3 S).mp hS with q | ⟨q1, q2⟩
        · obtain ⟨c1, b, hb, hs⟩ := e3 S q
          exact ⟨c1, b, List.mem_cons_of_mem _ hb, hs⟩
        · exact ⟨q2, block, List.mem_cons_self _ _, q1⟩
      · intro b hb s hs
        rw [i1] at hb ⊢
        rcases List.mem_cons.mp hb with q | q
        · subst q
          refine ⟨fun hc => Or.inr ((i2 s).mpr (Or.inr ⟨hs, hc⟩)),
            fun hc => (i3 s).mpr (Or.inr ⟨hs, hc⟩)⟩
        · refine ⟨fun hc => ?_, fun hc => (i3 s).mpr (Or.inl ((e4 b q s hs).2 hc))⟩
          rcases (e4 b q s hs).1 hc with r | r
          · exact Or.inl (List.mem_cons_of_mem _ r)
          · rcases List.mem_cons.mp r with r | r
            · rw [r]; exact Or.inl (List.mem_cons_self _ _)
            · exact Or.inr ((i2 s).mpr (Or.inl r))
      · rw [i1]
        rcases e5 with q | q
        · exact Or.inl (List.mem_cons_of_mem _ q)
        · rcases List.mem_cons.mp q with q | q
          · rw [q]; exact Or.inl (List.mem_cons_self _ _)
          · exact Or.inr ((i2 _).mpr (Or.inl q))

/-- With fuel for the work left, the loop of `RegionImpl::getEndingBlocks` ends,
with an empty stack and the invariant. -/
theorem endingLoop_terminates (f : Func) (impl : RegionImpl) :
    ∀ (n : Nat) (st : EndingState), endingMeasure f st ≤ n → EndingInv f impl st →
      ∃ st', endingLoop f impl n st = some st' ∧ st'.blockStack = [] ∧
        EndingInv f impl st' := by
  intro n
  induction n with
  | zero =>
    intro st hm hinv
    have : st.blockStack = [] := by
      have : st.blockStack.length = 0 := by
        unfold endingMeasure at hm
        omega
      exact List.length_eq_zero.mp this
    exact ⟨st, by simp [endingLoop, this], this, hinv⟩
  | succ m ih =>
    intro st hm hinv
    by_cases he : st.blockStack = []
    · exact ⟨st, by simp [endingLoop, he], he, hinv⟩
    · have hd := endingStep_decreases f impl st he
      obtain ⟨st', h1, h2, h3⟩ := ih (endingStep f impl st) (by omega) (endingStep_inv f impl st hinv)
      exact ⟨st', by simp [endingLoop, he, h1], h2, h3⟩

/-- The default `getEndingBlocks`, called with an empty set, runs its loop to the
end within its bound, and the invariant holds for the final state. -/
theorem endingLoop_default_runs (f : Func) (entry : Nat) (blocks : List Nat) :
    ∃ st, endingLoop f (RegionImpl.Base entry blocks) (2 * f.edgeCount + 2)
        ⟨[entry], [], []⟩ = some st ∧
      st.blockStack = [] ∧ EndingInv f (RegionImpl.Base entry blocks) st := by
  have hinit : EndingInv f (RegionImpl.Base entry blocks) ⟨[entry], [], []⟩ := by
    refine ⟨?_, ?_, ?_, ?_, ?_⟩
    · intro b hb
      rw [List.mem_singleton.mp hb]
      exact Relation.ReflTransGen.refl
    · intro b hb; cases hb
    · intro b hb; cases hb
    · intro b hb; cases hb
    · exact Or.inr (List.mem_singleton.mpr rfl)
  have hmeas : endingMeasure f ⟨[entry], [], []⟩ ≤ 2 * f.edgeCount + 2 := by
    simp only [endingMeasure, List.length_singleton, List.not_mem_nil, not_false_eq_true,
      Finset.filter_True]
    rw [edgeCount_eq]
    omega
  exact endingLoop_terminates f (RegionImpl.Base entry blocks) _ _ hmeas hinit

/-- Called with an empty set, `getEndingBlocks` returns for every region. -/
theorem getEndingBlocks_nil_some (f : Func) (region : Region) :
    ∃ eb, region.getEndingBlocks f [] = some eb := by
  obtain ⟨impl, extra⟩ := region
  cases impl with
  | FunctionRegion Blocks => exact ⟨_, rfl⟩
  | LoopRegion loop => exact ⟨_, rfl⟩
  | Base entry blocks =>
    obtain ⟨st, h1, _, _⟩ := endingLoop_default_runs f entry blocks
    exact ⟨st.endingBlocks, by simp [Region.getEndingBlocks, RegionImpl.getEndingBlocks, h1]⟩

/-- C30.  On every function and for every entry block and block set, the default
`getEndingBlocks`, called with an empty set, returns, and the blocks it returns
are exactly the blocks outside the region that are a CFG successor of a block
reachable from the region entry along successor edges whose targets lie in the
region. -/
theorem default_ending_blocks_exact (f : Func) (entry : Nat) (blocks : List Nat) :
    ∃ eb, (RegionImpl.Base entry blocks).getEndingBlocks f [] = some eb ∧
      ∀ S, S ∈ eb ↔ ((RegionImpl.Base entry blocks).contains S = false ∧
        ∃ b, (RegionImpl.Base entry blocks).ReachInside f b ∧ S ∈ f.succs b) := by
  obtain ⟨st, h1, h2, e1, e2, e3, e4, e5⟩ := endingLoop_default_runs f entry blocks
  refine ⟨st.endingBlocks, by simp [RegionImpl.getEndingBlocks, h1], ?_⟩
  rw [h2] at e4 e5
  have hclosed : ∀ b, (RegionImpl.Base entry blocks).ReachInside f b → b ∈ st.visitedBlocks := by
    intro b hb
    induction hb with
    | refl =>
      rcases e5 with q | q
      · exact q
      · cases q
    | tail _ hstep ih =>
      rcases (e4 _ ih _ hstep.1).1 hstep.2 with q | q
      · exact q
      · cases q
  intro S
  constructor
  · intro hS
    obtain ⟨c1, b, hb, hs⟩ := e3 S hS
    exact ⟨c1, b, e2 b hb, hs⟩
  · rintro ⟨c1, b, hb, hs⟩
    exact (e4 b (hclosed b hb) S hs).2 c1

/-! ## Liveness: the exact effect of one iteration -/

/-- The predecessors of a block are the blocks of the function with an edge to it. -/
theorem mem_preds (f : Func) (b p : Nat) :
    p ∈ f.preds b ↔ p < f.blocks.length ∧ b ∈ f.succs p := by
  unfold Func.preds
  simp only [List.mem_flatMap, List.mem_range, List.mem_map, List.mem_filter,
    decide_eq_true_eq]
  constructor
  · rintro ⟨q, hq, s, ⟨hs, e⟩, rfl⟩
    exact ⟨hq, e ▸ hs⟩
  · rintro ⟨hq, hs⟩
    exact ⟨p, hq, b, ⟨hs, rfl⟩, rfl⟩

/-- The allocas of the recorded provenance of an instruction. -/
theorem mem_getProvenance_allocs (a : AllocaSSA) (p x : InstId) :
    x ∈ (a.getProvenance (.inst p)).allocs ↔
      ∃ v, mapFind a.instProvenance p = some v ∧ x ∈ v.allocs := by
  cases h : mapFind a.instProvenance p <;>
    simp [AllocaSSA.getProvenance, h, AllocaSSA.emptyProvSingle, PtrProvenance.empty]

/-- The body of the instruction scan of `computeLiveness` adds a set of allocas
that is empty unless the instruction is a load through an instruction. -/
theorem liveInst_eq (a : AllocaSSA) (id : InstId) (i : Inst) (c : Bool)
    (live : Finset InstId) :
    ∃ A : Finset InstId,
      liveInst a id i (c, live) = (c || decide (¬ A ⊆ live), live ∪ A) ∧
      ∀ x, x ∈ A ↔ ∃ p flag, i = Inst.load (Value.inst p) flag ∧
        x ∈ (a.getProvenance (.inst p)).allocs := by
  cases i with
  | load ptr flag =>
    cases ptr with
    | inst p =>
      refine ⟨(a.getProvenance (.inst p)).allocs, rfl, ?_⟩
      intro x
      constructor
      · intro hx; exact ⟨p, flag, rfl, hx⟩
      · rintro ⟨p', flag', e, hx⟩
        cases e
        exact hx
    | other n =>
      refine ⟨∅, by simp [liveInst], ?_⟩
      intro x
      constructor
      · intro hx; simp at hx
      · rintro ⟨p', flag', e, hx⟩; cases e
  | alloca => exact ⟨∅, by simp [liveInst], fun x => ⟨fun hx => by simp at hx,
      fun ⟨_, _, e, _⟩ => by cases e⟩⟩
  | store v p => exact ⟨∅, by simp [liveInst], fun x => ⟨fun hx => by simp at hx,
      fun ⟨_, _, e, _⟩ => by cases e⟩⟩
  | memTransfer d s => exact ⟨∅, by simp [liveInst], fun x => ⟨fun hx => by simp at hx,
      fun ⟨_, _, e, _⟩ => by cases e⟩⟩
  | call c1 c2 c3 c4 => exact ⟨∅, by simp [liveInst], fun x => ⟨fun hx => by simp at hx,
      fun ⟨_, _, e, _⟩ => by cases e⟩⟩
  | other o1 o2 => exact ⟨∅, by simp [liveInst], fun x => ⟨fun hx => by simp at hx,
      fun ⟨_, _, e, _⟩ => by cases e⟩⟩

/-- The instruction scan of `computeLiveness`: the live set gains exactly the
allocas of the provenance sets of the loads through instructions, and the flag
is raised exactly when the live set grows. -/
theorem liveScan_spec (a : AllocaSSA) (b : Nat) (l : List Inst) :
    ∀ (k : Nat) (c : Bool) (live : Finset InstId),
      (∀ x, x ∈ (forInsts b (liveInst a) k l (c, live)).2 ↔
        x ∈ live ∨ ∃ j p flag, l.get? j = some (Inst.load (Value.inst p) flag) ∧
          x ∈ (a.getProvenance (.inst p)).allocs) ∧
      ((forInsts b (liveInst a) k l (c, live)).1 = true ↔
        c = true ∨ ¬ (forInsts b (liveInst a) k l (c, live)).2 ⊆ live) := by
  induction l with
  | nil =>
    intro k c live
    simp [forInsts]
  | cons i rest ih =>
    intro k c live
    obtain ⟨A, hA, hmem⟩ := liveInst_eq a ⟨b, k⟩ i c live
    have e : forInsts b (liveInst a) k (i :: rest) (c, live) =
        forInsts b (liveInst a) (k + 1) rest (c || decide (¬ A ⊆ live), live ∪ A) := by
      simp only [forInsts, hA]
    rw [e]
    obtain ⟨i1, i2⟩ := ih (k + 1) (c || decide (¬ A ⊆ live)) (live ∪ A)
    have hm : ∀ x, x ∈ (forInsts b (liveInst a) (k + 1) rest
          (c || decide (¬ A ⊆ live), live ∪ A)).2 ↔
        x ∈ live ∨ ∃ j p flag, (i :: rest).get? j = some (Inst.load (Value.inst p) flag) ∧
          x ∈ (a.getProvenance (.inst p)).allocs := by
      intro x
      rw [i1 x]
      constructor
      · rintro (h | ⟨j, p, flag, hj, hx⟩)
        · rcases Finset.mem_union.mp h with h | h
          · exact Or.inl h
          · obtain ⟨p, flag, e1, hx⟩ := (hmem x).mp h
            exact Or.inr ⟨0, p, flag, by simp [e1], hx⟩
        · exact Or.inr ⟨j + 1, p, flag, by simpa using hj, hx⟩
      · rintro (h | ⟨j, p, flag, hj, hx⟩)
        · exact Or.inl (Finset.mem_union_left _ h)
        · cases j with
          | zero =>
            have e1 : i = Inst.load (Value.inst p) flag := by simpa using hj
            exact Or.inl (Finset.mem_union_right _ ((hmem x).mpr ⟨p, flag, e1, hx⟩))
          | succ j' => exact Or.inr ⟨j', p, flag, by simpa using hj, hx⟩
    refine ⟨hm, ?_⟩
    rw [i2]
    have hsub : live ∪ A ⊆ (forInsts b (liveInst a) (k + 1) rest
          (c || decide (¬ A ⊆ live), live ∪ A)).2 := by
      intro x hx
      exact (i1 x).mpr (Or.inl hx)
    constructor
    · rintro (h | h)
      · rcases Bool.or_eq_true _ _ ▸ h with h | h
        · exact Or.inl h
        · right
          intro hs
          have hn : ¬ A ⊆ live := by simpa using h
          exact hn (fun x hx => hs (hsub (Finset.mem_union_right _ hx)))
      · right
        intro hs
        exact h (hs.trans Finset.subset_union_left)
    · rintro (h | h)
      · left; simp [h]
      · by_cases hA2 : A ⊆ live
        · right
          intro hs
          apply h
          intro x hx
          rcases Finset.mem_union.mp (hs hx) with q | q
          · exact q
          · exact hA2 q
        · left; simp [hA2]

/-- The predecessor loop of `computeLiveness`: the blocks it pushes, in order, and
the live sets it leaves. -/
theorem livePred_fold (curr : Nat) (changed : Bool) (live : Finset InstId) (ps : List Nat) :
    ∀ (stk : List Nat) (a : AllocaSSA),
      ∃ pushed : List Nat,
        (ps.foldl (livePred curr changed live) (stk, a)).1 = pushed ++ stk ∧
        (∀ p, p ∈ pushed ↔
          p ∈ ps ∧ p ≠ curr ∧ (changed = true ∨ ¬ live ⊆ a.liveSet p)) ∧
        (changed = false → pushed.Nodup) ∧
        pushed.length ≤ ps.length ∧
        (∀ c, (ps.foldl (livePred curr changed live) (stk, a)).2.liveSet c =
          if c ∈ ps ∧ c ≠ curr then a.liveSet c ∪ live else a.liveSet c) ∧
        (ps.foldl (livePred curr changed live) (stk, a)).2.instProvenance =
          a.instProvenance := by
  induction ps with
  | nil => intro stk a; exact ⟨[], by simp⟩
  | cons p rest ih =>
    intro stk a
    simp only [List.foldl_cons]
    by_cases hp : p = curr
    · have e : livePred curr changed live (stk, a) p = (stk, a) := by simp [livePred, hp]
      rw [e]
      obtain ⟨pushed, h1, h2, h3, h4, h5, h6⟩ := ih stk a
      refine ⟨pushed, h1, ?_, h3, ?_, ?_, h6⟩
      · intro q
        rw [h2 q]
        simp only [List.mem_cons]
        constructor
        · rintro ⟨q1, q2, q3⟩; exact ⟨Or.inr q1, q2, q3⟩
        · rintro ⟨q1 | q1, q2, q3⟩
          · exact absurd (q1.trans hp) q2
          · exact ⟨q1, q2, q3⟩
      · simp only [List.length_cons]; omega
      · intro c
        rw [h5 c]
        by_cases hc : c = curr
        · simp [hc]
        · have : c ≠ p := fun e => hc (e.trans hp)
          simp [hc, this]
    · have hl : ∀ d, (livePred curr changed live (stk, a) p).2.liveSet d =
          if p = d then a.liveSet d ∪ live else a.liveSet d := by
        intro d
        simp only [livePred, hp, if_false, AllocaSSA.liveSet, summary_setSummary, summary_request]
        by_cases e : p = d
        · subst e; simp
        · simp [e]
      have hs : (livePred curr changed live (stk, a) p).1 =
          (if changed = true ∨ ¬ live ⊆ a.liveSet p then [p] else []) ++ stk := by
        simp only [livePred, hp, if_false, summary_request, AllocaSSA.liveSet]
        by_cases hc : changed = true ∨ ¬ live ⊆ (a.summary p).liveAllocas
        · rw [if_pos hc, if_pos (by simpa using hc)]
          rfl
        · rw [if_neg hc, if_neg (by simpa using hc)]
          rfl
      have hpv : (livePred curr changed live (stk, a) p).2.instProvenance =
          a.instProvenance := by
        simp [livePred, hp, AllocaSSA.setSummary, instProvenance_request]
      obtain ⟨pushed, h1, h2, h3, h4, h5, h6⟩ :=
        ih (livePred curr changed live (stk, a) p).1 (livePred curr changed live (stk, a) p).2
      refine ⟨pushed ++ (if changed = true ∨ ¬ live ⊆ a.liveSet p then [p] else []),
        ?_, ?_, ?_, ?_, ?_, h6.trans hpv⟩
      · rw [h1, hs, List.append_assoc]
      · intro q
        rw [List.mem_append, h2 q, hl q]
        by_cases hq : p = q
        · subst hq
          simp only [if_true, List.mem_cons, true_or, true_and]
          have hsub : live ⊆ a.liveSet p ∪ live := Finset.subset_union_right
          by_cases hc : changed = true ∨ ¬ live ⊆ a.liveSet p
          · simp only [if_pos hc, List.mem_singleton, or_true, true_iff]
            exact ⟨hp, hc⟩
          · simp only [if_neg hc, List.not_mem_nil, or_false]
            constructor
            · rintro ⟨_, _, q3⟩
              rcases q3 with q3 | q3
              · exact absurd (Or.inl q3) hc
              · exact absurd hsub q3
            · rintro ⟨_, q3⟩
              exact absurd q3 hc
        · have hq2 : q ≠ p := fun e => hq e.symm
          simp only [hq, if_false, List.mem_cons, hq2, false_or]
          constructor
          · rintro (h | h)
            · exact h
            · split at h
              · exact absurd (List.mem_singleton.mp h) hq2
              · cases h
          · intro h; exact Or.inl h
      · intro hc
        have hnd := h3 hc
        by_cases hg : changed = true ∨ ¬ live ⊆ a.liveSet p
        · rw [if_pos hg]
          refine List.Nodup.append hnd (List.nodup_singleton p) ?_
          intro x hx1 hx2
          rw [List.mem_singleton] at hx2
          subst hx2
          obtain ⟨_, _, q3⟩ := (h2 x).mp hx1
          rcases q3 with q3 | q3
          · rw [hc] at q3; cases q3
          · apply q3
            rw [hl x]
            simp [Finset.subset_union_right]
        · rw [if_neg hg]
          simpa using hnd
      · rw [List.length_append, List.length_cons]
        split
        · simp only [List.length_singleton]; omega
        · simp only [List.length_nil]; omega
      · intro c
        rw [h5 c, hl c]
        by_cases hc : c = curr
        · have : ¬ p = c := fun e => hp (e.trans hc)
          simp [hc, this, hp]
        · by_cases hcp : p = c
          · subst hcp
            simp only [List.mem_cons, true_or, hc, ne_eq, not_false_eq_true, and_self,
              and_true, if_true]
            split <;> simp [Finset.union_assoc]
          · have hcp2 : ¬ c = p := fun e => hcp e.symm
            simp [hc, hcp, hcp2]

/-- One iteration of the loop of `computeLiveness` on a stack with top `curr`:
the live set of `curr` gains the allocas of its loads, every predecessor other
than `curr` gains the live set of `curr`, and the predecessors pushed are those
for which `predChanged` holds. -/
theorem liveStep_spec (f : Func) (st : LiveState) (curr : Nat) (rest : List Nat)
    (hw : st.stack = curr :: rest) :
    ∃ (changed : Bool) (live : Finset InstId) (pushed : List Nat),
      (∀ x, x ∈ live ↔
        x ∈ st.ssa.liveSet curr ∨ LoadsThrough f st.ssa.instProvenance curr x) ∧
      (changed = true ↔ curr ∉ st.alreadyVisited ∨ ¬ live ⊆ st.ssa.liveSet curr) ∧
      (liveStep f st).stack = pushed ++ rest ∧
      (liveStep f st).alreadyVisited = insert curr st.alreadyVisited ∧
      (liveStep f st).ssa.instProvenance = st.ssa.instProvenance ∧
      (∀ c, (liveStep f st).ssa.liveSet c =
        if c = curr then live
        else if c ∈ f.preds curr then st.ssa.liveSet c ∪ live else st.ssa.liveSet c) ∧
      (∀ p, p ∈ pushed ↔
        p ∈ f.preds curr ∧ p ≠ curr ∧ (changed = true ∨ ¬ live ⊆ st.ssa.liveSet p)) ∧
      (changed = false → pushed.Nodup) ∧
      pushed.length ≤ (f.preds curr).length := by
  obtain ⟨r, hr⟩ : ∃ r, r = forInsts curr (liveInst (st.ssa.requestBlockSummary curr)) 0
      (f.block curr).insts (decide (curr ∉ st.alreadyVisited),
        ((st.ssa.requestBlockSummary curr).summary curr).liveAllocas) := ⟨_, rfl⟩
  obtain ⟨a2, ha2⟩ : ∃ a2, a2 = (st.ssa.requestBlockSummary curr).setSummary curr
      { liveAllocas := r.2,
        allocJoin := ((st.ssa.requestBlockSummary curr).summary curr).allocJoin,
        lastDef := ((st.ssa.requestBlockSummary curr).summary curr).lastDef } := ⟨_, rfl⟩
  have e : liveStep f st =
      ⟨((f.preds curr).foldl (livePred curr r.1 r.2) (rest, a2)).1,
        insert curr st.alreadyVisited,
        ((f.preds curr).foldl (livePred curr r.1 r.2) (rest, a2)).2⟩ := by
    simp only [liveStep, hw, hr, ha2]
  obtain ⟨s1, s2⟩ := liveScan_spec (st.ssa.requestBlockSummary curr) curr (f.block curr).insts 0
    (decide (curr ∉ st.alreadyVisited))
    ((st.ssa.requestBlockSummary curr).summary curr).liveAllocas
  rw [← hr] at s1 s2
  have hlive0 : ((st.ssa.requestBlockSummary curr).summary curr).liveAllocas =
      st.ssa.liveSet curr := by
    simp [AllocaSSA.liveSet, summary_request]
  rw [hlive0] at s1 s2
  have hl2 : ∀ d, a2.liveSet d = if curr = d then r.2 else st.ssa.liveSet d := by
    intro d
    rw [ha2]
    simp only [AllocaSSA.liveSet, summary_setSummary, summary_request]
    by_cases e : curr = d <;> simp [e]
  have hp2 : a2.instProvenance = st.ssa.instProvenance := by
    rw [ha2]
    simp [AllocaSSA.setSummary, instProvenance_request]
  obtain ⟨pushed, h1, h2, h3, h4, h5, h6⟩ :=
    livePred_fold curr r.1 r.2 (f.preds curr) rest a2
  refine ⟨r.1, r.2, pushed, ?_, ?_, ?_, ?_, ?_, ?_, ?_, h3, h4⟩
  · intro x
    rw [s1 x]
    constructor
    · rintro (h | ⟨j, p, flag, hj, hx⟩)
      · exact Or.inl h
      · rw [getProvenance_request] at hx
        obtain ⟨v, hv, hxv⟩ := (mem_getProvenance_allocs _ p x).mp hx
        exact Or.inr ⟨j, p, flag, v, hj, hv, hxv⟩
    · rintro (h | ⟨j, p, flag, v, hj, hv, hxv⟩)
      · exact Or.inl h
      · refine Or.inr ⟨j, p, flag, hj, ?_⟩
        rw [getProvenance_request]
        exact (mem_getProvenance_allocs _ p x).mpr ⟨v, hv, hxv⟩
  · rw [s2]
    simp
  · rw [e]; exact h1
  · rw [e]
  · rw [e]; exact h6.trans hp2
  · intro c
    rw [e]
    show ((f.preds curr).foldl (livePred curr r.1 r.2) (rest, a2)).2.liveSet c = _
    rw [h5 c, hl2 c]
    by_cases hc : c = curr
    · have : curr = c := hc.symm
      simp [hc]
    · have hc2 : ¬ curr = c := fun e => hc e.symm
      simp [hc, hc2]
  · intro p
    rw [h2 p]
    constructor
    · rintro ⟨q1, q2, q3⟩
      refine ⟨q1, q2, ?_⟩
      rw [hl2 p, if_neg (fun e => q2 e.symm)] at q3
      exact q3
    · rintro ⟨q1, q2, q3⟩
      refine ⟨q1, q2, ?_⟩
      rw [hl2 p, if_neg (fun e => q2 e.symm)]
      exact q3

/-! ## Liveness: soundness and completeness -/

/-- On an empty stack the iteration of the liveness loop does nothing. -/
theorem liveStep_nil (f : Func) (st : LiveState) (hw : st.stack = []) : liveStep f st = st := by
  simp [liveStep, hw]

/-- An iteration of the liveness loop keeps `LiveSound`. -/
theorem liveStep_sound (f : Func) (eb : List Nat) (st : LiveState) (h : LiveSound f eb st) :
    LiveSound f eb (liveStep f st) := by
  cases hw : st.stack with
  | nil => rw [liveStep_nil f st hw]; exact h
  | cons curr rest =>
    obtain ⟨changed, live, pushed, s1, s2, s3, s4, s5, s6, s7, _, _⟩ :=
      liveStep_spec f st curr rest hw
    obtain ⟨h1, h2⟩ := h
    have hcurr : ReachesEnding f eb curr := h1 curr (by rw [hw]; exact List.mem_cons_self _ _)
    have hlive : ∀ x, x ∈ live → ∃ S, f.Reachable curr S ∧ ReachesEnding f eb S ∧
        LoadsThrough f st.ssa.instProvenance S x := by
      intro x hx
      rcases (s1 x).mp hx with q | q
      · exact h2 curr x q
      · exact ⟨curr, Relation.ReflTransGen.refl, hcurr, q⟩
    constructor
    · intro c hc
      rw [s3] at hc
      rcases List.mem_append.mp hc with q | q
      · obtain ⟨q1, _, _⟩ := (s7 c).mp q
        obtain ⟨E, hE, hr⟩ := hcurr
        exact ⟨E, hE, Relation.ReflTransGen.head ((mem_preds f curr c).mp q1).2 hr⟩
      · exact h1 c (by rw [hw]; exact List.mem_cons_of_mem _ q)
    · intro c x hx
      rw [s5]
      rw [s6 c] at hx
      by_cases hc : c = curr
      · rw [if_pos hc] at hx
        rw [hc]
        exact hlive x hx
      · rw [if_neg hc] at hx
        by_cases hp : c ∈ f.preds curr
        · rw [if_pos hp] at hx
          rcases Finset.mem_union.mp hx with q | q
          · exact h2 c x q
          · obtain ⟨S, r1, r2, r3⟩ := hlive x q
            exact ⟨S, Relation.ReflTransGen.head ((mem_preds f curr c).mp hp).2 r1, r2, r3⟩
        · rw [if_neg hp] at hx
          exact h2 c x hx

/-- An iteration of the liveness loop keeps `LiveComplete`. -/
theorem liveStep_complete (f : Func) (eb : List Nat) (st : LiveState)
    (h : LiveComplete f eb st) : LiveComplete f eb (liveStep f st) := by
  cases hw : st.stack with
  | nil => rw [liveStep_nil f st hw]; exact h
  | cons curr rest =>
    obtain ⟨changed, live, pushed, s1, s2, s3, s4, s5, s6, s7, _, _⟩ :=
      liveStep_spec f st curr rest hw
    obtain ⟨h1, h2, h3⟩ := h
    rw [hw] at h1 h2
    have hmono : ∀ c, st.ssa.liveSet c ⊆ (liveStep f st).ssa.liveSet c := by
      intro c x hx
      rw [s6 c]
      by_cases hc : c = curr
      · rw [if_pos hc]
        exact (s1 x).mpr (Or.inl (hc ▸ hx))
      · rw [if_neg hc]
        split
        · exact Finset.mem_union_left _ hx
        · exact hx
    refine ⟨?_, ?_, ?_⟩
    · intro E hE
      rw [s3, s4]
      rcases h1 E hE with q | q
      · exact Or.inl (Finset.mem_insert_of_mem q)
      · rcases List.mem_cons.mp q with q | q
        · exact Or.inl (q ▸ Finset.mem_insert_self _ _)
        · exact Or.inr (List.mem_append_right _ q)
    · intro c hc p hp hne
      rw [s3, s4]
      rw [s4] at hc
      have hold : c ∈ st.alreadyVisited → p ∈ insert curr st.alreadyVisited ∨ p ∈ pushed ++ rest := by
        intro hv
        rcases h2 c hv p hp hne with q | q
        · exact Or.inl (Finset.mem_insert_of_mem q)
        · rcases List.mem_cons.mp q with q | q
          · exact Or.inl (q ▸ Finset.mem_insert_self _ _)
          · exact Or.inr (List.mem_append_right _ q)
      rcases Finset.mem_insert.mp hc with q | q
      · by_cases hv : curr ∈ st.alreadyVisited
        · exact hold (q ▸ hv)
        · subst q
          exact Or.inr (List.mem_append_left _
            ((s7 p).mpr ⟨hp, hne, Or.inl (s2.mpr (Or.inl hv))⟩))
      · exact hold q
    · intro c hc x hx
      rw [s5] at hx
      rw [s4] at hc
      by_cases hcc : c = curr
      · rw [s6 c, if_pos hcc]
        exact (s1 x).mpr (Or.inr (hcc ▸ hx))
      · rcases Finset.mem_insert.mp hc with q | q
        · exact absurd q hcc
        · exact hmono c (h3 c q x hx)

/-- Every state reached by the liveness loop keeps the three invariants. -/
theorem liveIter_exact (f : Func) (eb : List Nat) (s : LiveState)
    (h1 : LiveSound f eb s) (h2 : LiveComplete f eb s) (n : Nat) :
    LiveSound f eb ((liveStep f)^[n] s) ∧ LiveComplete f eb ((liveStep f)^[n] s) := by
  induction n with
  | zero => exact ⟨h1, h2⟩
  | succ k ih =>
    rw [Function.iterate_succ_apply']
    exact ⟨liveStep_sound f eb _ ih.1, liveStep_complete f eb _ ih.2⟩

/-- The result of `computeLiveness` is the analysis object of a state of the loop
with an empty stack, reached from the initial state. -/
theorem computeLiveness_some (f : Func) (region : Region) (fuel : Nat) (a0 a : AllocaSSA)
    (h : a0.computeLiveness f region fuel = some a) :
    ∃ eb k, region.getEndingBlocks f [] = some eb ∧
      a = ((liveStep f)^[k] ⟨eb.reverse, ∅, a0⟩).ssa ∧
      ((liveStep f)^[k] ⟨eb.reverse, ∅, a0⟩).stack = [] := by
  unfold AllocaSSA.computeLiveness at h
  cases he : region.getEndingBlocks f [] with
  | none => rw [he] at h; cases h
  | some eb =>
    rw [he] at h
    simp only at h
    cases hl : liveLoop f fuel ⟨eb.reverse, ∅, a0⟩ with
    | none => rw [hl] at h; cases h
    | some st =>
      rw [hl] at h
      have ha : a = st.ssa := (Option.some.inj h).symm
      obtain ⟨k, hk, hs⟩ := liveLoop_some f fuel _ st hl
      exact ⟨eb, k, rfl, by rw [ha, hk], by rw [← hk]; exact hs⟩

/-- Soundness of `computeLiveness` on an object without live allocas: an alloca
live in a block is loaded through in a block that the block reaches and that
reaches an ending block. -/
theorem computeLiveness_sound (f : Func) (region : Region) (fuel : Nat) (a0 a : AllocaSSA)
    (eb : List Nat) (h0 : ∀ b, a0.liveSet b = ∅) (he : region.getEndingBlocks f [] = some eb)
    (h : a0.computeLiveness f region fuel = some a) :
    a.instProvenance = a0.instProvenance ∧
    ∀ c x, x ∈ a.liveSet c →
      ∃ S, f.Reachable c S ∧ ReachesEnding f eb S ∧ LoadsThrough f a.instProvenance S x := by
  obtain ⟨eb', k, he', ha, hs⟩ := computeLiveness_some f region fuel a0 a h
  rw [he] at he'
  cases he'
  have hinit : LiveSound f eb ⟨eb.reverse, ∅, a0⟩ := by
    constructor
    · intro c hc
      exact ⟨c, List.mem_reverse.mp hc, Relation.ReflTransGen.refl⟩
    · intro c x hx
      rw [h0 c] at hx
      simp at hx
  have hk : ∀ n, LiveSound f eb ((liveStep f)^[n] ⟨eb.reverse, ∅, a0⟩) := by
    intro n
    induction n with
    | zero => exact hinit
    | succ m ih =>
      rw [Function.iterate_succ_apply']
      exact liveStep_sound f eb _ ih
  refine ⟨(computeLiveness_bounds f region fuel a0 a (fun _ => True)
    (fun _ _ _ _ _ => trivial) h).1, ?_⟩
  rw [ha]
  exact (hk k).2

/-- The only load of `phiLoopLoad` whose address is an instruction reads through
the `getelementptr` of the latch. -/
theorem phiLoopLoad_loads (S k : Nat) (p : InstId) (flag : Bool)
    (h : phiLoopLoad.instAt ⟨S, k⟩ = some (Inst.load (Value.inst p) flag)) : p = ⟨3, 0⟩ := by
  rcases S with _ | _ | _ | _ | _ | S
  · rcases k with _ | _ | k <;> simp [Func.instAt, Func.block, phiLoopLoad] at h
  · rcases k with _ | _ | k <;> simp [Func.instAt, Func.block, phiLoopLoad] at h
  · rcases k with _ | k <;> simp [Func.instAt, Func.block, phiLoopLoad] at h
  · rcases k with _ | _ | _ | k <;> simp [Func.instAt, Func.block, phiLoopLoad] at h
  · rcases k with _ | _ | k <;> simp [Func.instAt, Func.block, phiLoopLoad] at h
    exact h.1.symm
  · simp [Func.instAt, Func.block, phiLoopLoad] at h

/-- C23 (counterexample).  On `phiLoopLoad` with the region of the whole function,
`compute` is run on a fresh object and then the provenance pass and the liveness
pass are run again on the result, as a second `compute` does.  The first run
records the alloca `a` for the `getelementptr` `i` and so makes `a` live in every
block; the second provenance pass raises `i` to Wildcard with an empty set; the
second liveness pass leaves the live sets as they are.  Afterwards `a` is live in
the entry block although no block at all holds a load whose address operand is an
instruction whose recorded provenance has `a` in its set. -/
theorem stale_liveness_survives_rerun :
    ∃ a1 p2 a2 eb, AllocaSSA.new.compute phiLoopLoad (functionRegion 5) 20 = some a1 ∧
      a1.computePointerProvenance phiLoopLoad (functionRegion 5).getRegionEntry 20 = some p2 ∧
      p2.computeLiveness phiLoopLoad (functionRegion 5) 20 = some a2 ∧
      (functionRegion 5).getEndingBlocks phiLoopLoad [] = some eb ∧
      a2.isLive ⟨0, 0⟩ 0 = true ∧
      ¬ ∃ S, phiLoopLoad.Reachable 0 S ∧ ReachesEnding phiLoopLoad eb S ∧
        LoadsThrough phiLoopLoad a2.instProvenance S ⟨0, 0⟩ :=
  ⟨_, _, _, _, rfl, rfl, rfl, rfl, by decide, by
    rintro ⟨S, -, -, k, p, flag, v, hi, hm, hx⟩
    cases phiLoopLoad_loads S k p flag hi
    revert hx
    cases Option.some.inj hm
    decide⟩

/-- C23 (amended).  After `computeLiveness` on an object in which no alloca was live
in any block before the pass (as in the first `compute` on a fresh object), an
alloca `x` is live in block `B` if and only if there is a block `S`, reachable
from `B` along CFG successor edges (`S` may be `B`), from which an ending block
of the region is reachable and which holds a load whose address operand is an
instruction whose recorded provenance has `x` in its allocation set. -/
theorem liveness_exact (f : Func) (region : Region) (fuel : Nat) (a0 a : AllocaSSA)
    (h0 : ∀ b, a0.liveSet b = ∅) (h : a0.computeLiveness f region fuel = some a) :
    ∃ eb, region.getEndingBlocks f [] = some eb ∧
      ∀ x B, a.isLive x B = true ↔
        ∃ S, f.Reachable B S ∧ ReachesEnding f eb S ∧ LoadsThrough f a.instProvenance S x := by
  obtain ⟨eb, k, he, ha, hs⟩ := computeLiveness_some f region fuel a0 a h
  refine ⟨eb, he, ?_⟩
  intro x B
  rw [isLive_iff]
  constructor
  · exact (computeLiveness_sound f region fuel a0 a eb h0 he h).2 B x
  · rintro ⟨S, hBS, ⟨E, hE, hSE⟩, hload⟩
    have hinitS : LiveSound f eb ⟨eb.reverse, ∅, a0⟩ := by
      constructor
      · intro c hc
        exact ⟨c, List.mem_reverse.mp hc, Relation.ReflTransGen.refl⟩
      · intro c x hx
        rw [h0 c] at hx
        simp at hx
    have hinitC : LiveComplete f eb ⟨eb.reverse, ∅, a0⟩ := by
      refine ⟨fun E hE => Or.inr (List.mem_reverse.mpr hE), ?_, ?_⟩
      · intro c hc; simp at hc
      · intro c hc; simp at hc
    have hinitL : LiveInv f ⟨eb.reverse, ∅, a0⟩ := by
      intro B _ P _ _
      show a0.liveSet B ⊆ a0.liveSet P
      rw [h0 B]
      exact Finset.empty_subset _
    obtain ⟨_, c1, c2, c3⟩ := liveIter_exact f eb _ hinitS hinitC k
    have hL := liveIter_inv f _ hinitL k
    rw [hs] at c1 c2
    rw [← ha] at c3
    -- every block that reaches an ending block has been visited
    have hvis : ∀ T, f.Reachable T E →
        T ∈ ((liveStep f)^[k] ⟨eb.reverse, ∅, a0⟩).alreadyVisited := by
      intro T hT
      induction hT using Relation.ReflTransGen.head_induction_on with
      | refl =>
        rcases c1 E hE with q | q
        · exact q
        · cases q
      | head hedge _ ih =>
        rename_i u v _
        by_cases huv : u = v
        · rw [huv]; exact ih
        · have hu : u ∈ f.preds v := by
            rw [mem_preds]
            refine ⟨?_, hedge⟩
            by_contra hlt
            rw [succs_out_of_range f u (by omega)] at hedge
            cases hedge
          rcases c2 v ih u hu huv with q | q
          · exact q
          · cases q
    -- the alloca is live in `S` and is handed back along the path from `B`
    have hS : x ∈ a.liveSet S := c3 S (hvis S hSE) x hload
    have hback : ∀ T, f.Reachable T S → x ∈ a.liveSet T := by
      intro T hT
      induction hT using Relation.ReflTransGen.head_induction_on with
      | refl => exact hS
      | head hedge _ ih =>
        rename_i u v _
        by_cases huv : u = v
        · rw [huv]; exact ih
        · have hu : u ∈ f.preds v := by
            rw [mem_preds]
            refine ⟨?_, hedge⟩
            by_contra hlt
            rw [succs_out_of_range f u (by omega)] at hedge
            cases hedge
          have := hL v (by rw [hs]; simp) u hu huv
          rw [← ha] at this
          exact this ih
    exact hback B hBS

/-! ## Pointer provenance pass: properties shared by all records -/

/-- The result of `merge` is well formed. -/
theorem merge_wellFormed (p q : PtrProvenance) : (p.merge q).2.WellFormed := by
  unfold PtrProvenance.merge PtrProvenance.WellFormed
  simp only
  split
  · intro _; rfl
  · rename_i hne
    intro h
    exact absurd h hne

/-- Assignment keeps `ProvAll` when the new record qualifies. -/
theorem provAll_mapSet (G : PtrProvenance → Prop) (prov : List (InstId × PtrProvenance))
    (k : InstId) (v : PtrProvenance) (h : ProvAll G prov) (hv : G v) :
    ProvAll G (mapSet prov k v) := by
  intro i w hw
  rw [mapFind_mapSet] at hw
  split at hw
  · have : v = w := Option.some.inj hw
    subst this
    exact hv
  · exact h i w hw

/-- The operand loop of the generic transformer keeps a property of `oldProv` that
`merge` keeps. -/
theorem joinOperands_all (G : PtrProvenance → Prop)
    (hmerge : ∀ p q, G p → G q → G (p.merge q).2)
    (prov : List (InstId × PtrProvenance)) (h : ProvAll G prov) (ops : List Value) :
    ∀ acc : Bool × PtrProvenance, G acc.2 → G (joinOperands prov ops acc).2 := by
  induction ops with
  | nil => intro acc hacc; simpa [joinOperands] using hacc
  | cons o rest ih =>
    intro acc hacc
    obtain ⟨c, p⟩ := acc
    cases o with
    | other n => simpa [joinOperands] using ih (c, p) hacc
    | inst op =>
      unfold joinOperands
      cases hm : mapFind prov op with
      | none => simpa [hm] using ih (c, p) hacc
      | some q =>
        simp only [hm]
        apply ih
        exact hmerge p q hacc (h op q hm)

/-- The scan body of the provenance pass keeps a property of all records that
holds for the three values the pass creates and that `merge` keeps. -/
theorem provInst_all (G : PtrProvenance → Prop)
    (hempty : G PtrProvenance.empty) (hwild : G (PtrProvenance.ofType ProvType.Wildcard))
    (halloca : ∀ i, G (PtrProvenance.ofAlloca i))
    (hmerge : ∀ p q, G p → G q → G (p.merge q).2)
    (id : InstId) (inst : Inst) (st : Bool × List (InstId × PtrProvenance))
    (h : ProvAll G st.2) : ProvAll G (provInst id inst st).2 := by
  cases inst with
  | other operands p =>
    cases p with
    | false => exact h
    | true =>
      have e : provInst id (.other operands true) st =
          if (joinOperands
              (if (mapFind st.2 id).isSome then st.2 else mapSet st.2 id PtrProvenance.empty)
              operands
              (false, (mapFind
                (if (mapFind st.2 id).isSome then st.2 else mapSet st.2 id PtrProvenance.empty)
                id).getD PtrProvenance.empty)).1
          then (true, mapSet
              (if (mapFind st.2 id).isSome then st.2 else mapSet st.2 id PtrProvenance.empty) id
              (joinOperands
                (if (mapFind st.2 id).isSome then st.2 else mapSet st.2 id PtrProvenance.empty)
                operands
                (false, (mapFind
                  (if (mapFind st.2 id).isSome then st.2 else mapSet st.2 id PtrProvenance.empty)
                  id).getD PtrProvenance.empty)).2)
          else (st.1,
            if (mapFind st.2 id).isSome then st.2 else mapSet st.2 id PtrProvenance.empty) := rfl
      rw [e]
      have hprov : ProvAll G
          (if (mapFind st.2 id).isSome then st.2 else mapSet st.2 id PtrProvenance.empty) := by
        split
        · exact h
        · exact provAll_mapSet G _ _ _ h hempty
      have hold : G ((mapFind
          (if (mapFind st.2 id).isSome then st.2 else mapSet st.2 id PtrProvenance.empty)
          id).getD PtrProvenance.empty) := by
        cases hm : mapFind
          (if (mapFind st.2 id).isSome then st.2 else mapSet st.2 id PtrProvenance.empty)
          id with
        | none => simpa using hempty
        | some w => simpa using hprov id w hm
      generalize (if (mapFind st.2 id).isSome then st.2
        else mapSet st.2 id PtrProvenance.empty) = prov at hprov hold ⊢
      by_cases hc : (joinOperands prov operands
          (false, (mapFind prov id).getD PtrProvenance.empty)).1 = true
      · rw [if_pos hc]
        exact provAll_mapSet G _ _ _ hprov
          (joinOperands_all G hmerge prov hprov operands
            (false, (mapFind prov id).getD PtrProvenance.empty) hold)
      · rw [if_neg hc]
        exact hprov
  | alloca =>
    have e : provInst id Inst.alloca st =
        if (mapFind st.2 id).isSome then st
        else (true, mapSet st.2 id (PtrProvenance.ofAlloca id)) := rfl
    rw [e]
    split
    · exact h
    · exact provAll_mapSet G _ _ _ h (halloca id)
  | load ptr p =>
    cases p with
    | false => exact h
    | true =>
      have e : provInst id (.load ptr true) st =
          if (mapFind st.2 id).isSome then st
          else (true, mapSet st.2 id (PtrProvenance.ofType ProvType.Wildcard)) := rfl
      rw [e]
      split
      · exact h
      · exact provAll_mapSet G _ _ _ h hwild
  | call c r args p =>
    cases p with
    | false => exact h
    | true =>
      have e : provInst id (.call c r args true) st =
          if (mapFind st.2 id).isSome then st
          else (true, mapSet st.2 id (PtrProvenance.ofType ProvType.Wildcard)) := rfl
      rw [e]
      split
      · exact h
      · exact provAll_mapSet G _ _ _ h hwild
  | store val ptr => exact h
  | memTransfer d s => exact h

/-- The provenance pass keeps a property of all records that holds for the three
values the pass creates and that `merge` keeps. -/
theorem computePointerProvenance_all (G : PtrProvenance → Prop)
    (hempty : G PtrProvenance.empty) (hwild : G (PtrProvenance.ofType ProvType.Wildcard))
    (halloca : ∀ i, G (PtrProvenance.ofAlloca i))
    (hmerge : ∀ p q, G p → G q → G (p.merge q).2)
    (f : Func) (entry fuel : Nat) (a0 a : AllocaSSA)
    (h0 : ProvAll G a0.instProvenance)
    (h : a0.computePointerProvenance f entry fuel = some a) :
    ProvAll G a.instProvenance := by
  unfold AllocaSSA.computePointerProvenance at h
  simp only [Option.map_eq_some'] at h
  obtain ⟨st, hst, e⟩ := h
  rw [← e]
  obtain ⟨k, hk, _⟩ := provLoop_some f fuel _ st hst
  have hstep : ∀ s : ProvState, ProvAll G s.instProvenance →
      ProvAll G (provStep f s).instProvenance := by
    intro s hs
    unfold provStep
    cases hw : s.worklist with
    | nil => exact hs
    | cons b rest =>
      have hscan := forInsts_invariant b provInst
        (fun _ s' => ProvAll G s'.2) (f.block b).insts 0
        (decide (b ∉ s.seenBlocks), s.instProvenance) hs
        (fun _ inst s' _ hP => provInst_all G hempty hwild halloca hmerge _ inst s' hP)
      simp only
      split
      · exact hscan
      · exact hscan
  have key : ∀ n, ProvAll G ((provStep f)^[n] (provInit entry a0)).instProvenance := by
    intro n
    induction n with
    | zero => exact h0
    | succ m ih =>
      rw [Function.iterate_succ_apply']
      exact hstep _ ih
  simpa [hk] using key k

/-- The definition pass leaves the provenance map and the live sets alone. -/
theorem computeDefs_frame (f : Func) (region : Region) (fuel : Nat) (a2 a : AllocaSSA)
    (h : a2.computeDefs f region fuel = some a) :
    a.instProvenance = a2.instProvenance ∧ ∀ c, a.liveSet c = a2.liveSet c := by
  exact computeDefs_induction f region fuel
    (fun s => s.instProvenance = a2.instProvenance ∧ ∀ c, s.liveSet c = a2.liveSet c)
    (by
      intro av b s hs
      exact ⟨(defBlock_instProvenance f av b s).trans hs.1,
        fun c => (defBlock_liveSet f av b s c).trans (hs.2 c)⟩)
    a2 a ⟨rfl, fun _ => rfl⟩ h

/-- C27 (counterexample).  On `phiLoopLoad` with the region of the whole function,
`compute` is run three times, the first time on a fresh object.  After the second
run, and again after the third, every load whose address is an instruction reads
through a pointer of Wildcard provenance (the one such load reads through the
`getelementptr` `i`, Wildcard from the second run on), and yet the alloca `a`,
made live by the first run, is live in the entry block. -/
theorem wildcard_loads_keep_alloca_live :
    ∃ a1 a2 a3, AllocaSSA.new.compute phiLoopLoad (functionRegion 5) 20 = some a1 ∧
      a1.compute phiLoopLoad (functionRegion 5) 20 = some a2 ∧
      a2.compute phiLoopLoad (functionRegion 5) 20 = some a3 ∧
      (∀ S k p flag, phiLoopLoad.instAt ⟨S, k⟩ = some (Inst.load (Value.inst p) flag) →
        (a2.getProvenance (Value.inst p)).isTop = true) ∧
      a2.isLive ⟨0, 0⟩ 0 = true ∧
      (∀ S k p flag, phiLoopLoad.instAt ⟨S, k⟩ = some (Inst.load (Value.inst p) flag) →
        (a3.getProvenance (Value.inst p)).isTop = true) ∧
      a3.isLive ⟨0, 0⟩ 0 = true :=
  ⟨_, _, _, rfl, rfl, rfl,
    (fun S k p flag h => by cases phiLoopLoad_loads S k p flag h; decide), by decide,
    (fun S k p flag h => by cases phiLoopLoad_loads S k p flag h; decide), by decide⟩

/-- C27 (amended).  Started on an object in which no alloca is live in any block and
every recorded Wildcard value has an empty set (a fresh object is one), if after
`compute` every load of the function whose address is an instruction reads
through a pointer of Wildcard provenance, then no alloca is live in any block. -/
theorem wildcard_loads_make_nothing_live (f : Func) (region : Region) (fuel : Nat)
    (a0 a : AllocaSSA)
    (hwf : ∀ i v, mapFind a0.instProvenance i = some v → v.WellFormed)
    (h0 : ∀ b, a0.liveSet b = ∅)
    (h : a0.compute f region fuel = some a)
    (hw : ∀ S k p flag, f.instAt ⟨S, k⟩ = some (Inst.load (Value.inst p) flag) →
      (a.getProvenance (Value.inst p)).isTop = true) :
    ∀ x b, a.isLive x b = false := by
  obtain ⟨a1, a2, h1, h2, h3⟩ := compute_stages f region fuel a0 a h
  have hwf1 : ProvAll PtrProvenance.WellFormed a1.instProvenance :=
    computePointerProvenance_all PtrProvenance.WellFormed
      (by intro hc; cases hc) (by intro _; rfl) (by intro i hc; cases hc)
      (fun p q _ _ => merge_wellFormed p q) f _ fuel a0 a1 hwf h1
  have hl1 : ∀ b, a1.liveSet b = ∅ := by
    intro b
    have := (computePointerProvenance_frame f _ fuel a0 a1 h1).1
    simp only [AllocaSSA.liveSet, AllocaSSA.summary, this]
    exact h0 b
  obtain ⟨eb, k, he, _, _⟩ := computeLiveness_some f region fuel a1 a2 h2
  obtain ⟨p2, s2⟩ := computeLiveness_sound f region fuel a1 a2 eb hl1 he h2
  obtain ⟨p3, l3⟩ := computeDefs_frame f region fuel a2 a h3
  intro x b
  cases hx : a.isLive x b with
  | false => rfl
  | true =>
    exfalso
    rw [isLive_iff, l3 b] at hx
    obtain ⟨S, _, _, j, p, flag, v, hj, hv, hxv⟩ := s2 b x hx
    have htop := hw S j p flag hj
    have hrec : a.getProvenance (Value.inst p) = v := by
      simp [AllocaSSA.getProvenance, p3, hv]
    rw [hrec] at htop
    have hW : v.provType = ProvType.Wildcard := by
      simpa [PtrProvenance.isTop] using htop
    have := hwf1 p v (by rw [← p2]; exact hv) hW
    rw [this] at hxv
    simp at hxv

/-! ## Liveness: termination -/

/-- The allocas of a record are among the allocas of all records. -/
theorem mem_provAllocs (prov : List (InstId × PtrProvenance)) (p : InstId) (v : PtrProvenance)
    (h : mapFind prov p = some v) : v.allocs ⊆ provAllocs prov := by
  induction prov with
  | nil => cases h
  | cons e rest ih =>
    obtain ⟨k, w⟩ := e
    simp only [mapFind] at h
    simp only [provAllocs, List.foldr_cons]
    split at h
    · cases h
      exact Finset.subset_union_left
    · exact (ih h).trans Finset.subset_union_right

/-- An iteration of the liveness loop on a non-empty stack reduces the work left
and keeps the invariant. -/
theorem liveStep_decreases (f : Func) (W : Finset Nat) (Tot : Finset InstId) (st : LiveState)
    (hne : st.stack ≠ []) (h : LiveTermInv f W Tot st) :
    liveMeasure f W Tot (liveStep f st) < liveMeasure f W Tot st ∧
      LiveTermInv f W Tot (liveStep f st) := by
  cases hw : st.stack with
  | nil => exact absurd hw hne
  | cons curr rest =>
    obtain ⟨changed, live, pushed, s1, s2, s3, s4, s5, s6, s7, s8, s9⟩ :=
      liveStep_spec f st curr rest hw
    obtain ⟨t1, t2, t3, t4, t5⟩ := h
    have hcurrW : curr ∈ W := t1 curr (by rw [hw]; exact List.mem_cons_self _ _)
    have hloadTot : ∀ c x, LoadsThrough f st.ssa.instProvenance c x → x ∈ Tot := by
      rintro c x ⟨_, p, _, v, _, hv, hx⟩
      exact t4 (mem_provAllocs _ p v hv hx)
    have hliveTot : live ⊆ Tot := by
      intro x hx
      rcases (s1 x).mp hx with q | q
      · exact t3 curr hcurrW q
      · exact hloadTot curr x q
    have hmono : ∀ c, st.ssa.liveSet c ⊆ (liveStep f st).ssa.liveSet c := by
      intro c x hx
      rw [s6 c]
      by_cases hc : c = curr
      · rw [if_pos hc]
        exact (s1 x).mpr (Or.inl (hc ▸ hx))
      · rw [if_neg hc]
        split
        · exact Finset.mem_union_left _ hx
        · exact hx
    have hpushedW : ∀ p ∈ pushed, p ∈ W := by
      intro p hp
      exact t2 p ((mem_preds f curr p).mp ((s7 p).mp hp).1).1
    -- the invariant
    have hinv : LiveTermInv f W Tot (liveStep f st) := by
      refine ⟨?_, t2, ?_, ?_, ?_⟩
      · intro c hc
        rw [s3] at hc
        rcases List.mem_append.mp hc with q | q
        · exact hpushedW c q
        · exact t1 c (by rw [hw]; exact List.mem_cons_of_mem _ q)
      · intro c hc
        rw [s6 c]
        split
        · exact hliveTot
        · split
          · exact Finset.union_subset (t3 c hc) hliveTot
          · exact t3 c hc
      · rw [s5]; exact t4
      · intro c hc x hx
        rw [s5] at hx
        rw [s4] at hc
        by_cases hcc : c = curr
        · rw [s6 c, if_pos hcc]
          exact (s1 x).mpr (Or.inr (hcc ▸ hx))
        · rcases Finset.mem_insert.mp hc with q | q
          · exact absurd q hcc
          · exact hmono c (t5 c q x hx)
    refine ⟨?_, hinv⟩
    -- the third summand does not grow
    have hC : Finset.sum W (fun p => (Tot \ (liveStep f st).ssa.liveSet p).card) ≤
        Finset.sum W (fun p => (Tot \ st.ssa.liveSet p).card) := by
      apply Finset.sum_le_sum
      intro p _
      exact Finset.card_le_card (Finset.sdiff_subset_sdiff (Finset.Subset.refl _) (hmono p))
    simp only [liveMeasure, s3, s4, hw, List.length_append, List.length_cons]
    by_cases hv : curr ∈ st.alreadyVisited
    · -- a later visit: only predecessors whose live set grows are pushed
      have hsub : live ⊆ st.ssa.liveSet curr := by
        intro x hx
        rcases (s1 x).mp hx with q | q
        · exact q
        · exact t5 curr hv x q
      have hch : changed = false := by
        cases hc : changed with
        | false => rfl
        | true =>
          rcases s2.mp hc with q | q
          · exact absurd hv q
          · exact absurd hsub q
      rw [Finset.insert_eq_of_mem hv]
      have hnd := s8 hch
      have hcard : pushed.length = Finset.sum W (fun p => if p ∈ pushed then 1 else 0) := by
        rw [← Finset.card_filter, ← List.toFinset_card_of_nodup hnd]
        congr 1
        ext p
        simp only [List.mem_toFinset, Finset.mem_filter]
        exact ⟨fun hp => ⟨hpushedW p hp, hp⟩, fun hp => hp.2⟩
      have hC2 : Finset.sum W (fun p => (Tot \ (liveStep f st).ssa.liveSet p).card) +
          pushed.length ≤ Finset.sum W (fun p => (Tot \ st.ssa.liveSet p).card) := by
        rw [hcard, ← Finset.sum_add_distrib]
        apply Finset.sum_le_sum
        intro p _
        by_cases hp : p ∈ pushed
        · rw [if_pos hp]
          obtain ⟨q1, q2, q3⟩ := (s7 p).mp hp
          have hgrow : ¬ live ⊆ st.ssa.liveSet p := by
            rcases q3 with q3 | q3
            · rw [hch] at q3; cases q3
            · exact q3
          obtain ⟨x, hx, hnx⟩ := Finset.not_subset.mp hgrow
          have hss : Tot \ (liveStep f st).ssa.liveSet p ⊂ Tot \ st.ssa.liveSet p := by
            rw [Finset.ssubset_iff_of_subset
              (Finset.sdiff_subset_sdiff (Finset.Subset.refl _) (hmono p))]
            refine ⟨x, Finset.mem_sdiff.mpr ⟨hliveTot hx, hnx⟩, ?_⟩
            intro hmem
            apply (Finset.mem_sdiff.mp hmem).2
            rw [s6 p, if_neg q2, if_pos q1]
            exact Finset.mem_union_right _ hx
          exact Finset.card_lt_card hss
        · rw [if_neg hp]
          exact Finset.card_le_card (Finset.sdiff_subset_sdiff (Finset.Subset.refl _) (hmono p))
      omega
    · -- the first visit: every predecessor is pushed at most once per edge
      have hset : W \ insert curr st.alreadyVisited = (W \ st.alreadyVisited).erase curr := by
        ext b
        simp only [Finset.mem_sdiff, Finset.mem_insert, not_or, Finset.mem_erase]
        tauto
      have hB : Finset.sum ((W \ st.alreadyVisited).erase curr)
            (fun b => (f.preds b).length + 1) + ((f.preds curr).length + 1) =
          Finset.sum (W \ st.alreadyVisited) (fun b => (f.preds b).length + 1) :=
        Finset.sum_erase_add _ _ (Finset.mem_sdiff.mpr ⟨hcurrW, hv⟩)
      rw [hset]
      omega

/-- With fuel for the work left, the loop of `computeLiveness` ends. -/
theorem liveLoop_terminates (f : Func) (W : Finset Nat) (Tot : Finset InstId) :
    ∀ (n : Nat) (st : LiveState), liveMeasure f W Tot st ≤ n → LiveTermInv f W Tot st →
      ∃ st', liveLoop f n st = some st' := by
  intro n
  induction n with
  | zero =>
    intro st hm _
    have : st.stack = [] := by
      have : st.stack.length = 0 := by
        unfold liveMeasure at hm
        omega
      exact List.length_eq_zero.mp this
    exact ⟨st, by simp [liveLoop, this]⟩
  | succ m ih =>
    intro st hm hinv
    by_cases he : st.stack = []
    · exact ⟨st, by simp [liveLoop, he]⟩
    · obtain ⟨hd, hi⟩ := liveStep_decreases f W Tot st he hinv
      obtain ⟨st', h1⟩ := ih (liveStep f st) (by omega) hi
      exact ⟨st', by simp [liveLoop, he, h1]⟩

/-- C28.  For every function, every region and every analysis object (whatever
provenance map and live sets it holds), `computeLiveness` returns when given
enough fuel; and in every iteration of its loop a predecessor of the block taken
from the stack is pushed only when that block is visited for the first time or
when the live set of the predecessor becomes strictly larger. -/
theorem computeLiveness_terminates (f : Func) (region : Region) (a0 : AllocaSSA) :
    (∃ fuel a, a0.computeLiveness f region fuel = some a) ∧
    ∀ eb, region.getEndingBlocks f [] = some eb → ∀ k curr rest,
      ((liveStep f)^[k] ⟨eb.reverse, ∅, a0⟩).stack = curr :: rest →
      ∃ pushed, ((liveStep f)^[k + 1] ⟨eb.reverse, ∅, a0⟩).stack = pushed ++ rest ∧
        ∀ p ∈ pushed, curr ∈ f.succs p ∧
          (curr ∉ ((liveStep f)^[k] ⟨eb.reverse, ∅, a0⟩).alreadyVisited ∨
            ((liveStep f)^[k] ⟨eb.reverse, ∅, a0⟩).ssa.liveSet p ⊂
              ((liveStep f)^[k + 1] ⟨eb.reverse, ∅, a0⟩).ssa.liveSet p) := by
  have hinit : ∀ eb : List Nat,
      LiveTermInv f (eb.reverse.toFinset ∪ Finset.range f.blocks.length)
        (provAllocs a0.instProvenance ∪
          (eb.reverse.toFinset ∪ Finset.range f.blocks.length).biUnion (fun c => a0.liveSet c))
        ⟨eb.reverse, ∅, a0⟩ := by
    intro eb
    refine ⟨?_, ?_, ?_, ?_, ?_⟩
    · intro c hc
      exact Finset.mem_union_left _ (List.mem_toFinset.mpr hc)
    · intro p hp
      exact Finset.mem_union_right _ (Finset.mem_range.mpr hp)
    · intro c hc
      exact (Finset.subset_biUnion_of_mem (fun c => a0.liveSet c) hc).trans
        Finset.subset_union_right
    · exact Finset.subset_union_left
    · intro c hc; simp at hc
  constructor
  · obtain ⟨eb, he⟩ := getEndingBlocks_nil_some f region
    obtain ⟨st, hst⟩ := liveLoop_terminates f _ _ _ ⟨eb.reverse, ∅, a0⟩ (Nat.le_refl _)
      (hinit eb)
    refine ⟨liveMeasure f (eb.reverse.toFinset ∪ Finset.range f.blocks.length)
      (provAllocs a0.instProvenance ∪
        (eb.reverse.toFinset ∪ Finset.range f.blocks.length).biUnion (fun c => a0.liveSet c))
      ⟨eb.reverse, ∅, a0⟩, st.ssa, ?_⟩
    simp only [AllocaSSA.computeLiveness, he, hst, Option.map_some']
  · intro eb _ k curr rest hw
    have hk : ∀ n, LiveTermInv f (eb.reverse.toFinset ∪ Finset.range f.blocks.length)
        (provAllocs a0.instProvenance ∪
          (eb.reverse.toFinset ∪ Finset.range f.blocks.length).biUnion (fun c => a0.liveSet c))
        ((liveStep f)^[n] ⟨eb.reverse, ∅, a0⟩) := by
      intro n
      induction n with
      | zero => exact hinit eb
      | succ m ih =>
        rw [Function.iterate_succ_apply']
        by_cases hs : ((liveStep f)^[m] ⟨eb.reverse, ∅, a0⟩).stack = []
        · rw [liveStep_nil f _ hs]; exact ih
        · exact (liveStep_decreases f _ _ _ hs ih).2
    obtain ⟨_, _, _, _, t5⟩ := hk k
    obtain ⟨changed, live, pushed, s1, s2, s3, s4, s5, s6, s7, _, _⟩ :=
      liveStep_spec f _ curr rest hw
    rw [Function.iterate_succ_apply']
    refine ⟨pushed, s3, ?_⟩
    intro p hp
    obtain ⟨q1, q2, q3⟩ := (s7 p).mp hp
    refine ⟨((mem_preds f curr p).mp q1).2, ?_⟩
    by_cases hv : curr ∈ ((liveStep f)^[k] ⟨eb.reverse, ∅, a0⟩).alreadyVisited
    · right
      have hsub : live ⊆ ((liveStep f)^[k] ⟨eb.reverse, ∅, a0⟩).ssa.liveSet curr := by
        intro x hx
        rcases (s1 x).mp hx with q | q
        · exact q
        · exact t5 curr hv x q
      have hgrow : ¬ live ⊆ ((liveStep f)^[k] ⟨eb.reverse, ∅, a0⟩).ssa.liveSet p := by
        rcases q3 with q3 | q3
        · rcases s2.mp q3 with q | q
          · exact absurd hv q
          · exact absurd hsub q
        · exact q3
      rw [s6 p, if_neg q2, if_pos q1]
      rw [Finset.ssubset_iff_of_subset Finset.subset_union_left]
      obtain ⟨x, hx, hnx⟩ := Finset.not_subset.mp hgrow
      exact ⟨x, Finset.mem_union_right _ hx, hnx⟩
    · exact Or.inl hv

/-! ## Instances of the theorems above on the example functions -/

/-- Witness for C24: the store of the `then` block of the diamond, handled with an
empty effect map, gets a new `Effect`. -/
theorem effect_assignment_witness :
    (GetWrittenPointers (Inst.store (.other 1) (.inst ⟨0, 0⟩))).1 = true ∧
    ∃ memEffect,
      mapFind (defInst ⟨[(⟨0, 0⟩, PtrProvenance.ofAlloca ⟨0, 0⟩)], [], []⟩
        (collectAllocas (functionRegion 4).getRegionEntry 0
          (diamond.block (functionRegion 4).getRegionEntry).insts)
        ⟨1, 0⟩ (Inst.store (.other 1) (.inst ⟨0, 0⟩)) (false, [], ∅)).2.1 ⟨1, 0⟩
        = some memEffect ∧
      memEffect = Desc.Effect 1 ⟨1, 0⟩ 0 :=
  ⟨by decide,
    (effect_assignment diamond (functionRegion 4)
      ⟨[(⟨0, 0⟩, PtrProvenance.ofAlloca ⟨0, 0⟩)], [], []⟩ ⟨1, 0⟩
      (Inst.store (.other 1) (.inst ⟨0, 0⟩)) (false, [], ∅) (by decide)).imp
      (fun m h => ⟨h.1, h.2.1 rfl⟩)⟩

/-- Witness for C23: the liveness pass on the diamond, with the provenance of the
alloca recorded and no alloca live before. -/
theorem liveness_exact_witness :
    ∃ a, (AllocaSSA.mk [(⟨0, 0⟩, PtrProvenance.ofAlloca ⟨0, 0⟩)] [] []).computeLiveness
        diamond (functionRegion 4) 20 = some a ∧
      ∃ eb, (functionRegion 4).getEndingBlocks diamond [] = some eb ∧
        ∀ x B, a.isLive x B = true ↔
          ∃ S, diamond.Reachable B S ∧ ReachesEnding diamond eb S ∧
            LoadsThrough diamond a.instProvenance S x :=
  ⟨_, rfl, liveness_exact diamond (functionRegion 4) 20
    (AllocaSSA.mk [(⟨0, 0⟩, PtrProvenance.ofAlloca ⟨0, 0⟩)] [] []) _ (fun _ => rfl) rfl⟩

/-- Witness for C27: `compute` on a function whose only load through an instruction
reads through a loaded pointer. -/
theorem wildcard_loads_make_nothing_live_witness :
    ∃ a, AllocaSSA.new.compute wildLoad (functionRegion 1) 20 = some a ∧
      ∀ x b, a.isLive x b = false :=
  ⟨_, rfl, wildcard_loads_make_nothing_live wildLoad (functionRegion 1) 20 AllocaSSA.new _
    (by intro i v h; simp [AllocaSSA.new, mapFind] at h) (fun _ => rfl) rfl
    (by
      intro S k p flag h
      rcases S with _ | S
      · rcases k with _ | _ | _ | _ | k <;>
          simp [Func.instAt, Func.block, wildLoad] at h
        obtain ⟨rfl, _⟩ := h
        decide
      · simp [Func.instAt, Func.block, wildLoad] at h)⟩

/-! ## Definition and join tracking: a block list on which the loop does not end -/

/-- The result of the fuel-bounded provenance loop does not depend on the fuel. -/
theorem provLoop_unique (f : Func) :
    ∀ (n m : Nat) (s a b : ProvState), provLoop f n s = some a → provLoop f m s = some b →
      a = b := by
  intro n
  induction n with
  | zero =>
    intro m s a b ha hb
    by_cases hw : s.worklist = []
    · have e1 : a = s := by simpa [provLoop, hw] using ha.symm
      have e2 : b = s := by cases m <;> simpa [provLoop, hw] using hb.symm
      rw [e1, e2]
    · simp [provLoop, hw] at ha
  | succ k ih =>
    intro m s a b ha hb
    by_cases hw : s.worklist = []
    · have e1 : a = s := by simpa [provLoop, hw] using ha.symm
      have e2 : b = s := by cases m <;> simpa [provLoop, hw] using hb.symm
      rw [e1, e2]
    · cases m with
      | zero => simp [provLoop, hw] at hb
      | succ j =>
        simp only [provLoop, hw, if_false] at ha hb
        exact ih j _ a b ha hb

/-- The result of the fuel-bounded liveness loop does not depend on the fuel. -/
theorem liveLoop_unique (f : Func) :
    ∀ (n m : Nat) (s a b : LiveState), liveLoop f n s = some a → liveLoop f m s = some b →
      a = b := by
  intro n
  induction n with
  | zero =>
    intro m s a b ha hb
    by_cases hw : s.stack = []
    · have e1 : a = s := by simpa [liveLoop, hw] using ha.symm
      have e2 : b = s := by cases m <;> simpa [liveLoop, hw] using hb.symm
      rw [e1, e2]
    · simp [liveLoop, hw] at ha
  | succ k ih =>
    intro m s a b ha hb
    by_cases hw : s.stack = []
    · have e1 : a = s := by simpa [liveLoop, hw] using ha.symm
      have e2 : b = s := by cases m <;> simpa [liveLoop, hw] using hb.symm
      rw [e1, e2]
    · cases m with
      | zero => simp [liveLoop, hw] at hb
      | succ j =>
        simp only [liveLoop, hw, if_false] at ha hb
        exact ih j _ a b ha hb

/-- The result of `computePointerProvenance` does not depend on the fuel. -/
theorem computePointerProvenance_unique (f : Func) (entry n m : Nat) (a r1 r2 : AllocaSSA)
    (h1 : a.computePointerProvenance f entry n = some r1)
    (h2 : a.computePointerProvenance f entry m = some r2) : r1 = r2 := by
  unfold AllocaSSA.computePointerProvenance at h1 h2
  simp only [Option.map_eq_some'] at h1 h2
  obtain ⟨s1, hs1, e1⟩ := h1
  obtain ⟨s2, hs2, e2⟩ := h2
  rw [← e1, ← e2, provLoop_unique f n m _ s1 s2 hs1 hs2]

/-- The result of `computeLiveness` does not depend on the fuel. -/
theorem computeLiveness_unique (f : Func) (region : Region) (n m : Nat) (a r1 r2 : AllocaSSA)
    (h1 : a.computeLiveness f region n = some r1)
    (h2 : a.computeLiveness f region m = some r2) : r1 = r2 := by
  unfold AllocaSSA.computeLiveness at h1 h2
  cases he : region.getEndingBlocks f [] with
  | none => rw [he] at h1; cases h1
  | some eb =>
    rw [he] at h1 h2
    simp only [Option.map_eq_some'] at h1 h2
    obtain ⟨s1, hs1, e1⟩ := h1
    obtain ⟨s2, hs2, e2⟩ := h2
    rw [← e1, ← e2, liveLoop_unique f n m _ s1 s2 hs1 hs2]

/-- A sequence of two fallible steps that yields a result has an intermediate
result, from which the second step yields the final one. -/
theorem bind_getD_of_isSome {α β : Type} (x : Option α) (g : α → Option β) (d : β)
    (h : (x.bind g).isSome = true) : ∃ a, x = some a ∧ g a = some ((x.bind g).getD d) := by
  cases x with
  | none => cases h
  | some a =>
    refine ⟨a, rfl, ?_⟩
    cases hg : g a with
    | none => simp [hg] at h
    | some b => simp [hg]

/-- A state of the definition loop that asks for another sweep and recurs after two
sweeps, the state in between also asking for another sweep, never leads to a
result. -/
theorem defLoop_cycle (f : Func) (region : Region) (allocVec : List InstId) (s : DefState)
    (h1 : s.keepGoing = true) (h2 : (defSweep f region allocVec s).keepGoing = true)
    (h3 : defSweep f region allocVec (defSweep f region allocVec s) = s) (n : Nat) :
    defLoop f region allocVec n s = none ∧
      defLoop f region allocVec n (defSweep f region allocVec s) = none := by
  induction n with
  | zero => simp [defLoop, h1, h2]
  | succ k ih => simp [defLoop, h1, h2, h3, ih.1, ih.2]

/-- A state that recurs after two applications recurs after every even number of
applications. -/
theorem iterate_even_of_period_two {σ : Type} (g : σ → σ) (s : σ) (h : g (g s) = s) (k : Nat) :
    g^[2 * k] s = s := by
  induction k with
  | zero => rfl
  | succ j ih =>
    have e : 2 * (j + 1) = 2 * j + 2 := by ring
    rw [e, Function.iterate_add_apply]
    show g^[2 * j] (g (g s)) = s
    rw [h, ih]

set_option maxRecDepth 1000000 in
/-- The definition loop on a block list with a second way in.  On `joinFlip`, with
a function region built from all blocks but `n` (control comes back in from `n`
at `c`, so the block list is neither the whole function nor a single-entry part
of it), the provenance pass and the liveness pass return, and then the
definition loop of `compute` does not end for any number of sweeps:
every sweep from the third on changes the last definition of `y` in block `b`,
from the `Join` of `p` to the `Join` of `b` and back, so `compute` never
returns. -/
theorem definition_loop_diverges :
    (∃ a1, AllocaSSA.new.computePointerProvenance joinFlip joinFlipRegion.getRegionEntry 40
        = some a1 ∧
      a1.computeLiveness joinFlip joinFlipRegion 40 = some joinFlipLive) ∧
    (∀ fuel, joinFlipLive.computeDefs joinFlip joinFlipRegion fuel = none) ∧
    (∀ k, (joinFlipSweeps (3 + 2 * k)).keepGoing = true ∧
      (⟨0, 1⟩, Desc.Join 5) ∈ ((joinFlipSweeps (3 + 2 * k)).ssa.summary 5).lastDef ∧
      (joinFlipSweeps (4 + 2 * k)).keepGoing = true ∧
      (⟨0, 1⟩, Desc.Join 3) ∈ ((joinFlipSweeps (4 + 2 * k)).ssa.summary 5).lastDef) ∧
    (∀ fuel, AllocaSSA.new.compute joinFlip joinFlipRegion fuel = none) := by
  have hP : ∃ a1, AllocaSSA.new.computePointerProvenance joinFlip joinFlipRegion.getRegionEntry 40
        = some a1 ∧
      a1.computeLiveness joinFlip joinFlipRegion 40 = some joinFlipLive := by
    unfold joinFlipLive
    exact bind_getD_of_isSome _ _ _ (by decide)
  have k0 : (joinFlipSweeps 0).keepGoing = true := rfl
  have k1 : (joinFlipSweeps 1).keepGoing = true := by decide
  have k2 : (joinFlipSweeps 2).keepGoing = true := by decide
  have k3 : (joinFlipSweeps 3).keepGoing = true := by decide
  have k4 : (joinFlipSweeps 4).keepGoing = true := by decide
  have hper : joinFlipSweeps 5 = joinFlipSweeps 3 := by decide
  have m3 : (⟨0, 1⟩, Desc.Join 5) ∈ ((joinFlipSweeps 3).ssa.summary 5).lastDef := by decide
  have m4 : (⟨0, 1⟩, Desc.Join 3) ∈ ((joinFlipSweeps 4).ssa.summary 5).lastDef := by decide
  have hstep : ∀ k, joinFlipSweeps (k + 1) =
      defSweep joinFlip joinFlipRegion
        (collectAllocas joinFlipRegion.getRegionEntry 0
          (joinFlip.block joinFlipRegion.getRegionEntry).insts) (joinFlipSweeps k) := by
    intro k
    simp only [joinFlipSweeps, Function.iterate_succ_apply']
  have hcyc := defLoop_cycle joinFlip joinFlipRegion
    (collectAllocas joinFlipRegion.getRegionEntry 0
      (joinFlip.block joinFlipRegion.getRegionEntry).insts) (joinFlipSweeps 3) k3
    (by rw [← hstep 3]; exact k4)
    (by rw [← hstep 3, ← hstep 4]; exact hper)
  have hdefs : ∀ fuel, joinFlipLive.computeDefs joinFlip joinFlipRegion fuel = none := by
    intro fuel
    have e0 : (⟨{joinFlipRegion.getRegionEntry}, true, joinFlipLive⟩ : DefState) =
        joinFlipSweeps 0 := rfl
    unfold AllocaSSA.computeDefs
    simp only [e0]
    rcases fuel with _ | _ | _ | k
    · simp [defLoop, k0]
    · simp [defLoop, k0, ← hstep, k1]
    · simp [defLoop, k0, ← hstep, k1, k2]
    · simp [defLoop, k0, ← hstep, k1, k2, (hcyc k).1]
  refine ⟨hP, hdefs, ?_, ?_⟩
  · intro k
    have hp3 : ∀ j, joinFlipSweeps (3 + 2 * j) = joinFlipSweeps 3 := by
      intro j
      have := iterate_even_of_period_two
        (defSweep joinFlip joinFlipRegion
          (collectAllocas joinFlipRegion.getRegionEntry 0
            (joinFlip.block joinFlipRegion.getRegionEntry).insts)) (joinFlipSweeps 3)
        (by rw [← hstep 3, ← hstep 4]; exact hper) j
      have e : joinFlipSweeps (3 + 2 * j) =
          (defSweep joinFlip joinFlipRegion
            (collectAllocas joinFlipRegion.getRegionEntry 0
              (joinFlip.block joinFlipRegion.getRegionEntry).insts))^[2 * j]
            (joinFlipSweeps 3) := by
        simp only [joinFlipSweeps]
        rw [← Function.iterate_add_apply, Nat.add_comm]
      rw [e, this]
    have hp4 : ∀ j, joinFlipSweeps (4 + 2 * j) = joinFlipSweeps 4 := by
      intro j
      have e : 4 + 2 * j = (3 + 2 * j) + 1 := by ring
      rw [e, hstep, hp3 j, ← hstep]
    rw [hp3 k, hp4 k]
    exact ⟨k3, m3, k4, m4⟩
  · intro fuel
    obtain ⟨a1, h1, h2⟩ := hP
    unfold AllocaSSA.compute
    cases hp : AllocaSSA.new.computePointerProvenance joinFlip joinFlipRegion.getRegionEntry fuel with
    | none => rfl
    | some b1 =>
      have e1 : b1 = a1 := computePointerProvenance_unique _ _ _ _ _ _ _ hp h1
      subst e1
      simp only
      cases hl : b1.computeLiveness joinFlip joinFlipRegion fuel with
      | none => rfl
      | some b2 =>
        have e2 : b2 = joinFlipLive := computeLiveness_unique _ _ _ _ _ _ _ hl h2
        subst e2
        exact hdefs fuel

/-! ## Pointer provenance pass: the ranks of the records -/

/-- The value `merge` leaves in the receiver is recordable when both values are. -/
theorem merge_recordable (p q : PtrProvenance) (hp : p.Recordable) (hq : q.Recordable) :
    (p.merge q).2.Recordable := by
  refine ⟨?_, merge_wellFormed p q⟩
  have hmax : ProvType.max p.provType q.provType ≠ ProvType.External := by
    unfold ProvType.max
    split
    · exact hq.1
    · exact hp.1
  unfold PtrProvenance.merge
  simp only
  split
  · exact hmax
  · exact hmax

/-- An iteration of the provenance loop keeps a property of all records that holds
for the three values the pass creates and that `merge` keeps. -/
theorem provStep_all (G : PtrProvenance → Prop)
    (hempty : G PtrProvenance.empty) (hwild : G (PtrProvenance.ofType ProvType.Wildcard))
    (halloca : ∀ i, G (PtrProvenance.ofAlloca i))
    (hmerge : ∀ p q, G p → G q → G (p.merge q).2)
    (f : Func) (s : ProvState) (hs : ProvAll G s.instProvenance) :
    ProvAll G (provStep f s).instProvenance := by
  unfold provStep
  cases hw : s.worklist with
  | nil => exact hs
  | cons b rest =>
    have hscan := forInsts_invariant b provInst
      (fun _ s' => ProvAll G s'.2) (f.block b).insts 0
      (decide (b ∉ s.seenBlocks), s.instProvenance) hs
      (fun _ inst s' _ hP => provInst_all G hempty hwild halloca hmerge _ inst s' hP)
    simp only
    split
    · exact hscan
    · exact hscan

/-- C33.  Started on an object whose records are recordable (a fresh object has
none), every iteration of the loop of `computePointerProvenance` keeps them so,
and after the pass every record has rank `Tracked` or `Wildcard`, every
`Wildcard` record has an empty allocation set, and `getProvenance` returns rank
`External` exactly for the values that are not instructions. -/
theorem recorded_provenance_ranks (f : Func) (entry fuel : Nat) (a0 a : AllocaSSA)
    (h0 : ProvAll PtrProvenance.Recordable a0.instProvenance)
    (h : a0.computePointerProvenance f entry fuel = some a) :
    (∀ i v, mapFind a.instProvenance i = some v →
      (v.provType = ProvType.Tracked ∨ v.provType = ProvType.Wildcard) ∧
      (v.provType = ProvType.Wildcard → v.allocs = ∅)) ∧
    (∀ v, (a.getProvenance v).provType = ProvType.External ↔ ∃ n, v = Value.other n) ∧
    (∀ st : ProvState, ProvAll PtrProvenance.Recordable st.instProvenance →
      ProvAll PtrProvenance.Recordable (provStep f st).instProvenance) := by
  have hE : PtrProvenance.Recordable PtrProvenance.empty :=
    ⟨(by intro hc; cases hc), (by intro hc; cases hc)⟩
  have hW : PtrProvenance.Recordable (PtrProvenance.ofType ProvType.Wildcard) :=
    ⟨(by intro hc; cases hc), (by intro _; rfl)⟩
  have hA : ∀ i, PtrProvenance.Recordable (PtrProvenance.ofAlloca i) :=
    fun i => ⟨(by intro hc; cases hc), (by intro hc; cases hc)⟩
  have hall := computePointerProvenance_all PtrProvenance.Recordable hE hW hA
    merge_recordable f entry fuel a0 a h0 h
  refine ⟨?_, ?_, ?_⟩
  · intro i v hv
    obtain ⟨h1, h2⟩ := hall i v hv
    refine ⟨?_, h2⟩
    cases ht : v.provType with
    | Tracked => exact Or.inl rfl
    | External => exact absurd ht h1
    | Wildcard => exact Or.inr rfl
  · intro v
    cases v with
    | other n =>
      constructor
      · intro _; exact ⟨n, rfl⟩
      · intro _; rfl
    | inst i =>
      constructor
      · intro hx
        exfalso
        cases hm : mapFind a.instProvenance i with
        | none =>
          simp [AllocaSSA.getProvenance, hm, AllocaSSA.emptyProvSingle,
            PtrProvenance.empty] at hx
        | some w =>
          simp only [AllocaSSA.getProvenance, hm] at hx
          exact (hall i w hm).1 hx
      · rintro ⟨n, hn⟩
        cases hn
  · intro st hst
    exact provStep_all PtrProvenance.Recordable hE hW hA merge_recordable f st hst

/-- Witness for C33: the provenance pass on `phiLoop` from a fresh object; the
load in the latch is recorded as `Wildcard` with an empty set. -/
theorem recorded_provenance_ranks_witness :
    ∃ a, AllocaSSA.new.computePointerProvenance phiLoop 0 40 = some a ∧
      mapFind a.instProvenance ⟨3, 1⟩ = some (PtrProvenance.ofType ProvType.Wildcard) ∧
      ∀ i v, mapFind a.instProvenance i = some v →
        (v.provType = ProvType.Tracked ∨ v.provType = ProvType.Wildcard) ∧
        (v.provType = ProvType.Wildcard → v.allocs = ∅) :=
  ⟨_, rfl, by decide,
    (recorded_provenance_ranks phiLoop 0 40 AllocaSSA.new _
      (by intro i v hv; simp [AllocaSSA.new, mapFind] at hv) rfl).1⟩

/-! ## Definition and join tracking: rank and growth of the join sets -/

/-- The `joinSet` built by the predecessor loop has rank `Tracked`. -/
theorem defJoin_tracked (f : Func) (a : AllocaSSA) (curr : Nat) :
    (defJoin f a curr).2.provType = ProvType.Tracked := by
  unfold defJoin
  generalize f.preds curr = ps
  have key : ∀ (ps : List Nat) (st : Finset (InstId × Desc) × PtrProvenance),
      st.2.provType = ProvType.Tracked →
      (ps.foldl (joinPred a curr) st).2.provType = ProvType.Tracked := by
    intro ps
    induction ps with
    | nil => intro st hs; exact hs
    | cons p rest ih =>
      intro st hs
      simp only [List.foldl_cons]
      apply ih
      simpa [joinPred] using hs
  exact key ps _ rfl

/-- Merging a `Tracked` value into a `Tracked` value leaves a `Tracked` value that
holds the allocas it held. -/
theorem merge_tracked (p q : PtrProvenance) (hp : p.provType = ProvType.Tracked)
    (hq : q.provType = ProvType.Tracked) :
    (p.merge q).2.provType = ProvType.Tracked ∧ p.allocs ⊆ (p.merge q).2.allocs := by
  unfold PtrProvenance.merge
  simp only [hp, hq]
  have hmax : ProvType.max ProvType.Tracked ProvType.Tracked = ProvType.Tracked := rfl
  rw [hmax]
  have hne : ¬ ProvType.Tracked = ProvType.Wildcard := by intro hc; cases hc
  rw [if_neg hne]
  exact ⟨rfl, Finset.subset_union_left⟩

/-- The join set of a block after the block has been processed. -/
theorem defBlock_joinSet (f : Func) (allocVec : List InstId) (b : Nat) (a : AllocaSSA)
    (c : Nat) :
    (defBlock f allocVec b a).2.2.joinSet c =
      if c = b then ((a.joinSet b).merge (defJoin f (requestPreds f b a) b).2).2
      else a.joinSet c := by
  by_cases hc : c = b
  · subst hc
    simp only [AllocaSSA.joinSet, defBlock, summary_setSummary, if_true]
    rw [requestPreds_summary]
  · rw [if_neg hc]
    simp only [AllocaSSA.joinSet, defBlock_summary f allocVec b a c hc]

/-- Processing a block keeps every join set `Tracked` and does not remove an
alloca from a join set. -/
theorem defBlock_joinTracked (f : Func) (allocVec : List InstId) (b : Nat) (a : AllocaSSA)
    (h : JoinTracked a) :
    JoinTracked (defBlock f allocVec b a).2.2 ∧
      ∀ c, (a.joinSet c).allocs ⊆ ((defBlock f allocVec b a).2.2.joinSet c).allocs := by
  have hm := merge_tracked (a.joinSet b) (defJoin f (requestPreds f b a) b).2 (h b)
    (defJoin_tracked f _ b)
  constructor
  · intro c
    rw [defBlock_joinSet]
    split
    · exact hm.1
    · exact h c
  · intro c
    rw [defBlock_joinSet]
    split
    · rename_i hc
      rw [hc]
      exact hm.2
    · exact Finset.Subset.refl _

/-- An iteration of the liveness loop leaves the join sets alone and keeps
`JoinLive`. -/
theorem liveStep_joinLive (f : Func) (st : LiveState) :
    (∀ c, (liveStep f st).ssa.joinSet c = st.ssa.joinSet c) ∧
      (JoinLive st.ssa → JoinLive (liveStep f st).ssa) := by
  have hj : ∀ c, (liveStep f st).ssa.joinSet c = st.ssa.joinSet c :=
    fun c => (liveStep_frame f st c).1
  refine ⟨hj, ?_⟩
  intro h c
  rw [hj c]
  exact (h c).trans
    ((liveStep_bounds f st (fun _ => True) (fun _ _ _ _ _ => trivial)).2.1 c)

/-- The liveness pass leaves the join sets alone. -/
theorem computeLiveness_joinSet (f : Func) (region : Region) (fuel : Nat) (a0 a : AllocaSSA)
    (h : a0.computeLiveness f region fuel = some a) (c : Nat) :
    a.joinSet c = a0.joinSet c := by
  obtain ⟨eb, k, _, ha, _⟩ := computeLiveness_some f region fuel a0 a h
  have key : ∀ n (s : LiveState), ((liveStep f)^[n] s).ssa.joinSet c = s.ssa.joinSet c := by
    intro n
    induction n with
    | zero => intro s; rfl
    | succ m ih =>
      intro s
      rw [Function.iterate_succ_apply', (liveStep_joinLive f _).1 c]
      exact ih s
  rw [ha]
  exact key k _

/-- C32.  Started on an object whose join sets are `Tracked` and hold live allocas
only (a fresh object, or the result of an earlier `compute`), every iteration of
the liveness loop and every visit of a block in the definition pass keep them
so and do not remove an alloca from a join set, and so does `compute` as a whole:
afterwards every join set has rank `Tracked`, holds what it held before, and
holds only allocas that are live in its block. -/
theorem join_sets_tracked_growing_live (f : Func) (region : Region) (fuel : Nat)
    (a0 a : AllocaSSA) (ht : JoinTracked a0) (hl : JoinLive a0)
    (h : a0.compute f region fuel = some a) :
    (JoinTracked a ∧ (∀ b, (a0.joinSet b).allocs ⊆ (a.joinSet b).allocs) ∧ JoinLive a) ∧
    (∀ st : LiveState, JoinTracked st.ssa → JoinLive st.ssa →
      JoinTracked (liveStep f st).ssa ∧
      (∀ b, (st.ssa.joinSet b).allocs ⊆ ((liveStep f st).ssa.joinSet b).allocs) ∧
      JoinLive (liveStep f st).ssa) ∧
    (∀ allocVec b (s : AllocaSSA), JoinTracked s → JoinLive s →
      JoinTracked (defBlock f allocVec b s).2.2 ∧
      (∀ c, (s.joinSet c).allocs ⊆ ((defBlock f allocVec b s).2.2.joinSet c).allocs) ∧
      JoinLive (defBlock f allocVec b s).2.2) := by
  have hdef : ∀ allocVec b (s : AllocaSSA), JoinTracked s → JoinLive s →
      JoinTracked (defBlock f allocVec b s).2.2 ∧
      (∀ c, (s.joinSet c).allocs ⊆ ((defBlock f allocVec b s).2.2.joinSet c).allocs) ∧
      JoinLive (defBlock f allocVec b s).2.2 := by
    intro av b s hs1 hs2
    obtain ⟨d1, d2⟩ := defBlock_joinTracked f av b s hs1
    exact ⟨d1, d2, defBlock_joinLive f av b s hs2⟩
  refine ⟨?_, ?_, hdef⟩
  · obtain ⟨a1, a2, h1, h2, h3⟩ := compute_stages f region fuel a0 a h
    have hb := (computePointerProvenance_frame f _ fuel a0 a1 h1).1
    have j1 : ∀ c, a1.joinSet c = a0.joinSet c := by
      intro c; simp only [AllocaSSA.joinSet, AllocaSSA.summary, hb]
    have l1 : JoinLive a1 := by
      intro c
      have := hl c
      simpa only [AllocaSSA.joinSet, AllocaSSA.liveSet, AllocaSSA.summary, hb] using this
    have j2 : ∀ c, a2.joinSet c = a0.joinSet c :=
      fun c => (computeLiveness_joinSet f region fuel a1 a2 h2 c).trans (j1 c)
    have l2 : JoinLive a2 := computeLiveness_joinLive f region fuel a1 a2 l1 h2
    have fin := computeDefs_induction f region fuel
      (fun s => JoinTracked s ∧ (∀ c, (a0.joinSet c).allocs ⊆ (s.joinSet c).allocs) ∧
        JoinLive s)
      (by
        intro av b s hs
        obtain ⟨d1, d2, d3⟩ := hdef av b s hs.1 hs.2.2
        exact ⟨d1, fun c => (hs.2.1 c).trans (d2 c), d3⟩)
      a2 a
      (by
        refine ⟨?_, ?_, l2⟩
        · intro c; rw [j2 c]; exact ht c
        · intro c; rw [j2 c])
      h3
    exact fin
  · intro st hs1 hs2
    obtain ⟨e1, e2⟩ := liveStep_joinLive f st
    refine ⟨?_, ?_, e2 hs2⟩
    · intro c; rw [e1 c]; exact hs1 c
    · intro c; rw [e1 c]

/-- Witness for C32: `compute` on the diamond with an initialising store, from a
fresh object; the join set of the merge block holds the alloca. -/
theorem join_sets_tracked_growing_live_witness :
    ∃ a, AllocaSSA.new.compute diamondStore (functionRegion 4) 20 = some a ∧
      (a.joinSet 3).allocs = {⟨0, 0⟩} ∧ JoinTracked a ∧ JoinLive a :=
  ⟨_, rfl, by decide,
    (join_sets_tracked_growing_live diamondStore (functionRegion 4) 20 AllocaSSA.new _
      (fun _ => rfl) (fun _ => Finset.empty_subset _) rfl).1.1,
    (join_sets_tracked_growing_live diamondStore (functionRegion 4) 20 AllocaSSA.new _
      (fun _ => rfl) (fun _ => Finset.empty_subset _) rfl).1.2.2⟩

/-! ## Definition and join tracking: an entry block without writes -/

/-- Without a pointer-typed argument the argument loop of `GetWrittenPointers`
records nothing. -/
theorem writtenArgs_no_pointer (u : Finset Nat) (args : List CallArg)
    (h : args.all (fun c => !c.isPointerTy) = true) :
    ∀ acc : Nat × List Value, writtenArgs u args acc = acc := by
  induction args with
  | nil => intro acc; obtain ⟨i, w⟩ := acc; simp [writtenArgs]
  | cons c rest ih =>
    intro acc
    obtain ⟨i, w⟩ := acc
    simp only [List.all_cons, Bool.and_eq_true] at h
    unfold writtenArgs
    simp only [h.1, if_true]
    exact ih h.2 (i, w)

/-- For an instruction that is none of the writing instructions
`GetWrittenPointers` returns `false`. -/
theorem quiet_not_written (inst : Inst) (h : inst.isQuiet = true) :
    (GetWrittenPointers inst).1 = false := by
  cases inst with
  | store v p => simp [Inst.isQuiet] at h
  | memTransfer d s => simp [Inst.isQuiet] at h
  | call callee ro args pt =>
    cases ro with
    | true => simp [GetWrittenPointers]
    | false =>
      have ha : args.all (fun c => !c.isPointerTy) = true := by
        simpa [Inst.isQuiet] using h
      simp [GetWrittenPointers, writtenArgs_no_pointer _ args ha]
  | alloca => rfl
  | load p t => rfl
  | other o t => rfl

/-- The predecessor loop of the definition pass finds nothing when no block has a
last definition. -/
theorem defJoin_clean (f : Func) (a : AllocaSSA) (curr : Nat)
    (h : ∀ b, (a.summary b).lastDef = ∅) :
    defJoin f a curr = (∅, PtrProvenance.empty) := by
  unfold defJoin
  generalize f.preds curr = ps
  induction ps with
  | nil => rfl
  | cons p rest ih =>
    simp only [List.foldl_cons]
    have e : joinPred a curr (∅, PtrProvenance.empty) p = (∅, PtrProvenance.empty) := by
      simp [joinPred, h p, PtrProvenance.empty]
    rw [e]
    exact ih

/-- The instruction scan of the definition pass changes nothing in a block
without writing instructions. -/
theorem defScan_quiet (a : AllocaSSA) (allocVec : List InstId) (b : Nat) (l : List Inst)
    (h : ∀ inst ∈ l, inst.isQuiet = true) :
    ∀ (k : Nat) (s : Bool × List (InstId × Desc) × Finset (InstId × Desc)),
      forInsts b (defInst a allocVec) k l s = s := by
  induction l with
  | nil => intro k s; rfl
  | cons i rest ih =>
    intro k s
    have hi : defInst a allocVec ⟨b, k⟩ i s = s := by
      simp [defInst, quiet_not_written i (h i (List.mem_cons_self _ _))]
    simp only [forInsts, hi]
    exact ih (fun inst hm => h inst (List.mem_cons_of_mem _ hm)) (k + 1) s

/-- Processing a block without writing instructions in an object without traces of
the definition pass reports no change and leaves no trace. -/
theorem defBlock_clean (f : Func) (allocVec : List InstId) (b : Nat) (a : AllocaSSA)
    (hq : ∀ inst ∈ (f.block b).insts, inst.isQuiet = true) (h : DefsClean a) :
    (defBlock f allocVec b a).1 = false ∧ (defBlock f allocVec b a).2.1 = false ∧
      DefsClean (defBlock f allocVec b a).2.2 := by
  obtain ⟨he, hs⟩ := h
  have hl : ∀ c, ((requestPreds f b a).summary c).lastDef = ∅ := by
    intro c; rw [requestPreds_summary]; exact (hs c).1
  have hj := defJoin_clean f (requestPreds f b a) b hl
  have hsum : (requestPreds f b a).summary b = a.summary b := requestPreds_summary f b a b
  have hmerge : (PtrProvenance.empty.merge PtrProvenance.empty) = (false, PtrProvenance.empty) := by
    decide
  have hset : defSetAll (∅ : Finset (InstId × Desc)) PtrProvenance.empty.allocs (Desc.Join b)
      = ∅ := by
    simp [defSetAll, PtrProvenance.empty]
  have hscan := defScan_quiet (requestPreds f b a) allocVec b (f.block b).insts hq 0
    (false, (requestPreds f b a).instEffects, (∅ : Finset (InstId × Desc)))
  have e : defBlock f allocVec b a =
      (false, false, ({ requestPreds f b a with
        instEffects := (requestPreds f b a).instEffects }).setSummary b
          ⟨(a.summary b).liveAllocas, PtrProvenance.empty, ∅⟩) := by
    simp only [defBlock, hj, hsum, (hs b).2, (hs b).1, hmerge, hset, hscan]
    simp
  rw [e]
  refine ⟨rfl, rfl, ?_, ?_⟩
  · simp only [AllocaSSA.setSummary]
    rw [requestPreds_instEffects]
    exact he
  · intro c
    rw [summary_setSummary]
    by_cases hc : b = c
    · rw [if_pos hc]
      exact ⟨rfl, rfl⟩
    · rw [if_neg hc]
      have : ({ requestPreds f b a with
          instEffects := (requestPreds f b a).instEffects } : AllocaSSA).summary c =
          (requestPreds f b a).summary c := rfl
      rw [this, requestPreds_summary]
      exact hs c

/-- The visitor of the definition pass on the state in which only a block without
writing instructions is scheduled, the object being without traces of the
definition pass: the block is processed and nothing is scheduled any more;
every other block is skipped. -/
theorem defVisit_quiet (f : Func) (allocVec : List InstId) (e : Nat) (a : AllocaSSA)
    (hq : ∀ inst ∈ (f.block e).insts, inst.isQuiet = true) (h : DefsClean a) (b : Nat) :
    (defVisit f allocVec b ⟨{e}, false, a⟩).2 =
        (if b = e then ⟨∅, false, (defBlock f allocVec e a).2.2⟩ else ⟨{e}, false, a⟩) ∧
    ∀ a', (defVisit f allocVec b ⟨∅, false, a'⟩).2 = ⟨∅, false, a'⟩ := by
  constructor
  · by_cases hb : b = e
    · subst hb
      obtain ⟨c1, c2, _⟩ := defBlock_clean f allocVec b a hq h
      simp [defVisit, c1, c2]
    · simp [defVisit, hb]
  · intro a'
    simp [defVisit]

/-- One sweep of the definition pass from the initial state, the entry block being
without writing instructions and the object without traces of the definition
pass: no further sweep is asked for, and the entry block is the only block that
may have been processed. -/
theorem defSweep_quiet (f : Func) (region : Region) (allocVec : List InstId) (a : AllocaSSA)
    (hq : ∀ inst ∈ (f.block region.getRegionEntry).insts, inst.isQuiet = true)
    (h : DefsClean a) :
    defSweep f region allocVec ⟨{region.getRegionEntry}, true, a⟩ =
        ⟨{region.getRegionEntry}, false, a⟩ ∨
      defSweep f region allocVec ⟨{region.getRegionEntry}, true, a⟩ =
        ⟨∅, false, (defBlock f allocVec region.getRegionEntry a).2.2⟩ := by
  unfold defSweep Region.forBlocksRpo
  generalize f.rpo = l
  simp only
  have hdone : ∀ (l : List Nat) (a' : AllocaSSA),
      l.foldl (fun acc b =>
        if (region.mImpl.contains b || decide (b ∈ region.extraBlocks)) = true
        then (defVisit f allocVec b acc).2 else acc) ⟨∅, false, a'⟩ = ⟨∅, false, a'⟩ := by
    intro l
    induction l with
    | nil => intro a'; rfl
    | cons b rest ih =>
      intro a'
      simp only [List.foldl_cons]
      rw [(defVisit_quiet f allocVec region.getRegionEntry a hq h b).2 a']
      simp only [ite_self]
      exact ih a'
  induction l with
  | nil => exact Or.inl rfl
  | cons b rest ih =>
    simp only [List.foldl_cons]
    rw [(defVisit_quiet f allocVec region.getRegionEntry a hq h b).1]
    by_cases hc : (region.mImpl.contains b || decide (b ∈ region.extraBlocks)) = true
    · rw [if_pos hc]
      by_cases hb : b = region.getRegionEntry
      · rw [if_pos hb]
        exact Or.inr (hdone rest _)
      · rw [if_neg hb]
        exact ih
    · rw [if_neg hc]
      exact ih

/-- The liveness pass leaves no trace of the definition pass in an object that had
none. -/
theorem computeLiveness_defsClean (f : Func) (region : Region) (fuel : Nat) (a0 a : AllocaSSA)
    (h0 : DefsClean a0) (h : a0.computeLiveness f region fuel = some a) : DefsClean a := by
  obtain ⟨eb, k, _, ha, _⟩ := computeLiveness_some f region fuel a0 a h
  have key : ∀ n (s : LiveState) (c : Nat),
      (((liveStep f)^[n] s).ssa.summary c).allocJoin = (s.ssa.summary c).allocJoin ∧
      (((liveStep f)^[n] s).ssa.summary c).lastDef = (s.ssa.summary c).lastDef := by
    intro n
    induction n with
    | zero => intro s c; exact ⟨rfl, rfl⟩
    | succ m ih =>
      intro s c
      rw [Function.iterate_succ_apply']
      obtain ⟨f1, f2⟩ := liveStep_frame f ((liveStep f)^[m] s) c
      exact ⟨f1.trans (ih s c).1, f2.trans (ih s c).2⟩
  refine ⟨(computeLiveness_instEffects f region fuel a0 a h).trans h0.1, ?_⟩
  intro c
  rw [ha]
  obtain ⟨k1, k2⟩ := key k ⟨eb.reverse, ∅, a0⟩ c
  exact ⟨k2.trans (h0.2 c).1, k1.trans (h0.2 c).2⟩

/-- C31.  If no instruction of the region entry block is a writing instruction and
the object holds no trace of the definition pass before (a fresh object), then
after `compute` there is no `Effect`, every block has an empty last-definition
map and a bottom join set, whatever the other blocks hold: the definition pass
makes one sweep, in which the entry block is the only block that may be
processed, and returns for every positive number of sweeps allowed. -/
theorem quiet_entry_stops_definition_pass (f : Func) (region : Region) (fuel : Nat)
    (a0 a : AllocaSSA)
    (hq : ∀ inst ∈ (f.block region.getRegionEntry).insts, inst.isQuiet = true)
    (h0 : DefsClean a0) (h : a0.compute f region fuel = some a) :
    a.instEffects = [] ∧
    (∀ b, (a.summary b).lastDef = ∅ ∧ a.joinSet b = PtrProvenance.empty) ∧
    ∃ a2, (a = a2 ∨
        a = (defBlock f
          (collectAllocas region.getRegionEntry 0 (f.block region.getRegionEntry).insts)
          region.getRegionEntry a2).2.2) ∧
      DefsClean a2 ∧
      ∀ k, a2.computeDefs f region (k + 1) = some a := by
  obtain ⟨a1, a2, h1, h2, h3⟩ := compute_stages f region fuel a0 a h
  obtain ⟨hb, he⟩ := computePointerProvenance_frame f _ fuel a0 a1 h1
  have c1 : DefsClean a1 := by
    refine ⟨he.trans h0.1, ?_⟩
    intro c
    have := h0.2 c
    simpa only [AllocaSSA.summary, hb] using this
  have c2 : DefsClean a2 := computeLiveness_defsClean f region fuel a1 a2 c1 h2
  -- one sweep, after which the loop ends
  have hrun : ∀ k, a2.computeDefs f region (k + 1) =
      some (defSweep f region
        (collectAllocas region.getRegionEntry 0 (f.block region.getRegionEntry).insts)
        ⟨{region.getRegionEntry}, true, a2⟩).ssa := by
    intro k
    have hk : (defSweep f region
        (collectAllocas region.getRegionEntry 0 (f.block region.getRegionEntry).insts)
        ⟨{region.getRegionEntry}, true, a2⟩).keepGoing = false := by
      rcases defSweep_quiet f region _ a2 hq c2 with e | e <;> rw [e]
    unfold AllocaSSA.computeDefs
    simp only [defLoop, if_true]
    cases k with
    | zero => simp [defLoop, hk]
    | succ j => simp [defLoop, hk]
  have ha : a = (defSweep f region
      (collectAllocas region.getRegionEntry 0 (f.block region.getRegionEntry).insts)
      ⟨{region.getRegionEntry}, true, a2⟩).ssa := by
    cases fuel with
    | zero =>
      simp [AllocaSSA.computeDefs, defLoop] at h3
    | succ k =>
      rw [hrun k] at h3
      exact (Option.some.inj h3).symm
  have hcase : a = a2 ∨ a = (defBlock f
      (collectAllocas region.getRegionEntry 0 (f.block region.getRegionEntry).insts)
      region.getRegionEntry a2).2.2 := by
    rcases defSweep_quiet f region _ a2 hq c2 with e | e
    · left; rw [ha, e]
    · right; rw [ha, e]
  have hclean : DefsClean a := by
    rcases hcase with e | e
    · rw [e]; exact c2
    · rw [e]; exact (defBlock_clean f _ _ a2 hq c2).2.2
  refine ⟨hclean.1, fun b => hclean.2 b, a2, hcase, c2, ?_⟩
  intro k
  rw [hrun k, ← ha]

/-- Witness for C31: `compute` on the diamond, whose entry block holds the alloca
and the branch only while both branch blocks store to the alloca. -/
theorem quiet_entry_stops_definition_pass_witness :
    ∃ a, AllocaSSA.new.compute diamond (functionRegion 4) 20 = some a ∧
      a.instEffects = [] ∧
      ∀ b, (a.summary b).lastDef = ∅ ∧ a.joinSet b = PtrProvenance.empty :=
  ⟨_, rfl,
    (quiet_entry_stops_definition_pass diamond (functionRegion 4) 20 AllocaSSA.new _
      (by decide) ⟨rfl, fun _ => ⟨rfl, rfl⟩⟩ rfl).1,
    (quiet_entry_stops_definition_pass diamond (functionRegion 4) 20 AllocaSSA.new _
      (by decide) ⟨rfl, fun _ => ⟨rfl, rfl⟩⟩ rfl).2.1⟩
